import Mathlib

/-!
# Server capabilities of the LSP 3.17 layer: trial decoding of untagged unions

The development embeds `ServerCapabilities.UnmarshalJSON` of package `protocol_3_17`
together with the part of Go's `encoding/json` it runs on, and proves properties
of the decoder and of the default struct encoder.

Conventions of the embedding.

* The input of a decoder is a parsed JSON text (`json.Value`), so every input is
  syntactically valid JSON. Objects keep their members in wire order, duplicates
  included, because `encoding/json` visits them in that order.
* A `json.RawMessage` is `Option json.Value`: `none` is the nil slice, `some v` the
  captured bytes of the value `v`.
* A Go pointer is an `Option`, `none` being nil. A Go `any` is an `Option` of the
  sum `protocol.Dynamic` of the concrete types the decoder stores.
* The receiver `self` is passed in and the final receiver is returned next to the
  error, so writes made before an error return stay visible.
-/

set_option autoImplicit false

namespace json

/-- A parsed JSON text. A number literal of integer form is `int`, any other number
literal is `float` and keeps its text. -/
inductive Value where
  | null
  | bool (b : Bool)
  | int (n : Int)
  | float (lit : String)
  | str (s : String)
  | arr (items : List Value)
  | obj (members : List (String × Value))

/-- The bytes of one JSON value captured undecoded; `none` is the nil slice. -/
abbrev RawMessage := Option Value

/-- The `UnmarshalTypeError` of `encoding/json`: the kind of JSON value met (`Value`)
and the Go type it could not be stored in (`Typ`, the field `Type` of the Go struct).
The byte offset and the struct and field context are positional and not represented. -/
structure UnmarshalTypeError where
  Value : String
  Typ : String
  deriving DecidableEq, Repr

/-- What a decode leaves behind: `ok v` is a nil error with `v` stored; `saved v e` is
a type mismatch `e` recorded while decoding went on, `v` being what was stored;
`abort e` is an error returned by an `UnmarshalJSON` method, which stops the decode. -/
inductive Decoded (α : Type) where
  | ok (v : α)
  | saved (v : α) (e : UnmarshalTypeError)
  | abort (e : UnmarshalTypeError)

namespace Decoded

variable {α β : Type}

/-- The error `json.Unmarshal` returns. -/
def err : Decoded α → Option UnmarshalTypeError
  | ok _ => none
  | saved _ e => some e
  | abort e => some e

/-- Store the decoded value through `f` (used for a field of an enclosing struct). -/
def map (f : α → β) : Decoded α → Decoded β
  | ok v => ok (f v)
  | saved v e => saved (f v) e
  | abort e => abort e

/-- The value a decode left stored, when it ran to the end. -/
def val? : Decoded α → Option α
  | ok v => some v
  | saved v _ => some v
  | abort _ => none

end Decoded

/-- The description `encoding/json` gives of a JSON value in a type error. -/
def kind : Value → String
  | .null => "null"
  | .bool _ => "bool"
  | .int _ => "number"
  | .float _ => "number"
  | .str _ => "string"
  | .arr _ => "array"
  | .obj _ => "object"

/-- Decode into a Go `bool`: `true` and `false` are stored, `null` leaves the target
as it is, every other value is a type mismatch. -/
def unmarshalBool (v : Value) (cur : Bool) : Decoded Bool :=
  match v with
  | .null => .ok cur
  | .bool b => .ok b
  | v => .saved cur ⟨kind v, "bool"⟩

/-- Decode into a Go `string`. -/
def unmarshalString (v : Value) (cur : String) : Decoded String :=
  match v with
  | .null => .ok cur
  | .str s => .ok s
  | v => .saved cur ⟨kind v, "string"⟩

/-- Decode into a pointer: `null` sets it to nil; otherwise a nil pointer is first
pointed at a fresh zero value and the value is decoded into the pointee. -/
def unmarshalPtr {α : Type} (zero : α) (elem : Value → α → Decoded α)
    (v : Value) (cur : Option α) : Decoded (Option α) :=
  match v with
  | .null => .ok none
  | v => (elem v (cur.getD zero)).map some

/-- Decode the elements of an array one after the other, each into a zero value;
the first recorded mismatch is the one kept. -/
def unmarshalElems {α : Type} (zero : α) (elem : Value → α → Decoded α) :
    List Value → List α → Option UnmarshalTypeError → Decoded (List α)
  | [], acc, none => .ok acc.reverse
  | [], acc, some e => .saved acc.reverse e
  | v :: rest, acc, sv =>
    match elem v zero with
    | .ok x => unmarshalElems zero elem rest (x :: acc) sv
    | .saved x e => unmarshalElems zero elem rest (x :: acc) (sv.orElse fun _ => some e)
    | .abort e => .abort e

/-- Decode into a slice: `null` gives the nil slice (here the empty list), an array
resets the slice and appends each element, anything else is a type mismatch. -/
def unmarshalSlice {α : Type} (typ : String) (zero : α) (elem : Value → α → Decoded α)
    (v : Value) (cur : List α) : Decoded (List α) :=
  match v with
  | .null => .ok []
  | .arr items => unmarshalElems zero elem items [] none
  | v => .saved cur ⟨kind v, typ⟩

/-- Case folding of one rune as far as it can reach an ASCII letter: ASCII letters
fold to upper case, U+017F (long s) to S and U+212A (Kelvin sign) to K. -/
def foldRune (c : Char) : Char :=
  if c = Char.ofNat 0x17F then 'S'
  else if c = Char.ofNat 0x212A then 'K'
  else c.toUpper

/-- The folded form of a key: two keys match case-insensitively when their folded
forms are equal. -/
def foldName (s : String) : String := ⟨s.data.map foldRune⟩

/-- A field of a struct type as `encoding/json` sees it: the wire name of the field
and how a JSON value is decoded into it inside a struct value. The fields of a struct
type are listed in the order of the declaration, promoted fields of an embedded struct
standing where the embedded struct stands. -/
structure Field (σ : Type) where
  name : String
  store : Value → σ → Decoded σ

/-- The field an object key is stored in: the field whose name equals the key, and
when there is none the first field whose name matches it case-insensitively. -/
def findField {σ : Type} (fields : List (Field σ)) (key : String) : Option (Field σ) :=
  match fields.find? (fun f => f.name = key) with
  | some f => some f
  | none => fields.find? (fun f => foldName f.name = foldName key)

/-- Decode the members of an object into a struct, in wire order. A member whose key
matches no field is skipped. Decoding goes on after a recorded mismatch and the first
one recorded is reported; an abort stops it. -/
def unmarshalMembers {σ : Type} (fields : List (Field σ)) :
    List (String × Value) → σ → Option UnmarshalTypeError → Decoded σ
  | [], s, none => .ok s
  | [], s, some e => .saved s e
  | (k, v) :: rest, s, sv =>
    match findField fields k with
    | none => unmarshalMembers fields rest s sv
    | some f =>
      match f.store v s with
      | .ok s1 => unmarshalMembers fields rest s1 sv
      | .saved s1 e => unmarshalMembers fields rest s1 (sv.orElse fun _ => some e)
      | .abort e => .abort e

/-- Decode into a struct without an `UnmarshalJSON` method: `null` leaves it as it
is, an object is decoded member by member, anything else is a type mismatch. -/
def unmarshalStruct {σ : Type} (typ : String) (fields : List (Field σ))
    (v : Value) (cur : σ) : Decoded σ :=
  match v with
  | .null => .ok cur
  | .obj members => unmarshalMembers fields members cur none
  | v => .saved cur ⟨kind v, typ⟩

/-- The raw value a field named `field` ends up with when the members of an object
are stored in wire order: the value of the last member stored in that field, and `cur`
when there is none. -/
def captured {σ : Type} (fields : List (Field σ)) (field : String) :
    List (String × Value) → Option Value → Option Value
  | [], cur => cur
  | (k, v) :: rest, cur =>
    captured fields field rest
      (if (findField fields k).map (·.name) = some field then some v else cur)

/-- The call `json.Unmarshal(data, &v)` as the decoder uses it: the returned error,
or the value stored in `v` when the error is nil. -/
def Unmarshal {α : Type} (decode : Value → α → Decoded α) (data : Value) (v : α) :
    Except UnmarshalTypeError α :=
  match decode data v with
  | .ok x => .ok x
  | .saved _ e => .error e
  | .abort e => .error e

end json

namespace protocol316

/-- Modelled from the spec: `WorkDoneProgressOptions` is declared in package
`protocol_3_16`, outside the source files; it is the options object carrying the
optional progress flag, wire key `workDoneProgress`, omitted when unset. -/
structure WorkDoneProgressOptions where
  WorkDoneProgress : Option Bool := none
  deriving DecidableEq, Repr

/-- Modelled from the spec: `HoverOptions` is declared in package `protocol_3_16`,
outside the source files; it is the options-object variant of `hoverProvider`, which
carries the progress flag and nothing else. -/
structure HoverOptions extends WorkDoneProgressOptions where
  deriving DecidableEq, Repr

/-- Modelled from the spec: `StaticRegistrationOptions` is declared in package
`protocol_3_16`, outside the source files; it carries the optional registration id,
wire key `id`, omitted when unset. -/
structure StaticRegistrationOptions where
  ID : Option String := none
  deriving DecidableEq, Repr

/-- Modelled from the spec: `DocumentFilter` is declared in package `protocol_3_16`,
outside the source files; an element of a document selector, with the optional keys
`language`, `scheme` and `pattern`. -/
structure DocumentFilter where
  Language : Option String := none
  Scheme : Option String := none
  Pattern : Option String := none
  deriving DecidableEq, Repr

/-- Modelled from the spec: `DocumentSelector` is a slice of document filters. -/
abbrev DocumentSelector := List DocumentFilter

/-- Modelled from the spec: `TextDocumentRegistrationOptions` is declared in package
`protocol_3_16`, outside the source files; it carries the document selector under the
wire key `documentSelector`, a pointer that is emitted as `null` when nil. -/
structure TextDocumentRegistrationOptions where
  DocumentSelector : Option DocumentSelector := none
  deriving DecidableEq, Repr

end protocol316

namespace protocol

/-- Type hierarchy options used during static registration. -/
structure TypeHierarchyOptions extends protocol316.WorkDoneProgressOptions where
  deriving DecidableEq, Repr

/-- Type hierarchy options used during static or dynamic registration. -/
structure TypeHierarchyRegistrationOptions extends
    protocol316.TextDocumentRegistrationOptions, TypeHierarchyOptions,
    protocol316.StaticRegistrationOptions where
  deriving DecidableEq, Repr

/-- Inlay hint options used during static registration. -/
structure InlayHintOptions extends protocol316.WorkDoneProgressOptions where
  ResolveProvider : Option Bool := none
  deriving DecidableEq, Repr

/-- Inlay hint options used during static or dynamic registration. -/
structure InlayHintRegistrationOptions extends
    InlayHintOptions, protocol316.TextDocumentRegistrationOptions,
    protocol316.StaticRegistrationOptions where
  deriving DecidableEq, Repr

/-- Inline value options used during static registration. -/
structure InlineValueOptions extends protocol316.WorkDoneProgressOptions where
  deriving DecidableEq, Repr

/-- Inline value options used during static or dynamic registration. -/
structure InlineValueRegistrationOptions extends
    InlineValueOptions, protocol316.TextDocumentRegistrationOptions,
    protocol316.StaticRegistrationOptions where
  deriving DecidableEq, Repr

end protocol

namespace protocol

/-- The named types the decoder stores into whose declarations are not among the
source files: the types of package `protocol_3_16` other than those modelled above,
and `DiagnosticOptions` and `DiagnosticRegistrationOptions` of this package. -/
inductive Undeclared where
  | TextDocumentSyncOptions
  | TextDocumentSyncKind
  | CompletionOptions
  | SignatureHelpOptions
  | DeclarationOptions
  | DeclarationRegistrationOptions
  | DefinitionOptions
  | TypeDefinitionOptions
  | TypeDefinitionRegistrationOptions
  | ImplementationOptions
  | ImplementationRegistrationOptions
  | ReferenceOptions
  | DocumentHighlightOptions
  | DocumentSymbolOptions
  | CodeActionOptions
  | CodeLensOptions
  | DocumentLinkOptions
  | DocumentColorOptions
  | DocumentColorRegistrationOptions
  | DocumentFormattingOptions
  | DocumentRangeFormattingOptions
  | DocumentOnTypeFormattingOptions
  | RenameOptions
  | FoldingRangeOptions
  | FoldingRangeRegistrationOptions
  | ExecuteCommandOptions
  | SelectionRangeOptions
  | SelectionRangeRegistrationOptions
  | LinkedEditingRangeOptions
  | LinkedEditingRangeRegistrationOptions
  | CallHierarchyOptions
  | CallHierarchyRegistrationOptions
  | SemanticTokensOptions
  | SemanticTokensRegistrationOptions
  | MonikerOptions
  | MonikerRegistrationOptions
  | WorkspaceSymbolOptions
  | ServerCapabilitiesWorkspace
  | DiagnosticOptions
  | DiagnosticRegistrationOptions
  deriving DecidableEq, Repr

/-- What the decoder and the encoder use of the undeclared types, taken as a
parameter: the values of each type, its zero value, `json.Unmarshal` into a variable
of that type (with the type's own `UnmarshalJSON` when it has one) and `json.Marshal`
of a value. -/
structure Declarations where
  Val : Undeclared → Type
  zero : (t : Undeclared) → Val t
  unmarshal : (t : Undeclared) → json.Value → Val t → json.Decoded (Val t)
  marshal : (t : Undeclared) → Val t → json.Value

/-- The dynamic values an `any` field of the capabilities holds: a value together with
its concrete type, for the types the decoder stores. -/
inductive Dynamic (P : Declarations) where
  | bool (b : Bool)
  | HoverOptions (v : protocol316.HoverOptions)
  | undeclared (t : Undeclared) (v : P.Val t)
  | TypeHierarchyOptions (v : TypeHierarchyOptions)
  | TypeHierarchyRegistrationOptions (v : TypeHierarchyRegistrationOptions)
  | InlayHintOptions (v : InlayHintOptions)
  | InlayHintRegistrationOptions (v : InlayHintRegistrationOptions)
  | InlineValueOptions (v : InlineValueOptions)
  | InlineValueRegistrationOptions (v : InlineValueRegistrationOptions)

end protocol

namespace protocol316

open protocol (Declarations Dynamic Undeclared)

/-- Modelled from the spec: the struct `ServerCapabilities` of package `protocol_3_16`
is declared outside the source files. Its fields are the ones the decode routine
assigns, together with `Experimental`; each has the type and the wire key of the
field of the same name in the decode schema, an ambiguous field being an `any`. -/
structure ServerCapabilities (P : Declarations) where
  TextDocumentSync : Option (Dynamic P) := none
  CompletionProvider : Option (P.Val .CompletionOptions) := none
  HoverProvider : Option (Dynamic P) := none
  SignatureHelpProvider : Option (P.Val .SignatureHelpOptions) := none
  DeclarationProvider : Option (Dynamic P) := none
  DefinitionProvider : Option (Dynamic P) := none
  TypeDefinitionProvider : Option (Dynamic P) := none
  ImplementationProvider : Option (Dynamic P) := none
  ReferencesProvider : Option (Dynamic P) := none
  DocumentHighlightProvider : Option (Dynamic P) := none
  DocumentSymbolProvider : Option (Dynamic P) := none
  CodeActionProvider : Option (Dynamic P) := none
  CodeLensProvider : Option (P.Val .CodeLensOptions) := none
  DocumentLinkProvider : Option (P.Val .DocumentLinkOptions) := none
  ColorProvider : Option (Dynamic P) := none
  DocumentFormattingProvider : Option (Dynamic P) := none
  DocumentRangeFormattingProvider : Option (Dynamic P) := none
  DocumentOnTypeFormattingProvider : Option (P.Val .DocumentOnTypeFormattingOptions) := none
  RenameProvider : Option (Dynamic P) := none
  FoldingRangeProvider : Option (Dynamic P) := none
  ExecuteCommandProvider : Option (P.Val .ExecuteCommandOptions) := none
  SelectionRangeProvider : Option (Dynamic P) := none
  LinkedEditingRangeProvider : Option (Dynamic P) := none
  CallHierarchyProvider : Option (Dynamic P) := none
  SemanticTokensProvider : Option (Dynamic P) := none
  MonikerProvider : Option (Dynamic P) := none
  WorkspaceSymbolProvider : Option (Dynamic P) := none
  Workspace : Option (P.Val .ServerCapabilitiesWorkspace) := none
  Experimental : Option json.Value := none

end protocol316

namespace protocol

/-- The server capabilities of revision 3.17: the capabilities of revision 3.16,
embedded, and the four providers the revision adds. -/
structure ServerCapabilities (P : Declarations) extends protocol316.ServerCapabilities P where
  DiagnosticProvider : Option (Dynamic P) := none
  TypeHierarchyProvider : Option (Dynamic P) := none
  InlayHintProvider : Option (Dynamic P) := none
  InlineValueProvider : Option (Dynamic P) := none

end protocol

namespace protocol316

/-- The fields of a `WorkDoneProgressOptions` as `encoding/json` sees them. -/
def WorkDoneProgressOptions.fields : List (json.Field WorkDoneProgressOptions) :=
  [⟨"workDoneProgress", fun v s =>
      (json.unmarshalPtr false json.unmarshalBool v s.WorkDoneProgress).map
        fun p => { s with WorkDoneProgress := p }⟩]

/-- Decoding into a `WorkDoneProgressOptions`. -/
def WorkDoneProgressOptions.unmarshal :
    json.Value → WorkDoneProgressOptions →
    json.Decoded WorkDoneProgressOptions :=
  json.unmarshalStruct "protocol.WorkDoneProgressOptions"
    WorkDoneProgressOptions.fields

/-- The fields of a `HoverOptions` as `encoding/json` sees
them: the promoted `workDoneProgress`. -/
def HoverOptions.fields : List (json.Field HoverOptions) :=
  [⟨"workDoneProgress", fun v s =>
      (json.unmarshalPtr false json.unmarshalBool v s.WorkDoneProgress).map
        fun p => { s with WorkDoneProgress := p }⟩]

/-- Decoding into a `HoverOptions`. -/
def HoverOptions.unmarshal :
    json.Value → HoverOptions →
    json.Decoded HoverOptions :=
  json.unmarshalStruct "protocol.HoverOptions"
    HoverOptions.fields

/-- The fields of a `DocumentFilter` as `encoding/json` sees them. -/
def DocumentFilter.fields : List (json.Field DocumentFilter) :=
  [⟨"language", fun v s =>
      (json.unmarshalPtr "" json.unmarshalString v s.Language).map
        fun p => { s with Language := p }⟩,
   ⟨"scheme", fun v s =>
      (json.unmarshalPtr "" json.unmarshalString v s.Scheme).map
        fun p => { s with Scheme := p }⟩,
   ⟨"pattern", fun v s =>
      (json.unmarshalPtr "" json.unmarshalString v s.Pattern).map
        fun p => { s with Pattern := p }⟩]

/-- Decoding into a `DocumentFilter`. -/
def DocumentFilter.unmarshal :
    json.Value → DocumentFilter →
    json.Decoded DocumentFilter :=
  json.unmarshalStruct "protocol.DocumentFilter"
    DocumentFilter.fields

/-- Decoding into a `*DocumentSelector`, the type of the field `documentSelector`:
a pointer to a slice of document filters. -/
def DocumentSelector.unmarshalPtr :
    json.Value → Option DocumentSelector → json.Decoded (Option DocumentSelector) :=
  json.unmarshalPtr []
    (json.unmarshalSlice "protocol.DocumentSelector" {} DocumentFilter.unmarshal)

end protocol316

namespace protocol

/-- The fields of a `TypeHierarchyOptions` as `encoding/json` sees
them: the promoted `workDoneProgress`. -/
def TypeHierarchyOptions.fields : List (json.Field TypeHierarchyOptions) :=
  [⟨"workDoneProgress", fun v s =>
      (json.unmarshalPtr false json.unmarshalBool v s.WorkDoneProgress).map
        fun p => { s with WorkDoneProgress := p }⟩]

/-- Decoding into a `TypeHierarchyOptions`. -/
def TypeHierarchyOptions.unmarshal :
    json.Value → TypeHierarchyOptions →
    json.Decoded TypeHierarchyOptions :=
  json.unmarshalStruct "protocol.TypeHierarchyOptions"
    TypeHierarchyOptions.fields

/-- The fields of a `TypeHierarchyRegistrationOptions` as `encoding/json` sees
them, promoted from the embedded structs in their order. -/
def TypeHierarchyRegistrationOptions.fields : List (json.Field TypeHierarchyRegistrationOptions) :=
  [⟨"documentSelector", fun v s =>
      (protocol316.DocumentSelector.unmarshalPtr v s.DocumentSelector).map
        fun p => { s with DocumentSelector := p }⟩,
   ⟨"workDoneProgress", fun v s =>
      (json.unmarshalPtr false json.unmarshalBool v s.WorkDoneProgress).map
        fun p => { s with WorkDoneProgress := p }⟩,
   ⟨"id", fun v s =>
      (json.unmarshalPtr "" json.unmarshalString v s.ID).map
        fun p => { s with ID := p }⟩]

/-- Decoding into a `TypeHierarchyRegistrationOptions`. -/
def TypeHierarchyRegistrationOptions.unmarshal :
    json.Value → TypeHierarchyRegistrationOptions →
    json.Decoded TypeHierarchyRegistrationOptions :=
  json.unmarshalStruct "protocol.TypeHierarchyRegistrationOptions"
    TypeHierarchyRegistrationOptions.fields

/-- The fields of an `InlayHintOptions` as `encoding/json` sees them. -/
def InlayHintOptions.fields : List (json.Field InlayHintOptions) :=
  [⟨"workDoneProgress", fun v s =>
      (json.unmarshalPtr false json.unmarshalBool v s.WorkDoneProgress).map
        fun p => { s with WorkDoneProgress := p }⟩,
   ⟨"resolveProvider", fun v s =>
      (json.unmarshalPtr false json.unmarshalBool v s.ResolveProvider).map
        fun p => { s with ResolveProvider := p }⟩]

/-- Decoding into an `InlayHintOptions`. -/
def InlayHintOptions.unmarshal :
    json.Value → InlayHintOptions →
    json.Decoded InlayHintOptions :=
  json.unmarshalStruct "protocol.InlayHintOptions"
    InlayHintOptions.fields

/-- The fields of an `InlayHintRegistrationOptions` as `encoding/json` sees
them, promoted from the embedded structs in their order. -/
def InlayHintRegistrationOptions.fields : List (json.Field InlayHintRegistrationOptions) :=
  [⟨"workDoneProgress", fun v s =>
      (json.unmarshalPtr false json.unmarshalBool v s.WorkDoneProgress).map
        fun p => { s with WorkDoneProgress := p }⟩,
   ⟨"resolveProvider", fun v s =>
      (json.unmarshalPtr false json.unmarshalBool v s.ResolveProvider).map
        fun p => { s with ResolveProvider := p }⟩,
   ⟨"documentSelector", fun v s =>
      (protocol316.DocumentSelector.unmarshalPtr v s.DocumentSelector).map
        fun p => { s with DocumentSelector := p }⟩,
   ⟨"id", fun v s =>
      (json.unmarshalPtr "" json.unmarshalString v s.ID).map
        fun p => { s with ID := p }⟩]

/-- Decoding into an `InlayHintRegistrationOptions`. -/
def InlayHintRegistrationOptions.unmarshal :
    json.Value → InlayHintRegistrationOptions →
    json.Decoded InlayHintRegistrationOptions :=
  json.unmarshalStruct "protocol.InlayHintRegistrationOptions"
    InlayHintRegistrationOptions.fields

/-- The fields of an `InlineValueOptions` as `encoding/json` sees
them: the promoted `workDoneProgress`. -/
def InlineValueOptions.fields : List (json.Field InlineValueOptions) :=
  [⟨"workDoneProgress", fun v s =>
      (json.unmarshalPtr false json.unmarshalBool v s.WorkDoneProgress).map
        fun p => { s with WorkDoneProgress := p }⟩]

/-- Decoding into an `InlineValueOptions`. -/
def InlineValueOptions.unmarshal :
    json.Value → InlineValueOptions →
    json.Decoded InlineValueOptions :=
  json.unmarshalStruct "protocol.InlineValueOptions"
    InlineValueOptions.fields

/-- The fields of an `InlineValueRegistrationOptions` as `encoding/json` sees
them, promoted from the embedded structs in their order. -/
def InlineValueRegistrationOptions.fields : List (json.Field InlineValueRegistrationOptions) :=
  [⟨"workDoneProgress", fun v s =>
      (json.unmarshalPtr false json.unmarshalBool v s.WorkDoneProgress).map
        fun p => { s with WorkDoneProgress := p }⟩,
   ⟨"documentSelector", fun v s =>
      (protocol316.DocumentSelector.unmarshalPtr v s.DocumentSelector).map
        fun p => { s with DocumentSelector := p }⟩,
   ⟨"id", fun v s =>
      (json.unmarshalPtr "" json.unmarshalString v s.ID).map
        fun p => { s with ID := p }⟩]

/-- Decoding into an `InlineValueRegistrationOptions`. -/
def InlineValueRegistrationOptions.unmarshal :
    json.Value → InlineValueRegistrationOptions →
    json.Decoded InlineValueRegistrationOptions :=
  json.unmarshalStruct "protocol.InlineValueRegistrationOptions"
    InlineValueRegistrationOptions.fields

/-- The blocks of a method body run one after the other on the receiver; a block
that returns an error ends the method with the receiver as it then is. -/
def runBlocks {σ ε : Type} : List (σ → σ × Option ε) → σ → σ × Option ε
  | [], s => (s, none)
  | b :: bs, s =>
    match b s with
    | (s1, none) => runBlocks bs s1
    | (s1, some e) => (s1, some e)

namespace ServerCapabilities

/-- The decode schema of `UnmarshalJSON`: the local variable `value`. An ambiguous
field is captured as raw bytes, a field of one shape is decoded into its type. -/
structure value (P : Declarations) where
  TextDocumentSync : json.RawMessage := none
  CompletionProvider : Option (P.Val .CompletionOptions) := none
  HoverProvider : json.RawMessage := none
  SignatureHelpProvider : Option (P.Val .SignatureHelpOptions) := none
  DeclarationProvider : json.RawMessage := none
  DefinitionProvider : json.RawMessage := none
  TypeDefinitionProvider : json.RawMessage := none
  ImplementationProvider : json.RawMessage := none
  ReferencesProvider : json.RawMessage := none
  DocumentHighlightProvider : json.RawMessage := none
  DocumentSymbolProvider : json.RawMessage := none
  CodeActionProvider : json.RawMessage := none
  CodeLensProvider : Option (P.Val .CodeLensOptions) := none
  DocumentLinkProvider : Option (P.Val .DocumentLinkOptions) := none
  ColorProvider : json.RawMessage := none
  DocumentFormattingProvider : json.RawMessage := none
  DocumentRangeFormattingProvider : json.RawMessage := none
  DocumentOnTypeFormattingProvider : Option (P.Val .DocumentOnTypeFormattingOptions) := none
  RenameProvider : json.RawMessage := none
  FoldingRangeProvider : json.RawMessage := none
  ExecuteCommandProvider : Option (P.Val .ExecuteCommandOptions) := none
  SelectionRangeProvider : json.RawMessage := none
  LinkedEditingRangeProvider : json.RawMessage := none
  CallHierarchyProvider : json.RawMessage := none
  SemanticTokensProvider : json.RawMessage := none
  MonikerProvider : json.RawMessage := none
  WorkspaceSymbolProvider : json.RawMessage := none
  Workspace : Option (P.Val .ServerCapabilitiesWorkspace) := none
  Experimental : Option json.Value := none
  DiagnosticProvider : json.RawMessage := none
  TypeHierarchyProvider : json.RawMessage := none
  InlayHintProvider : json.RawMessage := none
  InlineValueProvider : json.RawMessage := none

/-- The fields of the decode schema. A `json.RawMessage` field takes the bytes of any
value, `null` included; a pointer field is decoded as a pointer to its type;
`experimental` is a pointer to an `any`, which stores every value and is nil for
`null` (the generic value stored is represented by the JSON value itself). -/
def value.fields (P : Declarations) : List (json.Field (value P)) :=
  [⟨"textDocumentSync", fun v s =>
      .ok { s with TextDocumentSync := some v }⟩,
   ⟨"completionProvider", fun v s =>
      (json.unmarshalPtr (P.zero .CompletionOptions)
        (P.unmarshal .CompletionOptions) v s.CompletionProvider).map
        fun p => { s with CompletionProvider := p }⟩,
   ⟨"hoverProvider", fun v s =>
      .ok { s with HoverProvider := some v }⟩,
   ⟨"signatureHelpProvider", fun v s =>
      (json.unmarshalPtr (P.zero .SignatureHelpOptions)
        (P.unmarshal .SignatureHelpOptions) v s.SignatureHelpProvider).map
        fun p => { s with SignatureHelpProvider := p }⟩,
   ⟨"declarationProvider", fun v s =>
      .ok { s with DeclarationProvider := some v }⟩,
   ⟨"definitionProvider", fun v s =>
      .ok { s with DefinitionProvider := some v }⟩,
   ⟨"typeDefinitionProvider", fun v s =>
      .ok { s with TypeDefinitionProvider := some v }⟩,
   ⟨"implementationProvider", fun v s =>
      .ok { s with ImplementationProvider := some v }⟩,
   ⟨"referencesProvider", fun v s =>
      .ok { s with ReferencesProvider := some v }⟩,
   ⟨"documentHighlightProvider", fun v s =>
      .ok { s with DocumentHighlightProvider := some v }⟩,
   ⟨"documentSymbolProvider", fun v s =>
      .ok { s with DocumentSymbolProvider := some v }⟩,
   ⟨"codeActionProvider", fun v s =>
      .ok { s with CodeActionProvider := some v }⟩,
   ⟨"codeLensProvider", fun v s =>
      (json.unmarshalPtr (P.zero .CodeLensOptions)
        (P.unmarshal .CodeLensOptions) v s.CodeLensProvider).map
        fun p => { s with CodeLensProvider := p }⟩,
   ⟨"documentLinkProvider", fun v s =>
      (json.unmarshalPtr (P.zero .DocumentLinkOptions)
        (P.unmarshal .DocumentLinkOptions) v s.DocumentLinkProvider).map
        fun p => { s with DocumentLinkProvider := p }⟩,
   ⟨"colorProvider", fun v s =>
      .ok { s with ColorProvider := some v }⟩,
   ⟨"documentFormattingProvider", fun v s =>
      .ok { s with DocumentFormattingProvider := some v }⟩,
   ⟨"documentRangeFormattingProvider", fun v s =>
      .ok { s with DocumentRangeFormattingProvider := some v }⟩,
   ⟨"documentOnTypeFormattingProvider", fun v s =>
      (json.unmarshalPtr (P.zero .DocumentOnTypeFormattingOptions)
        (P.unmarshal .DocumentOnTypeFormattingOptions) v s.DocumentOnTypeFormattingProvider).map
        fun p => { s with DocumentOnTypeFormattingProvider := p }⟩,
   ⟨"renameProvider", fun v s =>
      .ok { s with RenameProvider := some v }⟩,
   ⟨"foldingRangeProvider", fun v s =>
      .ok { s with FoldingRangeProvider := some v }⟩,
   ⟨"executeCommandProvider", fun v s =>
      (json.unmarshalPtr (P.zero .ExecuteCommandOptions)
        (P.unmarshal .ExecuteCommandOptions) v s.ExecuteCommandProvider).map
        fun p => { s with ExecuteCommandProvider := p }⟩,
   ⟨"selectionRangeProvider", fun v s =>
      .ok { s with SelectionRangeProvider := some v }⟩,
   ⟨"linkedEditingRangeProvider", fun v s =>
      .ok { s with LinkedEditingRangeProvider := some v }⟩,
   ⟨"callHierarchyProvider", fun v s =>
      .ok { s with CallHierarchyProvider := some v }⟩,
   ⟨"semanticTokensProvider", fun v s =>
      .ok { s with SemanticTokensProvider := some v }⟩,
   ⟨"monikerProvider", fun v s =>
      .ok { s with MonikerProvider := some v }⟩,
   ⟨"workspaceSymbolProvider", fun v s =>
      .ok { s with WorkspaceSymbolProvider := some v }⟩,
   ⟨"workspace", fun v s =>
      (json.unmarshalPtr (P.zero .ServerCapabilitiesWorkspace)
        (P.unmarshal .ServerCapabilitiesWorkspace) v s.Workspace).map
        fun p => { s with Workspace := p }⟩,
   ⟨"experimental", fun v s =>
      .ok { s with Experimental := match v with | .null => none | v => some v }⟩,
   ⟨"diagnosticProvider", fun v s =>
      .ok { s with DiagnosticProvider := some v }⟩,
   ⟨"typeHierarchyProvider", fun v s =>
      .ok { s with TypeHierarchyProvider := some v }⟩,
   ⟨"inlayHintProvider", fun v s =>
      .ok { s with InlayHintProvider := some v }⟩,
   ⟨"inlineValueProvider", fun v s =>
      .ok { s with InlineValueProvider := some v }⟩]

/-- Decoding into the decode schema, an unnamed struct type: the call
`json.Unmarshal(data, &value)`. -/
def value.unmarshal (P : Declarations) : json.Value → value P → json.Decoded (value P) :=
  json.unmarshalStruct "struct" (value.fields P)

/-- The block of `UnmarshalJSON` that resolves `TextDocumentSync`:
nil | TextDocumentSyncOptions | TextDocumentSyncKind. -/
def setTextDocumentSync {P : Declarations} (raw : json.RawMessage)
    (self : ServerCapabilities P) : ServerCapabilities P × Option json.UnmarshalTypeError :=
  match raw with
  | none => (self, none)
  | some raw =>
    match json.Unmarshal (P.unmarshal .TextDocumentSyncOptions) raw
        (P.zero .TextDocumentSyncOptions) with
    | .ok value_ =>
      ({ self with TextDocumentSync := some (.undeclared .TextDocumentSyncOptions value_) }, none)
    | .error _ =>
      match json.Unmarshal (P.unmarshal .TextDocumentSyncKind) raw
          (P.zero .TextDocumentSyncKind) with
      | .ok value_ =>
        ({ self with TextDocumentSync := some (.undeclared .TextDocumentSyncKind value_) }, none)
      | .error err => (self, some err)

/-- The block of `UnmarshalJSON` that resolves `HoverProvider`:
nil | bool | HoverOptions. -/
def setHoverProvider {P : Declarations} (raw : json.RawMessage)
    (self : ServerCapabilities P) : ServerCapabilities P × Option json.UnmarshalTypeError :=
  match raw with
  | none => (self, none)
  | some raw =>
    match json.Unmarshal json.unmarshalBool raw false with
    | .ok value_ =>
      ({ self with HoverProvider := some (.bool value_) }, none)
    | .error _ =>
      match json.Unmarshal protocol316.HoverOptions.unmarshal raw {} with
      | .ok value_ =>
        ({ self with HoverProvider := some (.HoverOptions value_) }, none)
      | .error err => (self, some err)

/-- The block of `UnmarshalJSON` that resolves `DeclarationProvider`:
nil | bool | DeclarationOptions | DeclarationRegistrationOptions. -/
def setDeclarationProvider {P : Declarations} (raw : json.RawMessage)
    (self : ServerCapabilities P) : ServerCapabilities P × Option json.UnmarshalTypeError :=
  match raw with
  | none => (self, none)
  | some raw =>
    match json.Unmarshal json.unmarshalBool raw false with
    | .ok value_ =>
      ({ self with DeclarationProvider := some (.bool value_) }, none)
    | .error _ =>
      match json.Unmarshal (P.unmarshal .DeclarationOptions) raw (P.zero .DeclarationOptions) with
      | .ok value_ =>
        ({ self with DeclarationProvider := some (.undeclared .DeclarationOptions value_) }, none)
      | .error _ =>
        match json.Unmarshal (P.unmarshal .DeclarationRegistrationOptions) raw
            (P.zero .DeclarationRegistrationOptions) with
        | .ok value_ =>
          ({ self with
              DeclarationProvider :=
                some (.undeclared .DeclarationRegistrationOptions value_) }, none)
        | .error err => (self, some err)

/-- The block of `UnmarshalJSON` that resolves `DefinitionProvider`:
nil | bool | DefinitionOptions. -/
def setDefinitionProvider {P : Declarations} (raw : json.RawMessage)
    (self : ServerCapabilities P) : ServerCapabilities P × Option json.UnmarshalTypeError :=
  match raw with
  | none => (self, none)
  | some raw =>
    match json.Unmarshal json.unmarshalBool raw false with
    | .ok value_ =>
      ({ self with DefinitionProvider := some (.bool value_) }, none)
    | .error _ =>
      match json.Unmarshal (P.unmarshal .DefinitionOptions) raw (P.zero .DefinitionOptions) with
      | .ok value_ =>
        ({ self with DefinitionProvider := some (.undeclared .DefinitionOptions value_) }, none)
      | .error err => (self, some err)

/-- The block of `UnmarshalJSON` that resolves `TypeDefinitionProvider`:
nil | bool | TypeDefinitionOptions | TypeDefinitionRegistrationOptions. -/
def setTypeDefinitionProvider {P : Declarations} (raw : json.RawMessage)
    (self : ServerCapabilities P) : ServerCapabilities P × Option json.UnmarshalTypeError :=
  match raw with
  | none => (self, none)
  | some raw =>
    match json.Unmarshal json.unmarshalBool raw false with
    | .ok value_ =>
      ({ self with TypeDefinitionProvider := some (.bool value_) }, none)
    | .error _ =>
      match json.Unmarshal (P.unmarshal .TypeDefinitionOptions) raw
          (P.zero .TypeDefinitionOptions) with
      | .ok value_ =>
        ({ self with
            TypeDefinitionProvider :=
              some (.undeclared .TypeDefinitionOptions value_) }, none)
      | .error _ =>
        match json.Unmarshal (P.unmarshal .TypeDefinitionRegistrationOptions) raw
            (P.zero .TypeDefinitionRegistrationOptions) with
        | .ok value_ =>
          ({ self with
              TypeDefinitionProvider :=
                some (.undeclared .TypeDefinitionRegistrationOptions value_) }, none)
        | .error err => (self, some err)

/-- The block of `UnmarshalJSON` that resolves `ImplementationProvider`:
nil | bool | ImplementationOptions | ImplementationRegistrationOptions. -/
def setImplementationProvider {P : Declarations} (raw : json.RawMessage)
    (self : ServerCapabilities P) : ServerCapabilities P × Option json.UnmarshalTypeError :=
  match raw with
  | none => (self, none)
  | some raw =>
    match json.Unmarshal json.unmarshalBool raw false with
    | .ok value_ =>
      ({ self with ImplementationProvider := some (.bool value_) }, none)
    | .error _ =>
      match json.Unmarshal (P.unmarshal .ImplementationOptions) raw
          (P.zero .ImplementationOptions) with
      | .ok value_ =>
        ({ self with
            ImplementationProvider :=
              some (.undeclared .ImplementationOptions value_) }, none)
      | .error _ =>
        match json.Unmarshal (P.unmarshal .ImplementationRegistrationOptions) raw
            (P.zero .ImplementationRegistrationOptions) with
        | .ok value_ =>
          ({ self with
              ImplementationProvider :=
                some (.undeclared .ImplementationRegistrationOptions value_) }, none)
        | .error err => (self, some err)

/-- The block of `UnmarshalJSON` that resolves `ReferencesProvider`:
nil | bool | ReferenceOptions. -/
def setReferencesProvider {P : Declarations} (raw : json.RawMessage)
    (self : ServerCapabilities P) : ServerCapabilities P × Option json.UnmarshalTypeError :=
  match raw with
  | none => (self, none)
  | some raw =>
    match json.Unmarshal json.unmarshalBool raw false with
    | .ok value_ =>
      ({ self with ReferencesProvider := some (.bool value_) }, none)
    | .error _ =>
      match json.Unmarshal (P.unmarshal .ReferenceOptions) raw (P.zero .ReferenceOptions) with
      | .ok value_ =>
        ({ self with ReferencesProvider := some (.undeclared .ReferenceOptions value_) }, none)
      | .error err => (self, some err)

/-- The block of `UnmarshalJSON` that resolves `DocumentHighlightProvider`:
nil | bool | DocumentHighlightOptions. -/
def setDocumentHighlightProvider {P : Declarations} (raw : json.RawMessage)
    (self : ServerCapabilities P) : ServerCapabilities P × Option json.UnmarshalTypeError :=
  match raw with
  | none => (self, none)
  | some raw =>
    match json.Unmarshal json.unmarshalBool raw false with
    | .ok value_ =>
      ({ self with DocumentHighlightProvider := some (.bool value_) }, none)
    | .error _ =>
      match json.Unmarshal (P.unmarshal .DocumentHighlightOptions) raw
          (P.zero .DocumentHighlightOptions) with
      | .ok value_ =>
        ({ self with
            DocumentHighlightProvider :=
              some (.undeclared .DocumentHighlightOptions value_) }, none)
      | .error err => (self, some err)

/-- The block of `UnmarshalJSON` that resolves `DocumentSymbolProvider`:
nil | bool | DocumentSymbolOptions. -/
def setDocumentSymbolProvider {P : Declarations} (raw : json.RawMessage)
    (self : ServerCapabilities P) : ServerCapabilities P × Option json.UnmarshalTypeError :=
  match raw with
  | none => (self, none)
  | some raw =>
    match json.Unmarshal json.unmarshalBool raw false with
    | .ok value_ =>
      ({ self with DocumentSymbolProvider := some (.bool value_) }, none)
    | .error _ =>
      match json.Unmarshal (P.unmarshal .DocumentSymbolOptions) raw
          (P.zero .DocumentSymbolOptions) with
      | .ok value_ =>
        ({ self with
            DocumentSymbolProvider :=
              some (.undeclared .DocumentSymbolOptions value_) }, none)
      | .error err => (self, some err)

/-- The block of `UnmarshalJSON` that resolves `CodeActionProvider`:
nil | bool | CodeActionOptions. -/
def setCodeActionProvider {P : Declarations} (raw : json.RawMessage)
    (self : ServerCapabilities P) : ServerCapabilities P × Option json.UnmarshalTypeError :=
  match raw with
  | none => (self, none)
  | some raw =>
    match json.Unmarshal json.unmarshalBool raw false with
    | .ok value_ =>
      ({ self with CodeActionProvider := some (.bool value_) }, none)
    | .error _ =>
      match json.Unmarshal (P.unmarshal .CodeActionOptions) raw (P.zero .CodeActionOptions) with
      | .ok value_ =>
        ({ self with CodeActionProvider := some (.undeclared .CodeActionOptions value_) }, none)
      | .error err => (self, some err)

/-- The block of `UnmarshalJSON` that resolves `ColorProvider`:
nil | bool | DocumentColorOptions | DocumentColorRegistrationOptions. -/
def setColorProvider {P : Declarations} (raw : json.RawMessage)
    (self : ServerCapabilities P) : ServerCapabilities P × Option json.UnmarshalTypeError :=
  match raw with
  | none => (self, none)
  | some raw =>
    match json.Unmarshal json.unmarshalBool raw false with
    | .ok value_ =>
      ({ self with ColorProvider := some (.bool value_) }, none)
    | .error _ =>
      match json.Unmarshal (P.unmarshal .DocumentColorOptions) raw
          (P.zero .DocumentColorOptions) with
      | .ok value_ =>
        ({ self with ColorProvider := some (.undeclared .DocumentColorOptions value_) }, none)
      | .error _ =>
        match json.Unmarshal (P.unmarshal .DocumentColorRegistrationOptions) raw
            (P.zero .DocumentColorRegistrationOptions) with
        | .ok value_ =>
          ({ self with
              ColorProvider :=
                some (.undeclared .DocumentColorRegistrationOptions value_) }, none)
        | .error err => (self, some err)

/-- The block of `UnmarshalJSON` that resolves `DocumentFormattingProvider`:
nil | bool | DocumentFormattingOptions. -/
def setDocumentFormattingProvider {P : Declarations} (raw : json.RawMessage)
    (self : ServerCapabilities P) : ServerCapabilities P × Option json.UnmarshalTypeError :=
  match raw with
  | none => (self, none)
  | some raw =>
    match json.Unmarshal json.unmarshalBool raw false with
    | .ok value_ =>
      ({ self with DocumentFormattingProvider := some (.bool value_) }, none)
    | .error _ =>
      match json.Unmarshal (P.unmarshal .DocumentFormattingOptions) raw
          (P.zero .DocumentFormattingOptions) with
      | .ok value_ =>
        ({ self with
            DocumentFormattingProvider :=
              some (.undeclared .DocumentFormattingOptions value_) }, none)
      | .error err => (self, some err)

/-- The block of `UnmarshalJSON` that resolves `DocumentRangeFormattingProvider`:
nil | bool | DocumentRangeFormattingOptions. -/
def setDocumentRangeFormattingProvider {P : Declarations} (raw : json.RawMessage)
    (self : ServerCapabilities P) : ServerCapabilities P × Option json.UnmarshalTypeError :=
  match raw with
  | none => (self, none)
  | some raw =>
    match json.Unmarshal json.unmarshalBool raw false with
    | .ok value_ =>
      ({ self with DocumentRangeFormattingProvider := some (.bool value_) }, none)
    | .error _ =>
      match json.Unmarshal (P.unmarshal .DocumentRangeFormattingOptions) raw
          (P.zero .DocumentRangeFormattingOptions) with
      | .ok value_ =>
        ({ self with
            DocumentRangeFormattingProvider :=
              some (.undeclared .DocumentRangeFormattingOptions value_) }, none)
      | .error err => (self, some err)

/-- The block of `UnmarshalJSON` that resolves `RenameProvider`:
nil | bool | RenameOptions. -/
def setRenameProvider {P : Declarations} (raw : json.RawMessage)
    (self : ServerCapabilities P) : ServerCapabilities P × Option json.UnmarshalTypeError :=
  match raw with
  | none => (self, none)
  | some raw =>
    match json.Unmarshal json.unmarshalBool raw false with
    | .ok value_ =>
      ({ self with RenameProvider := some (.bool value_) }, none)
    | .error _ =>
      match json.Unmarshal (P.unmarshal .RenameOptions) raw (P.zero .RenameOptions) with
      | .ok value_ =>
        ({ self with RenameProvider := some (.undeclared .RenameOptions value_) }, none)
      | .error err => (self, some err)

/-- The block of `UnmarshalJSON` that resolves `FoldingRangeProvider`:
nil | bool | FoldingRangeOptions | FoldingRangeRegistrationOptions. -/
def setFoldingRangeProvider {P : Declarations} (raw : json.RawMessage)
    (self : ServerCapabilities P) : ServerCapabilities P × Option json.UnmarshalTypeError :=
  match raw with
  | none => (self, none)
  | some raw =>
    match json.Unmarshal json.unmarshalBool raw false with
    | .ok value_ =>
      ({ self with FoldingRangeProvider := some (.bool value_) }, none)
    | .error _ =>
      match json.Unmarshal (P.unmarshal .FoldingRangeOptions) raw
          (P.zero .FoldingRangeOptions) with
      | .ok value_ =>
        ({ self with
            FoldingRangeProvider :=
              some (.undeclared .FoldingRangeOptions value_) }, none)
      | .error _ =>
        match json.Unmarshal (P.unmarshal .FoldingRangeRegistrationOptions) raw
            (P.zero .FoldingRangeRegistrationOptions) with
        | .ok value_ =>
          ({ self with
              FoldingRangeProvider :=
                some (.undeclared .FoldingRangeRegistrationOptions value_) }, none)
        | .error err => (self, some err)

/-- The block of `UnmarshalJSON` that resolves `SelectionRangeProvider`:
nil | bool | SelectionRangeOptions | SelectionRangeRegistrationOptions. -/
def setSelectionRangeProvider {P : Declarations} (raw : json.RawMessage)
    (self : ServerCapabilities P) : ServerCapabilities P × Option json.UnmarshalTypeError :=
  match raw with
  | none => (self, none)
  | some raw =>
    match json.Unmarshal json.unmarshalBool raw false with
    | .ok value_ =>
      ({ self with SelectionRangeProvider := some (.bool value_) }, none)
    | .error _ =>
      match json.Unmarshal (P.unmarshal .SelectionRangeOptions) raw
          (P.zero .SelectionRangeOptions) with
      | .ok value_ =>
        ({ self with
            SelectionRangeProvider :=
              some (.undeclared .SelectionRangeOptions value_) }, none)
      | .error _ =>
        match json.Unmarshal (P.unmarshal .SelectionRangeRegistrationOptions) raw
            (P.zero .SelectionRangeRegistrationOptions) with
        | .ok value_ =>
          ({ self with
              SelectionRangeProvider :=
                some (.undeclared .SelectionRangeRegistrationOptions value_) }, none)
        | .error err => (self, some err)

/-- The block of `UnmarshalJSON` that resolves `LinkedEditingRangeProvider`:
nil | bool | LinkedEditingRangeOptions | LinkedEditingRangeRegistrationOptions. -/
def setLinkedEditingRangeProvider {P : Declarations} (raw : json.RawMessage)
    (self : ServerCapabilities P) : ServerCapabilities P × Option json.UnmarshalTypeError :=
  match raw with
  | none => (self, none)
  | some raw =>
    match json.Unmarshal json.unmarshalBool raw false with
    | .ok value_ =>
      ({ self with LinkedEditingRangeProvider := some (.bool value_) }, none)
    | .error _ =>
      match json.Unmarshal (P.unmarshal .LinkedEditingRangeOptions) raw
          (P.zero .LinkedEditingRangeOptions) with
      | .ok value_ =>
        ({ self with
            LinkedEditingRangeProvider :=
              some (.undeclared .LinkedEditingRangeOptions value_) }, none)
      | .error _ =>
        match json.Unmarshal (P.unmarshal .LinkedEditingRangeRegistrationOptions) raw
            (P.zero .LinkedEditingRangeRegistrationOptions) with
        | .ok value_ =>
          ({ self with
              LinkedEditingRangeProvider :=
                some (.undeclared .LinkedEditingRangeRegistrationOptions value_) }, none)
        | .error err => (self, some err)

/-- The block of `UnmarshalJSON` that resolves `CallHierarchyProvider`:
nil | bool | CallHierarchyOptions | CallHierarchyRegistrationOptions. -/
def setCallHierarchyProvider {P : Declarations} (raw : json.RawMessage)
    (self : ServerCapabilities P) : ServerCapabilities P × Option json.UnmarshalTypeError :=
  match raw with
  | none => (self, none)
  | some raw =>
    match json.Unmarshal json.unmarshalBool raw false with
    | .ok value_ =>
      ({ self with CallHierarchyProvider := some (.bool value_) }, none)
    | .error _ =>
      match json.Unmarshal (P.unmarshal .CallHierarchyOptions) raw
          (P.zero .CallHierarchyOptions) with
      | .ok value_ =>
        ({ self with
            CallHierarchyProvider :=
              some (.undeclared .CallHierarchyOptions value_) }, none)
      | .error _ =>
        match json.Unmarshal (P.unmarshal .CallHierarchyRegistrationOptions) raw
            (P.zero .CallHierarchyRegistrationOptions) with
        | .ok value_ =>
          ({ self with
              CallHierarchyProvider :=
                some (.undeclared .CallHierarchyRegistrationOptions value_) }, none)
        | .error err => (self, some err)

/-- The block of `UnmarshalJSON` that resolves `SemanticTokensProvider`:
nil | SemanticTokensOptions | SemanticTokensRegistrationOptions. -/
def setSemanticTokensProvider {P : Declarations} (raw : json.RawMessage)
    (self : ServerCapabilities P) : ServerCapabilities P × Option json.UnmarshalTypeError :=
  match raw with
  | none => (self, none)
  | some raw =>
    match json.Unmarshal (P.unmarshal .SemanticTokensOptions) raw
        (P.zero .SemanticTokensOptions) with
    | .ok value_ =>
      ({ self with
          SemanticTokensProvider :=
            some (.undeclared .SemanticTokensOptions value_) }, none)
    | .error _ =>
      match json.Unmarshal (P.unmarshal .SemanticTokensRegistrationOptions) raw
          (P.zero .SemanticTokensRegistrationOptions) with
      | .ok value_ =>
        ({ self with
            SemanticTokensProvider :=
              some (.undeclared .SemanticTokensRegistrationOptions value_) }, none)
      | .error err => (self, some err)

/-- The block of `UnmarshalJSON` that resolves `MonikerProvider`:
nil | bool | MonikerOptions | MonikerRegistrationOptions. -/
def setMonikerProvider {P : Declarations} (raw : json.RawMessage)
    (self : ServerCapabilities P) : ServerCapabilities P × Option json.UnmarshalTypeError :=
  match raw with
  | none => (self, none)
  | some raw =>
    match json.Unmarshal json.unmarshalBool raw false with
    | .ok value_ =>
      ({ self with MonikerProvider := some (.bool value_) }, none)
    | .error _ =>
      match json.Unmarshal (P.unmarshal .MonikerOptions) raw (P.zero .MonikerOptions) with
      | .ok value_ =>
        ({ self with MonikerProvider := some (.undeclared .MonikerOptions value_) }, none)
      | .error _ =>
        match json.Unmarshal (P.unmarshal .MonikerRegistrationOptions) raw
            (P.zero .MonikerRegistrationOptions) with
        | .ok value_ =>
          ({ self with
              MonikerProvider :=
                some (.undeclared .MonikerRegistrationOptions value_) }, none)
        | .error err => (self, some err)

/-- The block of `UnmarshalJSON` that resolves `WorkspaceSymbolProvider`:
nil | bool | WorkspaceSymbolOptions. -/
def setWorkspaceSymbolProvider {P : Declarations} (raw : json.RawMessage)
    (self : ServerCapabilities P) : ServerCapabilities P × Option json.UnmarshalTypeError :=
  match raw with
  | none => (self, none)
  | some raw =>
    match json.Unmarshal json.unmarshalBool raw false with
    | .ok value_ =>
      ({ self with WorkspaceSymbolProvider := some (.bool value_) }, none)
    | .error _ =>
      match json.Unmarshal (P.unmarshal .WorkspaceSymbolOptions) raw
          (P.zero .WorkspaceSymbolOptions) with
      | .ok value_ =>
        ({ self with
            WorkspaceSymbolProvider :=
              some (.undeclared .WorkspaceSymbolOptions value_) }, none)
      | .error err => (self, some err)

/-- The block of `UnmarshalJSON` that resolves `DiagnosticProvider`:
nil | DiagnosticOptions | DiagnosticRegistrationOptions. -/
def setDiagnosticProvider {P : Declarations} (raw : json.RawMessage)
    (self : ServerCapabilities P) : ServerCapabilities P × Option json.UnmarshalTypeError :=
  match raw with
  | none => (self, none)
  | some raw =>
    match json.Unmarshal (P.unmarshal .DiagnosticOptions) raw (P.zero .DiagnosticOptions) with
    | .ok value_ =>
      ({ self with DiagnosticProvider := some (.undeclared .DiagnosticOptions value_) }, none)
    | .error _ =>
      match json.Unmarshal (P.unmarshal .DiagnosticRegistrationOptions) raw
          (P.zero .DiagnosticRegistrationOptions) with
      | .ok value_ =>
        ({ self with
            DiagnosticProvider :=
              some (.undeclared .DiagnosticRegistrationOptions value_) }, none)
      | .error err => (self, some err)

/-- The block of `UnmarshalJSON` that resolves `TypeHierarchyProvider`:
nil | bool | TypeHierarchyOptions | TypeHierarchyRegistrationOptions. -/
def setTypeHierarchyProvider {P : Declarations} (raw : json.RawMessage)
    (self : ServerCapabilities P) : ServerCapabilities P × Option json.UnmarshalTypeError :=
  match raw with
  | none => (self, none)
  | some raw =>
    match json.Unmarshal json.unmarshalBool raw false with
    | .ok value_ =>
      ({ self with TypeHierarchyProvider := some (.bool value_) }, none)
    | .error _ =>
      match json.Unmarshal TypeHierarchyOptions.unmarshal raw {} with
      | .ok value_ =>
        ({ self with TypeHierarchyProvider := some (.TypeHierarchyOptions value_) }, none)
      | .error _ =>
        match json.Unmarshal TypeHierarchyRegistrationOptions.unmarshal raw {} with
        | .ok value_ =>
          ({ self with
              TypeHierarchyProvider :=
                some (.TypeHierarchyRegistrationOptions value_) }, none)
        | .error err => (self, some err)

/-- The block of `UnmarshalJSON` that resolves `InlayHintProvider`:
nil | bool | InlayHintOptions | InlayHintRegistrationOptions. -/
def setInlayHintProvider {P : Declarations} (raw : json.RawMessage)
    (self : ServerCapabilities P) : ServerCapabilities P × Option json.UnmarshalTypeError :=
  match raw with
  | none => (self, none)
  | some raw =>
    match json.Unmarshal json.unmarshalBool raw false with
    | .ok value_ =>
      ({ self with InlayHintProvider := some (.bool value_) }, none)
    | .error _ =>
      match json.Unmarshal InlayHintOptions.unmarshal raw {} with
      | .ok value_ =>
        ({ self with InlayHintProvider := some (.InlayHintOptions value_) }, none)
      | .error _ =>
        match json.Unmarshal InlayHintRegistrationOptions.unmarshal raw {} with
        | .ok value_ =>
          ({ self with InlayHintProvider := some (.InlayHintRegistrationOptions value_) }, none)
        | .error err => (self, some err)

/-- The block of `UnmarshalJSON` that resolves `InlineValueProvider`:
nil | bool | InlineValueOptions | InlineValueRegistrationOptions. -/
def setInlineValueProvider {P : Declarations} (raw : json.RawMessage)
    (self : ServerCapabilities P) : ServerCapabilities P × Option json.UnmarshalTypeError :=
  match raw with
  | none => (self, none)
  | some raw =>
    match json.Unmarshal json.unmarshalBool raw false with
    | .ok value_ =>
      ({ self with InlineValueProvider := some (.bool value_) }, none)
    | .error _ =>
      match json.Unmarshal InlineValueOptions.unmarshal raw {} with
      | .ok value_ =>
        ({ self with InlineValueProvider := some (.InlineValueOptions value_) }, none)
      | .error _ =>
        match json.Unmarshal InlineValueRegistrationOptions.unmarshal raw {} with
        | .ok value_ =>
          ({ self with
              InlineValueProvider :=
                some (.InlineValueRegistrationOptions value_) }, none)
        | .error err => (self, some err)

/-- The method `UnmarshalJSON` of `*ServerCapabilities`. It returns the receiver as
the call leaves it together with the returned error (`none` is nil). The input is
first decoded into the schema `value`; on success seven fields are copied over and
the ambiguous fields are resolved one block after the other, the first error being
returned at once. -/
def UnmarshalJSON {P : Declarations} (self : ServerCapabilities P) (data : json.Value) :
    ServerCapabilities P × Option json.UnmarshalTypeError :=
  match json.Unmarshal (value.unmarshal P) data {} with
  | .ok value =>
    let self := { self with CompletionProvider := value.CompletionProvider }
    let self := { self with SignatureHelpProvider := value.SignatureHelpProvider }
    let self := { self with CodeLensProvider := value.CodeLensProvider }
    let self := { self with DocumentLinkProvider := value.DocumentLinkProvider }
    let self :=
      { self with DocumentOnTypeFormattingProvider := value.DocumentOnTypeFormattingProvider }
    let self := { self with ExecuteCommandProvider := value.ExecuteCommandProvider }
    let self := { self with Workspace := value.Workspace }
    runBlocks
      [setTextDocumentSync value.TextDocumentSync, setHoverProvider value.HoverProvider,
       setDeclarationProvider value.DeclarationProvider,
       setDefinitionProvider value.DefinitionProvider,
       setTypeDefinitionProvider value.TypeDefinitionProvider,
       setImplementationProvider value.ImplementationProvider,
       setReferencesProvider value.ReferencesProvider,
       setDocumentHighlightProvider value.DocumentHighlightProvider,
       setDocumentSymbolProvider value.DocumentSymbolProvider,
       setCodeActionProvider value.CodeActionProvider, setColorProvider value.ColorProvider,
       setDocumentFormattingProvider value.DocumentFormattingProvider,
       setDocumentRangeFormattingProvider value.DocumentRangeFormattingProvider,
       setRenameProvider value.RenameProvider,
       setFoldingRangeProvider value.FoldingRangeProvider,
       setSelectionRangeProvider value.SelectionRangeProvider,
       setLinkedEditingRangeProvider value.LinkedEditingRangeProvider,
       setCallHierarchyProvider value.CallHierarchyProvider,
       setSemanticTokensProvider value.SemanticTokensProvider,
       setMonikerProvider value.MonikerProvider,
       setWorkspaceSymbolProvider value.WorkspaceSymbolProvider,
       setDiagnosticProvider value.DiagnosticProvider,
       setTypeHierarchyProvider value.TypeHierarchyProvider,
       setInlayHintProvider value.InlayHintProvider,
       setInlineValueProvider value.InlineValueProvider]
      self
  | .error err => (self, some err)

end ServerCapabilities

end protocol
namespace json

/-- Decode into a Go integer of 32 bits named `typ`: a number literal of integer form
that fits is stored, any other number is a mismatch that quotes the literal. -/
def unmarshalInt32 (typ : String) (v : Value) (cur : Int) : Decoded Int :=
  match v with
  | .null => .ok cur
  | .int n =>
    if -2147483648 ≤ n ∧ n ≤ 2147483647 then .ok n
    else .saved cur ⟨"number " ++ toString n, typ⟩
  | .float lit => .saved cur ⟨"number " ++ lit, typ⟩
  | v => .saved cur ⟨kind v, typ⟩

end json

namespace protocol316

/-- The default encoding of a `WorkDoneProgressOptions`: the flag is omitted when nil. -/
def WorkDoneProgressOptions.marshal (s : WorkDoneProgressOptions) : json.Value :=
  .obj (match s.WorkDoneProgress with
    | none => []
    | some b => [("workDoneProgress", .bool b)])

end protocol316

namespace protocol

/-- The name of an undeclared type as `encoding/json` prints it in a type error. -/
def Undeclared.typeName : Undeclared → String
  | .TextDocumentSyncOptions => "protocol.TextDocumentSyncOptions"
  | .TextDocumentSyncKind => "protocol.TextDocumentSyncKind"
  | .CompletionOptions => "protocol.CompletionOptions"
  | .SignatureHelpOptions => "protocol.SignatureHelpOptions"
  | .DeclarationOptions => "protocol.DeclarationOptions"
  | .DeclarationRegistrationOptions => "protocol.DeclarationRegistrationOptions"
  | .DefinitionOptions => "protocol.DefinitionOptions"
  | .TypeDefinitionOptions => "protocol.TypeDefinitionOptions"
  | .TypeDefinitionRegistrationOptions => "protocol.TypeDefinitionRegistrationOptions"
  | .ImplementationOptions => "protocol.ImplementationOptions"
  | .ImplementationRegistrationOptions => "protocol.ImplementationRegistrationOptions"
  | .ReferenceOptions => "protocol.ReferenceOptions"
  | .DocumentHighlightOptions => "protocol.DocumentHighlightOptions"
  | .DocumentSymbolOptions => "protocol.DocumentSymbolOptions"
  | .CodeActionOptions => "protocol.CodeActionOptions"
  | .CodeLensOptions => "protocol.CodeLensOptions"
  | .DocumentLinkOptions => "protocol.DocumentLinkOptions"
  | .DocumentColorOptions => "protocol.DocumentColorOptions"
  | .DocumentColorRegistrationOptions => "protocol.DocumentColorRegistrationOptions"
  | .DocumentFormattingOptions => "protocol.DocumentFormattingOptions"
  | .DocumentRangeFormattingOptions => "protocol.DocumentRangeFormattingOptions"
  | .DocumentOnTypeFormattingOptions => "protocol.DocumentOnTypeFormattingOptions"
  | .RenameOptions => "protocol.RenameOptions"
  | .FoldingRangeOptions => "protocol.FoldingRangeOptions"
  | .FoldingRangeRegistrationOptions => "protocol.FoldingRangeRegistrationOptions"
  | .ExecuteCommandOptions => "protocol.ExecuteCommandOptions"
  | .SelectionRangeOptions => "protocol.SelectionRangeOptions"
  | .SelectionRangeRegistrationOptions => "protocol.SelectionRangeRegistrationOptions"
  | .LinkedEditingRangeOptions => "protocol.LinkedEditingRangeOptions"
  | .LinkedEditingRangeRegistrationOptions => "protocol.LinkedEditingRangeRegistrationOptions"
  | .CallHierarchyOptions => "protocol.CallHierarchyOptions"
  | .CallHierarchyRegistrationOptions => "protocol.CallHierarchyRegistrationOptions"
  | .SemanticTokensOptions => "protocol.SemanticTokensOptions"
  | .SemanticTokensRegistrationOptions => "protocol.SemanticTokensRegistrationOptions"
  | .MonikerOptions => "protocol.MonikerOptions"
  | .MonikerRegistrationOptions => "protocol.MonikerRegistrationOptions"
  | .WorkspaceSymbolOptions => "protocol.WorkspaceSymbolOptions"
  | .ServerCapabilitiesWorkspace => "protocol.ServerCapabilitiesWorkspace"
  | .DiagnosticOptions => "protocol.DiagnosticOptions"
  | .DiagnosticRegistrationOptions => "protocol.DiagnosticRegistrationOptions"

/-- The two shapes the sample instantiation gives to the undeclared types. -/
inductive SampleShape where
  | integer
  | options
  deriving DecidableEq, Repr

/-- The values of a sample shape. -/
def SampleShape.Val : SampleShape → Type
  | .integer => Int
  | .options => protocol316.WorkDoneProgressOptions

/-- The zero value of a sample shape. -/
def SampleShape.zero : (s : SampleShape) → s.Val
  | .integer => (0 : Int)
  | .options => ({} : protocol316.WorkDoneProgressOptions)

/-- Decoding into a sample shape. -/
def SampleShape.unmarshal (typ : String) :
    (s : SampleShape) → json.Value → s.Val → json.Decoded s.Val
  | .integer => json.unmarshalInt32 typ
  | .options => json.unmarshalStruct typ protocol316.WorkDoneProgressOptions.fields

/-- Encoding a value of a sample shape. -/
def SampleShape.marshal : (s : SampleShape) → s.Val → json.Value
  | .integer => fun (n : Int) => json.Value.int n
  | .options => protocol316.WorkDoneProgressOptions.marshal

/-- The shape the sample instantiation gives to an undeclared type. -/
def Undeclared.sampleShape : Undeclared → SampleShape
  | .TextDocumentSyncKind => .integer
  | _ => .options

/-- A sample instantiation of the undeclared types, on which the decoder can be run:
`TextDocumentSyncKind` is a Go integer of 32 bits and every other type is a plain
struct whose only field is the optional flag `workDoneProgress`. The theorems below
hold for every instantiation; this one serves to evaluate them on inputs. -/
def sample : Declarations where
  Val t := t.sampleShape.Val
  zero t := t.sampleShape.zero
  unmarshal t := t.sampleShape.unmarshal t.typeName
  marshal t := t.sampleShape.marshal

end protocol
namespace json

/-- The member a struct field under `omitempty` contributes when its Go type is a
pointer or an interface: none when it is nil. -/
def omitEmpty {α : Type} (key : String) (enc : α → Value) : Option α → List (String × Value)
  | none => []
  | some x => [(key, enc x)]

/-- The member a pointer field without `omitempty` contributes: `null` when nil. -/
def orNull {α : Type} (key : String) (enc : α → Value) : Option α → List (String × Value)
  | none => [(key, .null)]
  | some x => [(key, enc x)]

end json

namespace protocol316

/-- The default encoding of a `HoverOptions`. -/
def HoverOptions.marshal (s : HoverOptions) : json.Value :=
  .obj (json.omitEmpty "workDoneProgress" .bool s.WorkDoneProgress)

/-- The default encoding of a `DocumentFilter`. -/
def DocumentFilter.marshal (s : DocumentFilter) : json.Value :=
  .obj (json.omitEmpty "language" .str s.Language ++ json.omitEmpty "scheme" .str s.Scheme ++
    json.omitEmpty "pattern" .str s.Pattern)

/-- The default encoding of a `DocumentSelector` that is not the nil slice. -/
def DocumentSelector.marshal (s : DocumentSelector) : json.Value :=
  .arr (s.map DocumentFilter.marshal)

end protocol316

namespace protocol

/-- The default encoding of a `TypeHierarchyOptions`. -/
def TypeHierarchyOptions.marshal (s : TypeHierarchyOptions) : json.Value :=
  .obj (json.omitEmpty "workDoneProgress" .bool s.WorkDoneProgress)

/-- The default encoding of a `TypeHierarchyRegistrationOptions`. -/
def TypeHierarchyRegistrationOptions.marshal (s : TypeHierarchyRegistrationOptions) :
    json.Value :=
  .obj (json.orNull "documentSelector" protocol316.DocumentSelector.marshal s.DocumentSelector ++
    json.omitEmpty "workDoneProgress" .bool s.WorkDoneProgress ++
    json.omitEmpty "id" .str s.ID)

/-- The default encoding of an `InlayHintOptions`. -/
def InlayHintOptions.marshal (s : InlayHintOptions) : json.Value :=
  .obj (json.omitEmpty "workDoneProgress" .bool s.WorkDoneProgress ++
    json.omitEmpty "resolveProvider" .bool s.ResolveProvider)

/-- The default encoding of an `InlayHintRegistrationOptions`. -/
def InlayHintRegistrationOptions.marshal (s : InlayHintRegistrationOptions) : json.Value :=
  .obj (json.omitEmpty "workDoneProgress" .bool s.WorkDoneProgress ++
    json.omitEmpty "resolveProvider" .bool s.ResolveProvider ++
    json.orNull "documentSelector" protocol316.DocumentSelector.marshal s.DocumentSelector ++
    json.omitEmpty "id" .str s.ID)

/-- The default encoding of an `InlineValueOptions`. -/
def InlineValueOptions.marshal (s : InlineValueOptions) : json.Value :=
  .obj (json.omitEmpty "workDoneProgress" .bool s.WorkDoneProgress)

/-- The default encoding of an `InlineValueRegistrationOptions`. -/
def InlineValueRegistrationOptions.marshal (s : InlineValueRegistrationOptions) : json.Value :=
  .obj (json.omitEmpty "workDoneProgress" .bool s.WorkDoneProgress ++
    json.orNull "documentSelector" protocol316.DocumentSelector.marshal s.DocumentSelector ++
    json.omitEmpty "id" .str s.ID)

/-- The encoding of the value an `any` field holds: the encoding of its concrete type. -/
def Dynamic.marshal {P : Declarations} : Dynamic P → json.Value
  | .bool b => .bool b
  | .HoverOptions v => v.marshal
  | .undeclared t v => P.marshal t v
  | .TypeHierarchyOptions v => v.marshal
  | .TypeHierarchyRegistrationOptions v => v.marshal
  | .InlayHintOptions v => v.marshal
  | .InlayHintRegistrationOptions v => v.marshal
  | .InlineValueOptions v => v.marshal
  | .InlineValueRegistrationOptions v => v.marshal

/-- The members `json.Marshal` emits for a `ServerCapabilities`, by the default struct
encoder (the type has no `MarshalJSON` method): the promoted fields of the embedded
3.16 capabilities, then the four fields of this revision, each under its wire key and
each omitted when nil. The keys of the embedded struct are modelled as those of the
decode schema. -/
def ServerCapabilities.members {P : Declarations} (s : ServerCapabilities P) :
    List (String × json.Value) :=
  json.omitEmpty "textDocumentSync" Dynamic.marshal s.TextDocumentSync ++
  json.omitEmpty "completionProvider" (P.marshal .CompletionOptions) s.CompletionProvider ++
  json.omitEmpty "hoverProvider" Dynamic.marshal s.HoverProvider ++
  json.omitEmpty "signatureHelpProvider" (P.marshal .SignatureHelpOptions)
    s.SignatureHelpProvider ++
  json.omitEmpty "declarationProvider" Dynamic.marshal s.DeclarationProvider ++
  json.omitEmpty "definitionProvider" Dynamic.marshal s.DefinitionProvider ++
  json.omitEmpty "typeDefinitionProvider" Dynamic.marshal s.TypeDefinitionProvider ++
  json.omitEmpty "implementationProvider" Dynamic.marshal s.ImplementationProvider ++
  json.omitEmpty "referencesProvider" Dynamic.marshal s.ReferencesProvider ++
  json.omitEmpty "documentHighlightProvider" Dynamic.marshal s.DocumentHighlightProvider ++
  json.omitEmpty "documentSymbolProvider" Dynamic.marshal s.DocumentSymbolProvider ++
  json.omitEmpty "codeActionProvider" Dynamic.marshal s.CodeActionProvider ++
  json.omitEmpty "codeLensProvider" (P.marshal .CodeLensOptions) s.CodeLensProvider ++
  json.omitEmpty "documentLinkProvider" (P.marshal .DocumentLinkOptions) s.DocumentLinkProvider ++
  json.omitEmpty "colorProvider" Dynamic.marshal s.ColorProvider ++
  json.omitEmpty "documentFormattingProvider" Dynamic.marshal s.DocumentFormattingProvider ++
  json.omitEmpty "documentRangeFormattingProvider" Dynamic.marshal
    s.DocumentRangeFormattingProvider ++
  json.omitEmpty "documentOnTypeFormattingProvider" (P.marshal .DocumentOnTypeFormattingOptions)
    s.DocumentOnTypeFormattingProvider ++
  json.omitEmpty "renameProvider" Dynamic.marshal s.RenameProvider ++
  json.omitEmpty "foldingRangeProvider" Dynamic.marshal s.FoldingRangeProvider ++
  json.omitEmpty "executeCommandProvider" (P.marshal .ExecuteCommandOptions)
    s.ExecuteCommandProvider ++
  json.omitEmpty "selectionRangeProvider" Dynamic.marshal s.SelectionRangeProvider ++
  json.omitEmpty "linkedEditingRangeProvider" Dynamic.marshal s.LinkedEditingRangeProvider ++
  json.omitEmpty "callHierarchyProvider" Dynamic.marshal s.CallHierarchyProvider ++
  json.omitEmpty "semanticTokensProvider" Dynamic.marshal s.SemanticTokensProvider ++
  json.omitEmpty "monikerProvider" Dynamic.marshal s.MonikerProvider ++
  json.omitEmpty "workspaceSymbolProvider" Dynamic.marshal s.WorkspaceSymbolProvider ++
  json.omitEmpty "workspace" (P.marshal .ServerCapabilitiesWorkspace) s.Workspace ++
  json.omitEmpty "experimental" id s.Experimental ++
  json.omitEmpty "diagnosticProvider" Dynamic.marshal s.DiagnosticProvider ++
  json.omitEmpty "typeHierarchyProvider" Dynamic.marshal s.TypeHierarchyProvider ++
  json.omitEmpty "inlayHintProvider" Dynamic.marshal s.InlayHintProvider ++
  json.omitEmpty "inlineValueProvider" Dynamic.marshal s.InlineValueProvider

/-- The result of `json.Marshal` on a `ServerCapabilities`: one JSON object. -/
def ServerCapabilities.marshal {P : Declarations} (s : ServerCapabilities P) : json.Value :=
  .obj s.members

/-- The ambiguous fields of the capabilities, in the order in which `UnmarshalJSON`
resolves them. -/
inductive AmbiguousField where
  | TextDocumentSync
  | HoverProvider
  | DeclarationProvider
  | DefinitionProvider
  | TypeDefinitionProvider
  | ImplementationProvider
  | ReferencesProvider
  | DocumentHighlightProvider
  | DocumentSymbolProvider
  | CodeActionProvider
  | ColorProvider
  | DocumentFormattingProvider
  | DocumentRangeFormattingProvider
  | RenameProvider
  | FoldingRangeProvider
  | SelectionRangeProvider
  | LinkedEditingRangeProvider
  | CallHierarchyProvider
  | SemanticTokensProvider
  | MonikerProvider
  | WorkspaceSymbolProvider
  | DiagnosticProvider
  | TypeHierarchyProvider
  | InlayHintProvider
  | InlineValueProvider
  deriving DecidableEq, Repr

namespace AmbiguousField

/-- All ambiguous fields, in the order of their blocks in `UnmarshalJSON`. -/
def all : List AmbiguousField :=
  [.TextDocumentSync, .HoverProvider, .DeclarationProvider, .DefinitionProvider,
   .TypeDefinitionProvider, .ImplementationProvider, .ReferencesProvider,
   .DocumentHighlightProvider, .DocumentSymbolProvider, .CodeActionProvider, .ColorProvider,
   .DocumentFormattingProvider, .DocumentRangeFormattingProvider, .RenameProvider,
   .FoldingRangeProvider, .SelectionRangeProvider, .LinkedEditingRangeProvider,
   .CallHierarchyProvider, .SemanticTokensProvider, .MonikerProvider, .WorkspaceSymbolProvider,
   .DiagnosticProvider, .TypeHierarchyProvider, .InlayHintProvider, .InlineValueProvider]

/-- The wire key of an ambiguous field. -/
def key : AmbiguousField → String
  | .TextDocumentSync => "textDocumentSync"
  | .HoverProvider => "hoverProvider"
  | .DeclarationProvider => "declarationProvider"
  | .DefinitionProvider => "definitionProvider"
  | .TypeDefinitionProvider => "typeDefinitionProvider"
  | .ImplementationProvider => "implementationProvider"
  | .ReferencesProvider => "referencesProvider"
  | .DocumentHighlightProvider => "documentHighlightProvider"
  | .DocumentSymbolProvider => "documentSymbolProvider"
  | .CodeActionProvider => "codeActionProvider"
  | .ColorProvider => "colorProvider"
  | .DocumentFormattingProvider => "documentFormattingProvider"
  | .DocumentRangeFormattingProvider => "documentRangeFormattingProvider"
  | .RenameProvider => "renameProvider"
  | .FoldingRangeProvider => "foldingRangeProvider"
  | .SelectionRangeProvider => "selectionRangeProvider"
  | .LinkedEditingRangeProvider => "linkedEditingRangeProvider"
  | .CallHierarchyProvider => "callHierarchyProvider"
  | .SemanticTokensProvider => "semanticTokensProvider"
  | .MonikerProvider => "monikerProvider"
  | .WorkspaceSymbolProvider => "workspaceSymbolProvider"
  | .DiagnosticProvider => "diagnosticProvider"
  | .TypeHierarchyProvider => "typeHierarchyProvider"
  | .InlayHintProvider => "inlayHintProvider"
  | .InlineValueProvider => "inlineValueProvider"

/-- The raw bytes the decode schema holds for an ambiguous field. -/
def raw {P : Declarations} : AmbiguousField → ServerCapabilities.value P → json.RawMessage
  | .TextDocumentSync, v => v.TextDocumentSync
  | .HoverProvider, v => v.HoverProvider
  | .DeclarationProvider, v => v.DeclarationProvider
  | .DefinitionProvider, v => v.DefinitionProvider
  | .TypeDefinitionProvider, v => v.TypeDefinitionProvider
  | .ImplementationProvider, v => v.ImplementationProvider
  | .ReferencesProvider, v => v.ReferencesProvider
  | .DocumentHighlightProvider, v => v.DocumentHighlightProvider
  | .DocumentSymbolProvider, v => v.DocumentSymbolProvider
  | .CodeActionProvider, v => v.CodeActionProvider
  | .ColorProvider, v => v.ColorProvider
  | .DocumentFormattingProvider, v => v.DocumentFormattingProvider
  | .DocumentRangeFormattingProvider, v => v.DocumentRangeFormattingProvider
  | .RenameProvider, v => v.RenameProvider
  | .FoldingRangeProvider, v => v.FoldingRangeProvider
  | .SelectionRangeProvider, v => v.SelectionRangeProvider
  | .LinkedEditingRangeProvider, v => v.LinkedEditingRangeProvider
  | .CallHierarchyProvider, v => v.CallHierarchyProvider
  | .SemanticTokensProvider, v => v.SemanticTokensProvider
  | .MonikerProvider, v => v.MonikerProvider
  | .WorkspaceSymbolProvider, v => v.WorkspaceSymbolProvider
  | .DiagnosticProvider, v => v.DiagnosticProvider
  | .TypeHierarchyProvider, v => v.TypeHierarchyProvider
  | .InlayHintProvider, v => v.InlayHintProvider
  | .InlineValueProvider, v => v.InlineValueProvider

/-- The value of an ambiguous field in the capabilities. -/
def get {P : Declarations} : AmbiguousField → ServerCapabilities P → Option (Dynamic P)
  | .TextDocumentSync, s => s.TextDocumentSync
  | .HoverProvider, s => s.HoverProvider
  | .DeclarationProvider, s => s.DeclarationProvider
  | .DefinitionProvider, s => s.DefinitionProvider
  | .TypeDefinitionProvider, s => s.TypeDefinitionProvider
  | .ImplementationProvider, s => s.ImplementationProvider
  | .ReferencesProvider, s => s.ReferencesProvider
  | .DocumentHighlightProvider, s => s.DocumentHighlightProvider
  | .DocumentSymbolProvider, s => s.DocumentSymbolProvider
  | .CodeActionProvider, s => s.CodeActionProvider
  | .ColorProvider, s => s.ColorProvider
  | .DocumentFormattingProvider, s => s.DocumentFormattingProvider
  | .DocumentRangeFormattingProvider, s => s.DocumentRangeFormattingProvider
  | .RenameProvider, s => s.RenameProvider
  | .FoldingRangeProvider, s => s.FoldingRangeProvider
  | .SelectionRangeProvider, s => s.SelectionRangeProvider
  | .LinkedEditingRangeProvider, s => s.LinkedEditingRangeProvider
  | .CallHierarchyProvider, s => s.CallHierarchyProvider
  | .SemanticTokensProvider, s => s.SemanticTokensProvider
  | .MonikerProvider, s => s.MonikerProvider
  | .WorkspaceSymbolProvider, s => s.WorkspaceSymbolProvider
  | .DiagnosticProvider, s => s.DiagnosticProvider
  | .TypeHierarchyProvider, s => s.TypeHierarchyProvider
  | .InlayHintProvider, s => s.InlayHintProvider
  | .InlineValueProvider, s => s.InlineValueProvider

/-- The block of `UnmarshalJSON` that resolves an ambiguous field. -/
def block {P : Declarations} : AmbiguousField → json.RawMessage → ServerCapabilities P →
    ServerCapabilities P × Option json.UnmarshalTypeError
  | .TextDocumentSync => ServerCapabilities.setTextDocumentSync
  | .HoverProvider => ServerCapabilities.setHoverProvider
  | .DeclarationProvider => ServerCapabilities.setDeclarationProvider
  | .DefinitionProvider => ServerCapabilities.setDefinitionProvider
  | .TypeDefinitionProvider => ServerCapabilities.setTypeDefinitionProvider
  | .ImplementationProvider => ServerCapabilities.setImplementationProvider
  | .ReferencesProvider => ServerCapabilities.setReferencesProvider
  | .DocumentHighlightProvider => ServerCapabilities.setDocumentHighlightProvider
  | .DocumentSymbolProvider => ServerCapabilities.setDocumentSymbolProvider
  | .CodeActionProvider => ServerCapabilities.setCodeActionProvider
  | .ColorProvider => ServerCapabilities.setColorProvider
  | .DocumentFormattingProvider => ServerCapabilities.setDocumentFormattingProvider
  | .DocumentRangeFormattingProvider => ServerCapabilities.setDocumentRangeFormattingProvider
  | .RenameProvider => ServerCapabilities.setRenameProvider
  | .FoldingRangeProvider => ServerCapabilities.setFoldingRangeProvider
  | .SelectionRangeProvider => ServerCapabilities.setSelectionRangeProvider
  | .LinkedEditingRangeProvider => ServerCapabilities.setLinkedEditingRangeProvider
  | .CallHierarchyProvider => ServerCapabilities.setCallHierarchyProvider
  | .SemanticTokensProvider => ServerCapabilities.setSemanticTokensProvider
  | .MonikerProvider => ServerCapabilities.setMonikerProvider
  | .WorkspaceSymbolProvider => ServerCapabilities.setWorkspaceSymbolProvider
  | .DiagnosticProvider => ServerCapabilities.setDiagnosticProvider
  | .TypeHierarchyProvider => ServerCapabilities.setTypeHierarchyProvider
  | .InlayHintProvider => ServerCapabilities.setInlayHintProvider
  | .InlineValueProvider => ServerCapabilities.setInlineValueProvider

end AmbiguousField

/-- The candidate shapes of the ambiguous fields: the Go types the blocks of
`UnmarshalJSON` declare their variable `value_` with. -/
inductive Candidate where
  | bool
  | HoverOptions
  | undeclared (t : Undeclared)
  | TypeHierarchyOptions
  | TypeHierarchyRegistrationOptions
  | InlayHintOptions
  | InlayHintRegistrationOptions
  | InlineValueOptions
  | InlineValueRegistrationOptions
  deriving DecidableEq, Repr

/-- One attempt of a block: `json.Unmarshal(raw, &value_)` with `value_` a fresh
variable of the candidate type, giving the dynamic value to store or the error. -/
def Candidate.attempt {P : Declarations} (c : Candidate) (raw : json.Value) :
    Except json.UnmarshalTypeError (Dynamic P) :=
  match c with
  | .bool => (json.Unmarshal json.unmarshalBool raw false).map .bool
  | .HoverOptions => (json.Unmarshal protocol316.HoverOptions.unmarshal raw {}).map .HoverOptions
  | .undeclared t => (json.Unmarshal (P.unmarshal t) raw (P.zero t)).map (.undeclared t)
  | .TypeHierarchyOptions =>
    (json.Unmarshal TypeHierarchyOptions.unmarshal raw {}).map .TypeHierarchyOptions
  | .TypeHierarchyRegistrationOptions =>
    (json.Unmarshal TypeHierarchyRegistrationOptions.unmarshal raw {}).map
      .TypeHierarchyRegistrationOptions
  | .InlayHintOptions => (json.Unmarshal InlayHintOptions.unmarshal raw {}).map .InlayHintOptions
  | .InlayHintRegistrationOptions =>
    (json.Unmarshal InlayHintRegistrationOptions.unmarshal raw {}).map
      .InlayHintRegistrationOptions
  | .InlineValueOptions =>
    (json.Unmarshal InlineValueOptions.unmarshal raw {}).map .InlineValueOptions
  | .InlineValueRegistrationOptions =>
    (json.Unmarshal InlineValueRegistrationOptions.unmarshal raw {}).map
      .InlineValueRegistrationOptions

/-- The candidates of an ambiguous field in the order its block tries them. -/
def AmbiguousField.candidates : AmbiguousField → List Candidate
  | .TextDocumentSync => [.undeclared .TextDocumentSyncOptions, .undeclared .TextDocumentSyncKind]
  | .HoverProvider => [.bool, .HoverOptions]
  | .DeclarationProvider =>
    [.bool, .undeclared .DeclarationOptions,
     .undeclared .DeclarationRegistrationOptions]
  | .DefinitionProvider => [.bool, .undeclared .DefinitionOptions]
  | .TypeDefinitionProvider =>
    [.bool, .undeclared .TypeDefinitionOptions,
     .undeclared .TypeDefinitionRegistrationOptions]
  | .ImplementationProvider =>
    [.bool, .undeclared .ImplementationOptions,
     .undeclared .ImplementationRegistrationOptions]
  | .ReferencesProvider => [.bool, .undeclared .ReferenceOptions]
  | .DocumentHighlightProvider => [.bool, .undeclared .DocumentHighlightOptions]
  | .DocumentSymbolProvider => [.bool, .undeclared .DocumentSymbolOptions]
  | .CodeActionProvider => [.bool, .undeclared .CodeActionOptions]
  | .ColorProvider =>
    [.bool, .undeclared .DocumentColorOptions,
     .undeclared .DocumentColorRegistrationOptions]
  | .DocumentFormattingProvider => [.bool, .undeclared .DocumentFormattingOptions]
  | .DocumentRangeFormattingProvider => [.bool, .undeclared .DocumentRangeFormattingOptions]
  | .RenameProvider => [.bool, .undeclared .RenameOptions]
  | .FoldingRangeProvider =>
    [.bool, .undeclared .FoldingRangeOptions,
     .undeclared .FoldingRangeRegistrationOptions]
  | .SelectionRangeProvider =>
    [.bool, .undeclared .SelectionRangeOptions,
     .undeclared .SelectionRangeRegistrationOptions]
  | .LinkedEditingRangeProvider =>
    [.bool, .undeclared .LinkedEditingRangeOptions,
     .undeclared .LinkedEditingRangeRegistrationOptions]
  | .CallHierarchyProvider =>
    [.bool, .undeclared .CallHierarchyOptions,
     .undeclared .CallHierarchyRegistrationOptions]
  | .SemanticTokensProvider =>
    [.undeclared .SemanticTokensOptions, .undeclared .SemanticTokensRegistrationOptions,
     ]
  | .MonikerProvider =>
    [.bool, .undeclared .MonikerOptions,
     .undeclared .MonikerRegistrationOptions]
  | .WorkspaceSymbolProvider => [.bool, .undeclared .WorkspaceSymbolOptions]
  | .DiagnosticProvider =>
    [.undeclared .DiagnosticOptions, .undeclared .DiagnosticRegistrationOptions,
     ]
  | .TypeHierarchyProvider => [.bool, .TypeHierarchyOptions, .TypeHierarchyRegistrationOptions]
  | .InlayHintProvider => [.bool, .InlayHintOptions, .InlayHintRegistrationOptions]
  | .InlineValueProvider => [.bool, .InlineValueOptions, .InlineValueRegistrationOptions]

end protocol
namespace protocol

/-- The receiver with an ambiguous field assigned. -/
def AmbiguousField.set {P : Declarations} :
    AmbiguousField → Option (Dynamic P) → ServerCapabilities P → ServerCapabilities P
  | .TextDocumentSync, d, s => { s with TextDocumentSync := d }
  | .HoverProvider, d, s => { s with HoverProvider := d }
  | .DeclarationProvider, d, s => { s with DeclarationProvider := d }
  | .DefinitionProvider, d, s => { s with DefinitionProvider := d }
  | .TypeDefinitionProvider, d, s => { s with TypeDefinitionProvider := d }
  | .ImplementationProvider, d, s => { s with ImplementationProvider := d }
  | .ReferencesProvider, d, s => { s with ReferencesProvider := d }
  | .DocumentHighlightProvider, d, s => { s with DocumentHighlightProvider := d }
  | .DocumentSymbolProvider, d, s => { s with DocumentSymbolProvider := d }
  | .CodeActionProvider, d, s => { s with CodeActionProvider := d }
  | .ColorProvider, d, s => { s with ColorProvider := d }
  | .DocumentFormattingProvider, d, s => { s with DocumentFormattingProvider := d }
  | .DocumentRangeFormattingProvider, d, s => { s with DocumentRangeFormattingProvider := d }
  | .RenameProvider, d, s => { s with RenameProvider := d }
  | .FoldingRangeProvider, d, s => { s with FoldingRangeProvider := d }
  | .SelectionRangeProvider, d, s => { s with SelectionRangeProvider := d }
  | .LinkedEditingRangeProvider, d, s => { s with LinkedEditingRangeProvider := d }
  | .CallHierarchyProvider, d, s => { s with CallHierarchyProvider := d }
  | .SemanticTokensProvider, d, s => { s with SemanticTokensProvider := d }
  | .MonikerProvider, d, s => { s with MonikerProvider := d }
  | .WorkspaceSymbolProvider, d, s => { s with WorkspaceSymbolProvider := d }
  | .DiagnosticProvider, d, s => { s with DiagnosticProvider := d }
  | .TypeHierarchyProvider, d, s => { s with TypeHierarchyProvider := d }
  | .InlayHintProvider, d, s => { s with InlayHintProvider := d }
  | .InlineValueProvider, d, s => { s with InlineValueProvider := d }

/-- The trial decoder of the specification: the candidates are attempted in order
on the raw value; the first attempt that succeeds gives the result, and when every
attempt fails the error of the last one is reported (`last` is the error of the
attempt before, `none` when there was none). -/
def trialDecode {P : Declarations} (raw : json.Value) :
    List Candidate → Option json.UnmarshalTypeError →
    Except (Option json.UnmarshalTypeError) (Dynamic P)
  | [], last => .error last
  | c :: cs, _ =>
    match c.attempt raw with
    | .ok d => .ok d
    | .error e => trialDecode raw cs (some e)

/-- The fields of the receiver that `UnmarshalJSON` copies from the decode schema. -/
def ServerCapabilities.copyPlain {P : Declarations} (value : ServerCapabilities.value P)
    (self : ServerCapabilities P) : ServerCapabilities P :=
  { self with
    CompletionProvider := value.CompletionProvider
    SignatureHelpProvider := value.SignatureHelpProvider
    CodeLensProvider := value.CodeLensProvider
    DocumentLinkProvider := value.DocumentLinkProvider
    DocumentOnTypeFormattingProvider := value.DocumentOnTypeFormattingProvider
    ExecuteCommandProvider := value.ExecuteCommandProvider
    Workspace := value.Workspace }

/-- The ambiguous fields this revision adds to the capabilities. -/
def AmbiguousField.delta : List AmbiguousField :=
  [.DiagnosticProvider, .TypeHierarchyProvider, .InlayHintProvider, .InlineValueProvider]

/-- The ambiguous fields of the embedded 3.16 capabilities. -/
def AmbiguousField.base : List AmbiguousField :=
  AmbiguousField.all.filter (· ∉ AmbiguousField.delta)

/-- The wire keys of the four fields this revision adds. -/
def deltaKeys : List String :=
  ["diagnosticProvider", "typeHierarchyProvider", "inlayHintProvider", "inlineValueProvider"]

/-- A schema value with the raw bytes of the four fields of this revision dropped. -/
def ServerCapabilities.value.clearDelta {P : Declarations} (x : ServerCapabilities.value P) :
    ServerCapabilities.value P :=
  { x with
    DiagnosticProvider := none
    TypeHierarchyProvider := none
    InlayHintProvider := none
    InlineValueProvider := none }

end protocol

namespace protocol316

/-- Modelled from the spec: `Integer` is declared in package `protocol_3_16`, outside
the source files; it is the integer type of the protocol. -/
abbrev Integer := Int

end protocol316

namespace protocol

/-- This is the start range of LSP reserved error codes. It doesn't denote a real
error code. -/
def LSPReservedErrorRangeStart : protocol316.Integer := -32899

/-- A request failed but it was syntactically correct. -/
def RequestFailed : protocol316.Integer := -32803

/-- The server cancelled the request. -/
def ServerCancelled : protocol316.Integer := -32802

/-- The server detected that the content of a document got modified outside normal
conditions. -/
def ContentModified : protocol316.Integer := -32801

/-- The client has canceled a request and a server as detected the cancel. -/
def RequestCancelled : protocol316.Integer := -32800

/-- This is the end range of LSP reserved error codes. It doesn't denote a real error
code. -/
def LSPReservedErrorRangeEnd : protocol316.Integer := -32800

/-- The candidates of an ambiguous field as the comment of the field in the decode
schema lists them, the leading `nil` removed. The comment of `typeDefinitionProvider`
writes `TypeDefinitionOption` for the type `TypeDefinitionOptions`. -/
def AmbiguousField.listed : AmbiguousField → List Candidate
  | .TextDocumentSync => [.undeclared .TextDocumentSyncOptions, .undeclared .TextDocumentSyncKind]
  | .HoverProvider => [.bool, .HoverOptions]
  | .DeclarationProvider =>
    [.bool, .undeclared .DeclarationOptions,
     .undeclared .DeclarationRegistrationOptions]
  | .DefinitionProvider => [.bool, .undeclared .DefinitionOptions]
  | .TypeDefinitionProvider =>
    [.bool, .undeclared .TypeDefinitionOptions,
     .undeclared .TypeDefinitionRegistrationOptions]
  | .ImplementationProvider =>
    [.bool, .undeclared .ImplementationOptions,
     .undeclared .ImplementationRegistrationOptions]
  | .ReferencesProvider => [.bool, .undeclared .ReferenceOptions]
  | .DocumentHighlightProvider => [.bool, .undeclared .DocumentHighlightOptions]
  | .DocumentSymbolProvider => [.bool, .undeclared .DocumentSymbolOptions]
  | .CodeActionProvider => [.bool, .undeclared .CodeActionOptions]
  | .ColorProvider =>
    [.bool, .undeclared .DocumentColorOptions,
     .undeclared .DocumentColorRegistrationOptions]
  | .DocumentFormattingProvider => [.bool, .undeclared .DocumentFormattingOptions]
  | .DocumentRangeFormattingProvider => [.bool, .undeclared .DocumentRangeFormattingOptions]
  | .RenameProvider => [.bool, .undeclared .RenameOptions]
  | .FoldingRangeProvider =>
    [.bool, .undeclared .FoldingRangeOptions,
     .undeclared .FoldingRangeRegistrationOptions]
  | .SelectionRangeProvider =>
    [.bool, .undeclared .SelectionRangeOptions,
     .undeclared .SelectionRangeRegistrationOptions]
  | .LinkedEditingRangeProvider =>
    [.bool, .undeclared .LinkedEditingRangeOptions,
     .undeclared .LinkedEditingRangeRegistrationOptions]
  | .CallHierarchyProvider =>
    [.bool, .undeclared .CallHierarchyOptions,
     .undeclared .CallHierarchyRegistrationOptions]
  | .SemanticTokensProvider =>
    [.undeclared .SemanticTokensOptions, .undeclared .SemanticTokensRegistrationOptions,
     ]
  | .MonikerProvider =>
    [.bool, .undeclared .MonikerOptions,
     .undeclared .MonikerRegistrationOptions]
  | .WorkspaceSymbolProvider => [.bool, .undeclared .WorkspaceSymbolOptions]
  | .DiagnosticProvider =>
    [.undeclared .DiagnosticOptions, .undeclared .DiagnosticRegistrationOptions,
     ]
  | .TypeHierarchyProvider => [.bool, .TypeHierarchyOptions, .TypeHierarchyRegistrationOptions]
  | .InlayHintProvider => [.bool, .InlayHintOptions, .InlayHintRegistrationOptions]
  | .InlineValueProvider => [.bool, .InlineValueOptions, .InlineValueRegistrationOptions]

/-- A schema value with the raw bytes of an ambiguous field replaced. -/
def AmbiguousField.setRaw {P : Declarations} :
    AmbiguousField → json.RawMessage → ServerCapabilities.value P → ServerCapabilities.value P
  | .TextDocumentSync, r, x => { x with TextDocumentSync := r }
  | .HoverProvider, r, x => { x with HoverProvider := r }
  | .DeclarationProvider, r, x => { x with DeclarationProvider := r }
  | .DefinitionProvider, r, x => { x with DefinitionProvider := r }
  | .TypeDefinitionProvider, r, x => { x with TypeDefinitionProvider := r }
  | .ImplementationProvider, r, x => { x with ImplementationProvider := r }
  | .ReferencesProvider, r, x => { x with ReferencesProvider := r }
  | .DocumentHighlightProvider, r, x => { x with DocumentHighlightProvider := r }
  | .DocumentSymbolProvider, r, x => { x with DocumentSymbolProvider := r }
  | .CodeActionProvider, r, x => { x with CodeActionProvider := r }
  | .ColorProvider, r, x => { x with ColorProvider := r }
  | .DocumentFormattingProvider, r, x => { x with DocumentFormattingProvider := r }
  | .DocumentRangeFormattingProvider, r, x => { x with DocumentRangeFormattingProvider := r }
  | .RenameProvider, r, x => { x with RenameProvider := r }
  | .FoldingRangeProvider, r, x => { x with FoldingRangeProvider := r }
  | .SelectionRangeProvider, r, x => { x with SelectionRangeProvider := r }
  | .LinkedEditingRangeProvider, r, x => { x with LinkedEditingRangeProvider := r }
  | .CallHierarchyProvider, r, x => { x with CallHierarchyProvider := r }
  | .SemanticTokensProvider, r, x => { x with SemanticTokensProvider := r }
  | .MonikerProvider, r, x => { x with MonikerProvider := r }
  | .WorkspaceSymbolProvider, r, x => { x with WorkspaceSymbolProvider := r }
  | .DiagnosticProvider, r, x => { x with DiagnosticProvider := r }
  | .TypeHierarchyProvider, r, x => { x with TypeHierarchyProvider := r }
  | .InlayHintProvider, r, x => { x with InlayHintProvider := r }
  | .InlineValueProvider, r, x => { x with InlineValueProvider := r }

/-- The fields of one shape that `UnmarshalJSON` copies from the decode schema to the
receiver: pointers to option structs declared outside the sources. -/
inductive PlainField where
  | CompletionProvider
  | SignatureHelpProvider
  | CodeLensProvider
  | DocumentLinkProvider
  | DocumentOnTypeFormattingProvider
  | ExecuteCommandProvider
  | Workspace
  deriving DecidableEq, Repr

namespace PlainField

/-- The wire key of a field of one shape. -/
def key : PlainField → String
  | .CompletionProvider => "completionProvider"
  | .SignatureHelpProvider => "signatureHelpProvider"
  | .CodeLensProvider => "codeLensProvider"
  | .DocumentLinkProvider => "documentLinkProvider"
  | .DocumentOnTypeFormattingProvider => "documentOnTypeFormattingProvider"
  | .ExecuteCommandProvider => "executeCommandProvider"
  | .Workspace => "workspace"

/-- The type a field of one shape points to. -/
def type : PlainField → Undeclared
  | .CompletionProvider => .CompletionOptions
  | .SignatureHelpProvider => .SignatureHelpOptions
  | .CodeLensProvider => .CodeLensOptions
  | .DocumentLinkProvider => .DocumentLinkOptions
  | .DocumentOnTypeFormattingProvider => .DocumentOnTypeFormattingOptions
  | .ExecuteCommandProvider => .ExecuteCommandOptions
  | .Workspace => .ServerCapabilitiesWorkspace

/-- The value the decode schema holds for a field of one shape. -/
def value {P : Declarations} :
    (f : PlainField) → ServerCapabilities.value P → Option (P.Val f.type)
  | .CompletionProvider, x => x.CompletionProvider
  | .SignatureHelpProvider, x => x.SignatureHelpProvider
  | .CodeLensProvider, x => x.CodeLensProvider
  | .DocumentLinkProvider, x => x.DocumentLinkProvider
  | .DocumentOnTypeFormattingProvider, x => x.DocumentOnTypeFormattingProvider
  | .ExecuteCommandProvider, x => x.ExecuteCommandProvider
  | .Workspace, x => x.Workspace

/-- The value of a field of one shape in the capabilities. -/
def get {P : Declarations} :
    (f : PlainField) → ServerCapabilities P → Option (P.Val f.type)
  | .CompletionProvider, s => s.CompletionProvider
  | .SignatureHelpProvider, s => s.SignatureHelpProvider
  | .CodeLensProvider, s => s.CodeLensProvider
  | .DocumentLinkProvider, s => s.DocumentLinkProvider
  | .DocumentOnTypeFormattingProvider, s => s.DocumentOnTypeFormattingProvider
  | .ExecuteCommandProvider, s => s.ExecuteCommandProvider
  | .Workspace, s => s.Workspace

/-- The capabilities with a field of one shape assigned. -/
def set {P : Declarations} :
    (f : PlainField) → Option (P.Val f.type) → ServerCapabilities P → ServerCapabilities P
  | .CompletionProvider, w, s => { s with CompletionProvider := w }
  | .SignatureHelpProvider, w, s => { s with SignatureHelpProvider := w }
  | .CodeLensProvider, w, s => { s with CodeLensProvider := w }
  | .DocumentLinkProvider, w, s => { s with DocumentLinkProvider := w }
  | .DocumentOnTypeFormattingProvider, w, s => { s with DocumentOnTypeFormattingProvider := w }
  | .ExecuteCommandProvider, w, s => { s with ExecuteCommandProvider := w }
  | .Workspace, w, s => { s with Workspace := w }

end PlainField

end protocol

namespace protocol

/-- The wire keys of a candidate shape declared or modelled here, as the decoder sees
them; `bool` has none, and the keys of a shape declared outside the sources are not
known here. -/
def Candidate.keys : Candidate → List String
  | .bool => []
  | .HoverOptions => protocol316.HoverOptions.fields.map (·.name)
  | .undeclared _ => []
  | .TypeHierarchyOptions => TypeHierarchyOptions.fields.map (·.name)
  | .TypeHierarchyRegistrationOptions => TypeHierarchyRegistrationOptions.fields.map (·.name)
  | .InlayHintOptions => InlayHintOptions.fields.map (·.name)
  | .InlayHintRegistrationOptions => InlayHintRegistrationOptions.fields.map (·.name)
  | .InlineValueOptions => InlineValueOptions.fields.map (·.name)
  | .InlineValueRegistrationOptions => InlineValueRegistrationOptions.fields.map (·.name)

/-- Two schema decodes that go in lock step: they differ at most in the raw bytes the
field `f` holds, and the block of `f` does the same on the two. -/
def Related {P : Declarations} (f : AmbiguousField)
    (d1 d2 : json.Decoded (ServerCapabilities.value P)) : Prop :=
  ∃ (r1 r2 : json.RawMessage) (d : json.Decoded (ServerCapabilities.value P)),
    (∀ self : ServerCapabilities P, f.block r1 self = f.block r2 self) ∧
    d1 = d.map (f.setRaw r1) ∧ d2 = d.map (f.setRaw r2)

end protocol

namespace json

/-- Decode into a Go type whose underlying type is `string`; `typ` is the name of the
type, reported in a type mismatch. -/
def unmarshalStringAs (typ : String) (v : Value) (cur : String) : Decoded String :=
  match v with
  | .null => .ok cur
  | .str s => .ok s
  | v => .saved cur ⟨kind v, typ⟩

/-- Decode into a slice whose nil value is kept apart from the empty slice (`none` is
nil): `null` gives nil, an array gives a non-nil slice of its elements, anything else
is a type mismatch. -/
def unmarshalNilable {α : Type} (typ : String) (zero : α) (elem : Value → α → Decoded α)
    (v : Value) (cur : Option (List α)) : Decoded (Option (List α)) :=
  match v with
  | .null => .ok none
  | .arr items => (unmarshalElems zero elem items [] none).map some
  | v => .saved cur ⟨kind v, typ⟩

/-- The encoding of a slice of strings: `null` when nil, else an array. -/
def marshalStrings : Option (List String) → Value
  | none => .null
  | some l => .arr (l.map .str)

/-- A field of a struct type as the encoder and the decoder collect it, fields of
embedded structs included: the depth of embedding at which it is declared, whether
its name comes from a `json` tag, its wire name, how a value is decoded into it inside
a struct value, and the value the encoder emits for it (`none` when `omitempty` leaves
it out). -/
structure Member (σ : Type) where
  depth : Nat
  tagged : Bool
  name : String
  store : Value → σ → Decoded σ
  emit : σ → Option Value

/-- The member seen as a field of the decoder. -/
def Member.toField {σ : Type} (m : Member σ) : Field σ := ⟨m.name, m.store⟩

/-- A field of an embedded struct seen from the embedding struct: one level deeper,
reading and writing the embedded value. -/
def Member.lift {σ τ : Type} (get : σ → τ) (set : τ → σ → σ) (m : Member τ) : Member σ :=
  ⟨m.depth + 1, m.tagged, m.name, fun v s => (m.store v (get s)).map fun t => set t s,
    fun s => m.emit (get s)⟩

/-- Whether `n` competes with `m` for the wire name of `m` and is ranked before it or
level with it: the same name, and a lesser depth, or the same depth with `n` tagged or
`m` untagged. -/
def Member.ranks {σ : Type} (n m : Member σ) : Bool :=
  decide (n.name = m.name) &&
    (decide (n.depth < m.depth) || (decide (n.depth = m.depth) && (n.tagged || !m.tagged)))

/-- The fields of a struct type after Go's rule for fields of one name: the field of
least depth wins, a tagged one before an untagged one at that depth, and when two are
level the name is dropped altogether. A member stays when it is the only one ranked
before or level with itself. -/
def dominant {σ : Type} (ms : List (Member σ)) : List (Member σ) :=
  ms.filter fun m => decide ((ms.filter fun n => n.ranks m).length = 1)

/-- The fields the decoder looks object keys up in. -/
def structFields {σ : Type} (ms : List (Member σ)) : List (Field σ) :=
  (dominant ms).map Member.toField

/-- The default encoding of a struct value: the fields that stay, in the order of
the declaration, without those `omitempty` leaves out. -/
def marshalStruct {σ : Type} (ms : List (Member σ)) (s : σ) : Value :=
  .obj ((dominant ms).filterMap fun m => (m.emit s).map fun v => (m.name, v))

/-- A tagged pointer field under `omitempty`, declared in the struct itself. -/
def Member.ptr {σ α : Type} (name : String) (zero : α) (dec : Value → α → Decoded α)
    (enc : α → Value) (get : σ → Option α) (set : Option α → σ → σ) : Member σ :=
  ⟨0, true, name, fun v s => (unmarshalPtr zero dec v (get s)).map fun p => set p s,
    fun s => (get s).map enc⟩

/-- A tagged field without `omitempty`, declared in the struct itself. -/
def Member.val {σ α : Type} (name : String) (dec : Value → α → Decoded α)
    (enc : α → Value) (get : σ → α) (set : α → σ → σ) : Member σ :=
  ⟨0, true, name, fun v s => (dec v (get s)).map fun p => set p s, fun s => some (enc (get s))⟩

end json

namespace protocol

/-- A type indicating how positions are encoded, specifically what column offsets
mean: a Go string type. -/
abbrev PositionEncodingKind := String

/-- Character offsets count UTF-8 code units (e.g bytes). -/
def PositionEncodingKindUTF8 : PositionEncodingKind := "utf-8"

/-- Character offsets count UTF-16 code units. -/
def PositionEncodingKindUTF16 : PositionEncodingKind := "utf-16"

/-- Character offsets count UTF-32 code units. -/
def PositionEncodingKindUTF32 : PositionEncodingKind := "utf-32"

/-- Modelled from the spec: a type that the structs of this package hold behind a
pointer and that is declared outside the source files (in package `protocol_3_16`, or
in a file of this package that is not among the sources): its values, its zero value,
and how `encoding/json` decodes into it and encodes it. -/
structure External where
  Val : Type
  zero : Val
  unmarshal : json.Value → Val → json.Decoded Val
  marshal : Val → json.Value

/-- Modelled from the spec: a struct type of package `protocol_3_16` that a struct of
this package embeds: its values, its zero value and the fields `encoding/json` collects
in it, with their depth inside it. The type is taken to have no `UnmarshalJSON` or
`MarshalJSON` method. -/
structure Embedded where
  Val : Type
  zero : Val
  members : List (json.Member Val)

/-- Modelled from the spec: the declarations the client-side structs and
`InitializeResult` use and the source files lack. -/
structure ClientDeclarations where
  RegularExpressionsClientCapabilities : External
  MarkdownClientCapabilities : External
  DiagnosticClientCapabilities : External
  InitializeResultServerInfo : External
  ClientCapabilities : Embedded
  TextDocumentClientCapabilities : Embedded
  InitializeParams : Embedded

/-- Client workspace capabilities specific to inlay hints. -/
structure InlayHintWorkspaceClientCapabilities where
  RefreshSupport : Option Bool := none
  deriving DecidableEq, Repr

/-- Client workspace capabilities specific to inline values. -/
structure InlineValueWorkspaceClientCapabilities where
  RefreshSupport : Option Bool := none
  deriving DecidableEq, Repr

/-- Workspace specific client capabilities: the struct of this revision, which embeds
no struct of the revision before. -/
structure WorkspaceClientCapabilities where
  InlayHint : Option InlayHintWorkspaceClientCapabilities := none
  InlineValue : Option InlineValueWorkspaceClientCapabilities := none
  deriving DecidableEq, Repr

/-- Client capabilities of the type hierarchy requests. -/
structure TypeHierarchyClientCapabilities where
  DynamicRegistration : Option Bool := none
  deriving DecidableEq, Repr

/-- The unnamed struct type of the field `ResolveSupport` of
`InlayHintClientCapabilities`. -/
structure ResolveSupportStruct where
  Properties : Option (List String) := none
  deriving DecidableEq, Repr

/-- Inlay hint client capabilities. -/
structure InlayHintClientCapabilities where
  DynamicRegistration : Option Bool := none
  ResolveSupport : Option ResolveSupportStruct := none
  deriving DecidableEq, Repr

/-- Client capabilities specific to inline values. -/
structure InlineValueClientCapabilities where
  DynamicRegistration : Option Bool := none
  deriving DecidableEq, Repr

/-- The unnamed struct type of the field `StaleRequestSupport` of
`GeneralClientCapabilities`. -/
structure StaleRequestSupportStruct where
  Cancel : Bool := false
  RetryOnContentModified : Option (List String) := none
  deriving DecidableEq, Repr

/-- General client capabilities. -/
structure GeneralClientCapabilities (Q : ClientDeclarations) where
  StaleRequestSupport : Option StaleRequestSupportStruct := none
  RegularExpressions : Option Q.RegularExpressionsClientCapabilities.Val := none
  Markdown : Option Q.MarkdownClientCapabilities.Val := none
  PositionEncodings : Option (List PositionEncodingKind) := none

/-- Text document specific client capabilities: the embedded struct of the revision
before (the field `toTextDocumentClientCapabilities`) and the four fields of this
revision. -/
structure TextDocumentClientCapabilities (Q : ClientDeclarations) where
  toTextDocumentClientCapabilities : Q.TextDocumentClientCapabilities.Val :=
    Q.TextDocumentClientCapabilities.zero
  Diagnostic : Option Q.DiagnosticClientCapabilities.Val := none
  TypeHierarchy : Option TypeHierarchyClientCapabilities := none
  InlayHint : Option InlayHintClientCapabilities := none
  InlineValue : Option InlineValueClientCapabilities := none

/-- The client capabilities: the embedded struct of the revision before and the three
fields this revision declares anew. -/
structure ClientCapabilities (Q : ClientDeclarations) where
  toClientCapabilities : Q.ClientCapabilities.Val := Q.ClientCapabilities.zero
  General : Option (GeneralClientCapabilities Q) := none
  Workspace : Option WorkspaceClientCapabilities := none
  TextDocument : Option (TextDocumentClientCapabilities Q) := none

/-- The parameters of `initialize`: the embedded struct of the revision before and the
capabilities of this revision. -/
structure InitializeParams (Q : ClientDeclarations) where
  toInitializeParams : Q.InitializeParams.Val := Q.InitializeParams.zero
  Capabilities : ClientCapabilities Q := {}

/-- The result of `initialize`. -/
structure InitializeResult (P : Declarations) (Q : ClientDeclarations) where
  Capabilities : ServerCapabilities P := {}
  ServerInfo : Option Q.InitializeResultServerInfo.Val := none
  PositionEncoding : Option PositionEncodingKind := none

end protocol

namespace json

/-- The value the encoder emits for a slice of strings under `omitempty`: none when
the slice is empty, nil included. -/
def omitEmptyStrings : Option (List String) → Option Value
  | none => none
  | some [] => none
  | some l => some (.arr (l.map .str))

end json

namespace protocol

/-- The fields of an `InlayHintWorkspaceClientCapabilities` as `encoding/json` collects them. -/
def InlayHintWorkspaceClientCapabilities.members :
    List (json.Member InlayHintWorkspaceClientCapabilities) :=
  [json.Member.ptr "refreshSupport" false json.unmarshalBool json.Value.bool (·.RefreshSupport)
     (fun p s => { s with RefreshSupport := p })]

/-- Decoding into an `InlayHintWorkspaceClientCapabilities`. -/
def InlayHintWorkspaceClientCapabilities.unmarshal :
    json.Value → InlayHintWorkspaceClientCapabilities → json.Decoded InlayHintWorkspaceClientCapabilities :=
  json.unmarshalStruct "protocol.InlayHintWorkspaceClientCapabilities"
    (json.structFields (InlayHintWorkspaceClientCapabilities.members))

/-- The default encoding of an `InlayHintWorkspaceClientCapabilities`. -/
def InlayHintWorkspaceClientCapabilities.marshal :
    InlayHintWorkspaceClientCapabilities → json.Value :=
  json.marshalStruct (InlayHintWorkspaceClientCapabilities.members)

/-- The fields of an `InlineValueWorkspaceClientCapabilities` as `encoding/json` collects them. -/
def InlineValueWorkspaceClientCapabilities.members :
    List (json.Member InlineValueWorkspaceClientCapabilities) :=
  [json.Member.ptr "refreshSupport" false json.unmarshalBool json.Value.bool (·.RefreshSupport)
     (fun p s => { s with RefreshSupport := p })]

/-- Decoding into an `InlineValueWorkspaceClientCapabilities`. -/
def InlineValueWorkspaceClientCapabilities.unmarshal :
    json.Value → InlineValueWorkspaceClientCapabilities → json.Decoded InlineValueWorkspaceClientCapabilities :=
  json.unmarshalStruct "protocol.InlineValueWorkspaceClientCapabilities"
    (json.structFields (InlineValueWorkspaceClientCapabilities.members))

/-- The default encoding of an `InlineValueWorkspaceClientCapabilities`. -/
def InlineValueWorkspaceClientCapabilities.marshal :
    InlineValueWorkspaceClientCapabilities → json.Value :=
  json.marshalStruct (InlineValueWorkspaceClientCapabilities.members)

/-- The fields of a `WorkspaceClientCapabilities` as `encoding/json` collects them. -/
def WorkspaceClientCapabilities.members : List (json.Member WorkspaceClientCapabilities) :=
  [json.Member.ptr "inlayHint" ({} : InlayHintWorkspaceClientCapabilities) InlayHintWorkspaceClientCapabilities.unmarshal
     InlayHintWorkspaceClientCapabilities.marshal (·.InlayHint)
     (fun p s => { s with InlayHint := p }),
   json.Member.ptr "inlineValue" ({} : InlineValueWorkspaceClientCapabilities)
     InlineValueWorkspaceClientCapabilities.unmarshal
     InlineValueWorkspaceClientCapabilities.marshal (·.InlineValue)
     (fun p s => { s with InlineValue := p })]

/-- Decoding into a `WorkspaceClientCapabilities`. -/
def WorkspaceClientCapabilities.unmarshal :
    json.Value → WorkspaceClientCapabilities → json.Decoded WorkspaceClientCapabilities :=
  json.unmarshalStruct "protocol.WorkspaceClientCapabilities"
    (json.structFields (WorkspaceClientCapabilities.members))

/-- The default encoding of a `WorkspaceClientCapabilities`. -/
def WorkspaceClientCapabilities.marshal : WorkspaceClientCapabilities → json.Value :=
  json.marshalStruct (WorkspaceClientCapabilities.members)

/-- The fields of a `TypeHierarchyClientCapabilities` as `encoding/json` collects them. -/
def TypeHierarchyClientCapabilities.members : List (json.Member TypeHierarchyClientCapabilities) :=
  [json.Member.ptr "dynamicRegistration" false json.unmarshalBool json.Value.bool (·.DynamicRegistration)
     (fun p s => { s with DynamicRegistration := p })]

/-- Decoding into a `TypeHierarchyClientCapabilities`. -/
def TypeHierarchyClientCapabilities.unmarshal :
    json.Value → TypeHierarchyClientCapabilities → json.Decoded TypeHierarchyClientCapabilities :=
  json.unmarshalStruct "protocol.TypeHierarchyClientCapabilities"
    (json.structFields (TypeHierarchyClientCapabilities.members))

/-- The default encoding of a `TypeHierarchyClientCapabilities`. -/
def TypeHierarchyClientCapabilities.marshal : TypeHierarchyClientCapabilities → json.Value :=
  json.marshalStruct (TypeHierarchyClientCapabilities.members)

/-- The fields of the unnamed struct of `ResolveSupport` as `encoding/json` collects them. -/
def ResolveSupportStruct.members : List (json.Member ResolveSupportStruct) :=
  [json.Member.val "properties" (json.unmarshalNilable "[]string" "" json.unmarshalString)
     json.marshalStrings (·.Properties)
     (fun p s => { s with Properties := p })]

/-- Decoding into the unnamed struct of `ResolveSupport`. -/
def ResolveSupportStruct.unmarshal :
    json.Value → ResolveSupportStruct → json.Decoded ResolveSupportStruct :=
  json.unmarshalStruct "struct" (json.structFields (ResolveSupportStruct.members))

/-- The default encoding of the unnamed struct of `ResolveSupport`. -/
def ResolveSupportStruct.marshal : ResolveSupportStruct → json.Value :=
  json.marshalStruct (ResolveSupportStruct.members)

/-- The fields of an `InlayHintClientCapabilities` as `encoding/json` collects them. -/
def InlayHintClientCapabilities.members : List (json.Member InlayHintClientCapabilities) :=
  [json.Member.ptr "dynamicRegistration" false json.unmarshalBool json.Value.bool (·.DynamicRegistration)
     (fun p s => { s with DynamicRegistration := p }),
   json.Member.ptr "resolveSupport" ({} : ResolveSupportStruct) ResolveSupportStruct.unmarshal
     ResolveSupportStruct.marshal (·.ResolveSupport)
     (fun p s => { s with ResolveSupport := p })]

/-- Decoding into an `InlayHintClientCapabilities`. -/
def InlayHintClientCapabilities.unmarshal :
    json.Value → InlayHintClientCapabilities → json.Decoded InlayHintClientCapabilities :=
  json.unmarshalStruct "protocol.InlayHintClientCapabilities"
    (json.structFields (InlayHintClientCapabilities.members))

/-- The default encoding of an `InlayHintClientCapabilities`. -/
def InlayHintClientCapabilities.marshal : InlayHintClientCapabilities → json.Value :=
  json.marshalStruct (InlayHintClientCapabilities.members)

/-- The fields of an `InlineValueClientCapabilities` as `encoding/json` collects them. -/
def InlineValueClientCapabilities.members : List (json.Member InlineValueClientCapabilities) :=
  [json.Member.ptr "dynamicRegistration" false json.unmarshalBool json.Value.bool (·.DynamicRegistration)
     (fun p s => { s with DynamicRegistration := p })]

/-- Decoding into an `InlineValueClientCapabilities`. -/
def InlineValueClientCapabilities.unmarshal :
    json.Value → InlineValueClientCapabilities → json.Decoded InlineValueClientCapabilities :=
  json.unmarshalStruct "protocol.InlineValueClientCapabilities"
    (json.structFields (InlineValueClientCapabilities.members))

/-- The default encoding of an `InlineValueClientCapabilities`. -/
def InlineValueClientCapabilities.marshal : InlineValueClientCapabilities → json.Value :=
  json.marshalStruct (InlineValueClientCapabilities.members)

/-- The fields of the unnamed struct of `StaleRequestSupport` as `encoding/json` collects them. -/
def StaleRequestSupportStruct.members : List (json.Member StaleRequestSupportStruct) :=
  [json.Member.val "cancel" json.unmarshalBool
     json.Value.bool (·.Cancel)
     (fun p s => { s with Cancel := p }),
   json.Member.val "retryOnContentModified" (json.unmarshalNilable "[]string" "" json.unmarshalString)
     json.marshalStrings (·.RetryOnContentModified)
     (fun p s => { s with RetryOnContentModified := p })]

/-- Decoding into the unnamed struct of `StaleRequestSupport`. -/
def StaleRequestSupportStruct.unmarshal :
    json.Value → StaleRequestSupportStruct → json.Decoded StaleRequestSupportStruct :=
  json.unmarshalStruct "struct" (json.structFields (StaleRequestSupportStruct.members))

/-- The default encoding of the unnamed struct of `StaleRequestSupport`. -/
def StaleRequestSupportStruct.marshal : StaleRequestSupportStruct → json.Value :=
  json.marshalStruct (StaleRequestSupportStruct.members)

/-- The fields of a `GeneralClientCapabilities` as `encoding/json` collects them. -/
def GeneralClientCapabilities.members (Q : ClientDeclarations) :
    List (json.Member (GeneralClientCapabilities Q)) :=
  [json.Member.ptr "staleRequestSupport" ({} : StaleRequestSupportStruct) StaleRequestSupportStruct.unmarshal
     StaleRequestSupportStruct.marshal (·.StaleRequestSupport)
     (fun p s => { s with StaleRequestSupport := p }),
   json.Member.ptr "regularExpressions" Q.RegularExpressionsClientCapabilities.zero
     Q.RegularExpressionsClientCapabilities.unmarshal
     Q.RegularExpressionsClientCapabilities.marshal (·.RegularExpressions)
     (fun p s => { s with RegularExpressions := p }),
   json.Member.ptr "markdown" Q.MarkdownClientCapabilities.zero
     Q.MarkdownClientCapabilities.unmarshal
     Q.MarkdownClientCapabilities.marshal (·.Markdown)
     (fun p s => { s with Markdown := p }),
   ⟨0, true, "positionEncodings",
     fun v s => (json.unmarshalNilable "[]protocol.PositionEncodingKind" ""
       (json.unmarshalStringAs "protocol.PositionEncodingKind") v s.PositionEncodings).map
         fun p => { s with PositionEncodings := p },
     fun s => json.omitEmptyStrings s.PositionEncodings⟩]

/-- Decoding into a `GeneralClientCapabilities`. -/
def GeneralClientCapabilities.unmarshal (Q : ClientDeclarations) :
    json.Value → GeneralClientCapabilities Q → json.Decoded (GeneralClientCapabilities Q) :=
  json.unmarshalStruct "protocol.GeneralClientCapabilities"
    (json.structFields (GeneralClientCapabilities.members Q))

/-- The default encoding of a `GeneralClientCapabilities`. -/
def GeneralClientCapabilities.marshal (Q : ClientDeclarations) :
    GeneralClientCapabilities Q → json.Value :=
  json.marshalStruct (GeneralClientCapabilities.members Q)

/-- The fields `TextDocumentClientCapabilities` declares itself, after the embedded struct. -/
def TextDocumentClientCapabilities.own (Q : ClientDeclarations) :
    List (json.Member (TextDocumentClientCapabilities Q)) :=
  [json.Member.ptr "diagnostic" Q.DiagnosticClientCapabilities.zero Q.DiagnosticClientCapabilities.unmarshal
     Q.DiagnosticClientCapabilities.marshal (·.Diagnostic)
     (fun p s => { s with Diagnostic := p }),
   json.Member.ptr "typeHierarchy" ({} : TypeHierarchyClientCapabilities)
     TypeHierarchyClientCapabilities.unmarshal
     TypeHierarchyClientCapabilities.marshal (·.TypeHierarchy)
     (fun p s => { s with TypeHierarchy := p }),
   json.Member.ptr "inlayHint" ({} : InlayHintClientCapabilities)
     InlayHintClientCapabilities.unmarshal
     InlayHintClientCapabilities.marshal (·.InlayHint)
     (fun p s => { s with InlayHint := p }),
   json.Member.ptr "inlineValue" ({} : InlineValueClientCapabilities)
     InlineValueClientCapabilities.unmarshal
     InlineValueClientCapabilities.marshal (·.InlineValue)
     (fun p s => { s with InlineValue := p })]

/-- The fields of a `TextDocumentClientCapabilities` as `encoding/json` collects them: those of the
embedded `protocol316.TextDocumentClientCapabilities`, one level deeper, then its own. -/
def TextDocumentClientCapabilities.members (Q : ClientDeclarations) :
    List (json.Member (TextDocumentClientCapabilities Q)) :=
  Q.TextDocumentClientCapabilities.members.map
    (json.Member.lift (·.toTextDocumentClientCapabilities)
      fun t s => { s with toTextDocumentClientCapabilities := t }) ++
  TextDocumentClientCapabilities.own Q

/-- Decoding into a `TextDocumentClientCapabilities`. -/
def TextDocumentClientCapabilities.unmarshal (Q : ClientDeclarations) :
    json.Value → TextDocumentClientCapabilities Q → json.Decoded (TextDocumentClientCapabilities Q) :=
  json.unmarshalStruct "protocol.TextDocumentClientCapabilities"
    (json.structFields (TextDocumentClientCapabilities.members Q))

/-- The default encoding of a `TextDocumentClientCapabilities`. -/
def TextDocumentClientCapabilities.marshal (Q : ClientDeclarations) :
    TextDocumentClientCapabilities Q → json.Value :=
  json.marshalStruct (TextDocumentClientCapabilities.members Q)

/-- The fields `ClientCapabilities` declares itself, after the embedded struct. -/
def ClientCapabilities.own (Q : ClientDeclarations) : List (json.Member (ClientCapabilities Q)) :=
  [json.Member.ptr "general" ({} : GeneralClientCapabilities Q) (GeneralClientCapabilities.unmarshal Q)
     (GeneralClientCapabilities.marshal Q) (·.General)
     (fun p s => { s with General := p }),
   json.Member.ptr "workspace" ({} : WorkspaceClientCapabilities)
     WorkspaceClientCapabilities.unmarshal
     WorkspaceClientCapabilities.marshal (·.Workspace)
     (fun p s => { s with Workspace := p }),
   json.Member.ptr "textDocument" ({} : TextDocumentClientCapabilities Q)
     (TextDocumentClientCapabilities.unmarshal Q)
     (TextDocumentClientCapabilities.marshal Q) (·.TextDocument)
     (fun p s => { s with TextDocument := p })]

/-- The fields of a `ClientCapabilities` as `encoding/json` collects them: those of the
embedded `protocol316.ClientCapabilities`, one level deeper, then its own. -/
def ClientCapabilities.members (Q : ClientDeclarations) :
    List (json.Member (ClientCapabilities Q)) :=
  Q.ClientCapabilities.members.map
    (json.Member.lift (·.toClientCapabilities) fun t s => { s with toClientCapabilities := t }) ++
  ClientCapabilities.own Q

/-- Decoding into a `ClientCapabilities`. -/
def ClientCapabilities.unmarshal (Q : ClientDeclarations) :
    json.Value → ClientCapabilities Q → json.Decoded (ClientCapabilities Q) :=
  json.unmarshalStruct "protocol.ClientCapabilities"
    (json.structFields (ClientCapabilities.members Q))

/-- The default encoding of a `ClientCapabilities`. -/
def ClientCapabilities.marshal (Q : ClientDeclarations) : ClientCapabilities Q → json.Value :=
  json.marshalStruct (ClientCapabilities.members Q)

/-- The fields `InitializeParams` declares itself, after the embedded struct. -/
def InitializeParams.own (Q : ClientDeclarations) : List (json.Member (InitializeParams Q)) :=
  [json.Member.val "capabilities" (ClientCapabilities.unmarshal Q)
     (ClientCapabilities.marshal Q) (·.Capabilities)
     (fun p s => { s with Capabilities := p })]

/-- The fields of an `InitializeParams` as `encoding/json` collects them: those of the
embedded `protocol316.InitializeParams`, one level deeper, then its own. -/
def InitializeParams.members (Q : ClientDeclarations) : List (json.Member (InitializeParams Q)) :=
  Q.InitializeParams.members.map
    (json.Member.lift (·.toInitializeParams) fun t s => { s with toInitializeParams := t }) ++
  InitializeParams.own Q

/-- Decoding into an `InitializeParams`. -/
def InitializeParams.unmarshal (Q : ClientDeclarations) :
    json.Value → InitializeParams Q → json.Decoded (InitializeParams Q) :=
  json.unmarshalStruct "protocol.InitializeParams" (json.structFields (InitializeParams.members Q))

/-- The default encoding of an `InitializeParams`. -/
def InitializeParams.marshal (Q : ClientDeclarations) : InitializeParams Q → json.Value :=
  json.marshalStruct (InitializeParams.members Q)

/-- The fields of an `InitializeResult` as `encoding/json` collects them. -/
def InitializeResult.members (P : Declarations) (Q : ClientDeclarations) :
    List (json.Member (InitializeResult P Q)) :=
  [⟨0, true, "capabilities",
     fun v s =>
       match ServerCapabilities.UnmarshalJSON s.Capabilities v with
       | (c, none) => .ok { s with Capabilities := c }
       | (_, some e) => .abort e,
     fun s => some s.Capabilities.marshal⟩,
   json.Member.ptr "serverInfo" Q.InitializeResultServerInfo.zero
     Q.InitializeResultServerInfo.unmarshal
     Q.InitializeResultServerInfo.marshal (·.ServerInfo)
     (fun p s => { s with ServerInfo := p }),
   json.Member.ptr "positionEncoding" "" (json.unmarshalStringAs "protocol.PositionEncodingKind")
     json.Value.str (·.PositionEncoding)
     (fun p s => { s with PositionEncoding := p })]

/-- Decoding into an `InitializeResult`. -/
def InitializeResult.unmarshal (P : Declarations) (Q : ClientDeclarations) :
    json.Value → InitializeResult P Q → json.Decoded (InitializeResult P Q) :=
  json.unmarshalStruct "protocol.InitializeResult"
    (json.structFields (InitializeResult.members P Q))

/-- The default encoding of an `InitializeResult`. -/
def InitializeResult.marshal (P : Declarations) (Q : ClientDeclarations) :
    InitializeResult P Q → json.Value :=
  json.marshalStruct (InitializeResult.members P Q)

/-- A sample of a struct declared outside the sources: one optional flag. -/
structure SampleFlag where
  Flag : Option Bool := none
  deriving DecidableEq, Repr

/-- The one field of the sample struct, under the wire key `key`. -/
def SampleFlag.members (key : String) : List (json.Member SampleFlag) :=
  [json.Member.ptr key false json.unmarshalBool json.Value.bool (·.Flag)
     (fun p s => { s with Flag := p })]

/-- A sample of a type held behind a pointer: a struct whose only field is the
optional flag `workDoneProgress`. -/
def sampleExternal : External :=
  ⟨protocol316.WorkDoneProgressOptions, {}, protocol316.WorkDoneProgressOptions.unmarshal,
    protocol316.WorkDoneProgressOptions.marshal⟩

/-- A sample instantiation of the client-side declarations, on which the decoder and
the encoder can be run: each embedded struct has one optional flag, under a key that
the embedding struct declares as well (`workspace`, `capabilities`) or does not
(`hover`). The theorems below hold for every instantiation. -/
def sampleClient : ClientDeclarations :=
  ⟨sampleExternal, sampleExternal, sampleExternal, sampleExternal,
    ⟨SampleFlag, {}, SampleFlag.members "workspace"⟩,
    ⟨SampleFlag, {}, SampleFlag.members "hover"⟩,
    ⟨SampleFlag, {}, SampleFlag.members "capabilities"⟩⟩

end protocol

namespace json

/-- The values a JSON object carries under a key, in wire order; none when the value
is not an object. -/
def Value.membersAt (key : String) : Value → List Value
  | .obj ms => (ms.filter fun m => decide (m.1 = key)).map (·.2)
  | _ => []

end json

namespace protocol316

/-- Modelled from the spec: `Method` is declared in package `protocol_3_16`, outside
the source files; it is the name of a request or notification, a Go string type. -/
abbrev Method := String

end protocol316

namespace protocol

/-- The method name of the `initialize` request. -/
def MethodInitialize : protocol316.Method := "initialize"

/-- The method name of the request that prepares a type hierarchy. -/
def MethodTextDocumentPrepareTypeHierarchy : protocol316.Method :=
  "textDocument/prepareTypeHierarchy"

/-- The method name of the supertypes request. -/
def MethodTypeHierarchySupertypes : protocol316.Method := "typeHierarchy/supertypes"

/-- The method name of the subtypes request. -/
def MethodTypeHierarchySubtypes : protocol316.Method := "typeHierarchy/subtypes"

/-- The method name of the inlay hint request. -/
def MethodTextDocumentInlayHint : protocol316.Method := "textDocument/inlayHint"

/-- The method name of the request that resolves an inlay hint. -/
def MethodInlayHintResolve : protocol316.Method := "inlayHint/resolve"

/-- The method name of the request that refreshes the inlay hints. -/
def MethodWorkspaceInlayHintRefresh : protocol316.Method := "workspace/inlayHint/refresh"

/-- The method name of the inline value request. -/
def MethodTextDocumentInlineValue : protocol316.Method := "textDocument/inlineValue"

/-- The method name of the request that refreshes the inline values. -/
def MethodWorkspaceInlineValueRefresh : protocol316.Method := "workspace/inlineValue/refresh"

/-- The method-name constants this revision declares, in the order of the sources. -/
def methods : List protocol316.Method :=
  [MethodInitialize, MethodTextDocumentPrepareTypeHierarchy, MethodTypeHierarchySupertypes,
   MethodTypeHierarchySubtypes, MethodTextDocumentInlayHint, MethodInlayHintResolve,
   MethodWorkspaceInlayHintRefresh, MethodTextDocumentInlineValue,
   MethodWorkspaceInlineValueRefresh]

end protocol

namespace json

theorem Decoded.val?_map {α β : Type} (f : α → β) (d : Decoded α) :
    (d.map f).val? = d.val?.map f := by
  cases d <;> rfl

theorem findField_mem {σ : Type} {fields : List (Field σ)} {k : String} {f : Field σ}
    (h : findField fields k = some f) : f ∈ fields := by
  unfold findField at h
  split at h
  · rename_i g hg
    cases h
    exact List.mem_of_find?_eq_some hg
  · exact List.mem_of_find?_eq_some h

theorem unmarshalMembers_captured {σ : Type} (fields : List (Field σ)) (n : String)
    (get : σ → Option Value)
    (hstore : ∀ f ∈ fields, ∀ v s s1, (f.store v s).val? = some s1 →
      get s1 = if f.name = n then some v else get s) :
    ∀ (ms : List (String × Value)) (s : σ) (sv : Option UnmarshalTypeError) (s1 : σ),
      (unmarshalMembers fields ms s sv).val? = some s1 →
      get s1 = captured fields n ms (get s) := by
  intro ms
  induction ms with
  | nil =>
    intro s sv s1 h
    cases sv <;> simp [unmarshalMembers, Decoded.val?] at h <;> simp [captured, h]
  | cons m rest ih =>
    intro s sv s1 h
    obtain ⟨k, v⟩ := m
    simp only [unmarshalMembers] at h
    simp only [captured]
    cases hf : findField fields k with
    | none =>
      simp only [hf] at h
      simp only [Option.map_none', reduceCtorEq, if_false]
      exact ih s sv s1 h
    | some f =>
      simp only [hf] at h
      have hmem := findField_mem hf
      simp only [Option.map_some', Option.some.injEq]
      cases hst : f.store v s with
      | ok s2 =>
        simp only [hst] at h
        rw [ih s2 sv s1 h, hstore f hmem v s s2 (by rw [hst]; rfl)]
      | saved s2 e =>
        simp only [hst] at h
        rw [ih s2 _ s1 h, hstore f hmem v s s2 (by rw [hst]; rfl)]
      | abort e =>
        simp only [hst] at h
        simp [Decoded.val?] at h

theorem Unmarshal_ok_val? {α : Type} {decode : Value → α → Decoded α} {data : Value}
    {z x : α} (h : Unmarshal decode data z = .ok x) : (decode data z).val? = some x := by
  unfold Unmarshal at h
  split at h
  · rename_i y hy; cases h; rw [hy]; rfl
  · cases h
  · cases h

end json

namespace protocol
open ServerCapabilities

theorem value_store_raw {P : Declarations} (f : AmbiguousField) :
    ∀ fd ∈ value.fields P, ∀ v s s1, (fd.store v s).val? = some s1 →
      f.raw s1 = if fd.name = f.key then some v else f.raw s := by
  intro fd hmem
  simp only [value.fields, List.mem_cons, List.mem_singleton, List.not_mem_nil, or_false] at hmem
  rcases hmem with h | h | h | h | h | h | h | h | h | h | h | h | h | h | h | h | h | h | h | h |
    h | h | h | h | h | h | h | h | h | h | h | h | h <;> subst h <;> intro v s s1 h <;>
    first
    | (cases h; cases f <;> rfl)
    | (rw [json.Decoded.val?_map, Option.map_eq_some'] at h
       obtain ⟨p, -, rfl⟩ := h
       cases f <;> rfl)

/-- The raw value the decode schema holds for an ambiguous field after a decode is
the value of the last member of the object stored in that field. -/
theorem value_unmarshal_raw {P : Declarations} (f : AmbiguousField)
    (ms : List (String × json.Value)) (x : value P)
    (h : json.Unmarshal (value.unmarshal P) (.obj ms) {} = .ok x) :
    f.raw x = json.captured (value.fields P) f.key ms none := by
  have h1 := json.Unmarshal_ok_val? h
  have := json.unmarshalMembers_captured (value.fields P) f.key f.raw (value_store_raw f)
    ms {} none x h1
  rw [this]
  cases f <;> rfl

end protocol

namespace protocol
open ServerCapabilities

theorem block_none {P : Declarations} (f : AmbiguousField) (self : ServerCapabilities P) :
    f.block none self = (self, none) := by
  cases f <;> rfl

theorem block_some {P : Declarations} (f : AmbiguousField) (raw : json.Value)
    (self : ServerCapabilities P) :
    f.block (some raw) self =
      match trialDecode raw f.candidates none with
      | .ok d => (f.set (some d) self, none)
      | .error e => (self, e) := by
  cases f <;>
    simp only [AmbiguousField.block, AmbiguousField.candidates, trialDecode, Candidate.attempt,
      AmbiguousField.set, setTextDocumentSync, setHoverProvider, setDeclarationProvider,
      setDefinitionProvider, setTypeDefinitionProvider, setImplementationProvider,
      setReferencesProvider, setDocumentHighlightProvider, setDocumentSymbolProvider,
      setCodeActionProvider, setColorProvider, setDocumentFormattingProvider,
      setDocumentRangeFormattingProvider, setRenameProvider, setFoldingRangeProvider,
      setSelectionRangeProvider, setLinkedEditingRangeProvider, setCallHierarchyProvider,
      setSemanticTokensProvider, setMonikerProvider, setWorkspaceSymbolProvider,
      setDiagnosticProvider, setTypeHierarchyProvider, setInlayHintProvider,
      setInlineValueProvider] <;>
    (split <;> rename_i h1 <;> simp only [h1, Except.map]) <;>
    (split <;> rename_i h2 <;> simp only [h2, Except.map]) <;>
    (try (split <;> rename_i h3 <;> simp only [h3, Except.map]))

theorem get_set_ne {P : Declarations} (f g : AmbiguousField) (h : g ≠ f)
    (d : Option (Dynamic P)) (s : ServerCapabilities P) : g.get (f.set d s) = g.get s := by
  cases f <;> cases g <;> first | rfl | exact absurd rfl h

theorem get_set_self {P : Declarations} (f : AmbiguousField)
    (d : Option (Dynamic P)) (s : ServerCapabilities P) : f.get (f.set d s) = d := by
  cases f <;> rfl

theorem UnmarshalJSON_eq {P : Declarations} (self : ServerCapabilities P) (data : json.Value) :
    UnmarshalJSON self data =
      match json.Unmarshal (value.unmarshal P) data {} with
      | .ok value =>
        runBlocks (AmbiguousField.all.map fun f => f.block (f.raw value)) (copyPlain value self)
      | .error err => (self, some err) := rfl
end protocol

namespace protocol
open ServerCapabilities

theorem all_nodup : AmbiguousField.all.Nodup := by decide

theorem mem_all (f : AmbiguousField) : f ∈ AmbiguousField.all := by
  cases f <;> decide

/-- What a block leaves: the receiver untouched, or the field assigned, with no error
exactly in the cases the trial decoder succeeds or the raw value is nil. -/
theorem block_cases {P : Declarations} (f : AmbiguousField) (r : json.RawMessage)
    (s : ServerCapabilities P) :
    (r = none ∧ f.block r s = (s, none)) ∨
    (∃ raw d, r = some raw ∧ trialDecode raw f.candidates none = .ok d ∧
      f.block r s = (f.set (some d) s, none)) ∨
    (∃ raw e, r = some raw ∧ trialDecode (P := P) raw f.candidates none = .error e ∧
      f.block r s = (s, e)) := by
  cases r with
  | none => exact Or.inl ⟨rfl, block_none f s⟩
  | some raw =>
    right
    cases h : trialDecode (P := P) raw f.candidates none with
    | ok d => exact Or.inl ⟨raw, d, rfl, h, by rw [block_some, h]⟩
    | error e => exact Or.inr ⟨raw, e, rfl, h, by rw [block_some, h]⟩

theorem trialDecode_error_some {P : Declarations} (raw : json.Value) (cs : List Candidate)
    (e0 : json.UnmarshalTypeError) (e : Option json.UnmarshalTypeError)
    (h : trialDecode (P := P) raw cs (some e0) = .error e) : ∃ e1, e = some e1 := by
  induction cs generalizing e0 with
  | nil => simp only [trialDecode] at h; cases h; exact ⟨e0, rfl⟩
  | cons c cs ih =>
    simp only [trialDecode] at h
    split at h
    · cases h
    · exact ih _ h

theorem candidates_ne_nil (f : AmbiguousField) : f.candidates ≠ [] := by
  cases f <;> simp [AmbiguousField.candidates]

theorem trialDecode_candidates_error {P : Declarations} (f : AmbiguousField) (raw : json.Value)
    (e : Option json.UnmarshalTypeError)
    (h : trialDecode (P := P) raw f.candidates none = .error e) : ∃ e1, e = some e1 := by
  have hne := candidates_ne_nil f
  cases hc : f.candidates with
  | nil => exact absurd hc hne
  | cons c cs =>
    rw [hc] at h
    simp only [trialDecode] at h
    split at h
    · cases h
    · exact trialDecode_error_some raw cs _ e h

/-- The blocks of a list of fields, as `UnmarshalJSON` runs them on a schema value. -/
theorem runBlocks_get_not_mem {P : Declarations} (value : value P) (g : AmbiguousField) :
    ∀ (fs : List AmbiguousField) (s : ServerCapabilities P), g ∉ fs →
      g.get (runBlocks (fs.map fun f => f.block (f.raw value)) s).1 = g.get s := by
  intro fs
  induction fs with
  | nil => intro s _; rfl
  | cons f fs ih =>
    intro s hg
    have hgf : g ≠ f := fun h => hg (h ▸ List.mem_cons_self _ _)
    have hgfs : g ∉ fs := fun h => hg (List.mem_cons_of_mem _ h)
    simp only [List.map_cons, runBlocks]
    rcases block_cases f (f.raw value) s with ⟨_, hb⟩ | ⟨raw, d, _, _, hb⟩ | ⟨raw, e, _, ht, hb⟩
    · rw [hb]; exact ih s hgfs
    · rw [hb]; simp only []; rw [ih _ hgfs, get_set_ne f g hgf]
    · obtain ⟨e1, rfl⟩ := trialDecode_candidates_error f raw e ht
      rw [hb]

end protocol

namespace protocol
open ServerCapabilities

theorem runBlocks_append {σ ε : Type} (as bs : List (σ → σ × Option ε)) (s : σ) :
    runBlocks (as ++ bs) s =
      match runBlocks as s with
      | (s1, none) => runBlocks bs s1
      | (s1, some e) => (s1, some e) := by
  induction as generalizing s with
  | nil => rfl
  | cons a as ih =>
    simp only [List.cons_append, runBlocks]
    rcases h : a s with ⟨s1, _ | e⟩
    · exact ih s1
    · rfl

/-- A projection of the receiver that no assignment of an ambiguous field changes is
not changed by the blocks. -/
theorem runBlocks_frame {P : Declarations} {α : Type} (proj : ServerCapabilities P → α)
    (fs : List AmbiguousField)
    (hproj : ∀ f ∈ fs, ∀ d s, proj (AmbiguousField.set f d s) = proj s)
    (value : value P) (s : ServerCapabilities P) :
    proj (runBlocks (fs.map fun f => f.block (f.raw value)) s).1 = proj s := by
  induction fs generalizing s with
  | nil => rfl
  | cons f fs ih =>
    have ih1 := ih (fun g hg => hproj g (List.mem_cons_of_mem _ hg))
    simp only [List.map_cons, runBlocks]
    rcases block_cases f (f.raw value) s with ⟨_, hb⟩ | ⟨raw, d, _, _, hb⟩ | ⟨raw, e, _, ht, hb⟩
    · rw [hb]; exact ih1 s
    · rw [hb]; simp only []; rw [ih1, hproj f (List.mem_cons_self _ _)]
    · obtain ⟨e1, rfl⟩ := trialDecode_candidates_error f raw e ht
      rw [hb]

/-- When the blocks of a duplicate-free list of fields all run without error, every
field of the list either had no raw value and is unchanged, or holds the result of the
trial decoder on its raw value. -/
theorem runBlocks_ok {P : Declarations} (value : value P) :
    ∀ (fs : List AmbiguousField) (s s1 : ServerCapabilities P), fs.Nodup →
      runBlocks (fs.map fun f => f.block (f.raw value)) s = (s1, none) →
      ∀ f ∈ fs, (f.raw value = none ∧ f.get s1 = f.get s) ∨
        (∃ raw d, f.raw value = some raw ∧ trialDecode raw f.candidates none = .ok d ∧
          f.get s1 = some d) := by
  intro fs
  induction fs with
  | nil => intro s s1 _ _ f hf; cases hf
  | cons g fs ih =>
    intro s s1 hnd hrun f hf
    have hg : g ∉ fs := (List.nodup_cons.mp hnd).1
    have hnd1 : fs.Nodup := (List.nodup_cons.mp hnd).2
    simp only [List.map_cons, runBlocks] at hrun
    rcases block_cases g (g.raw value) s with ⟨hr, hb⟩ | ⟨raw, d, hr, ht, hb⟩ | ⟨raw, e, _, ht, hb⟩
    · rw [hb] at hrun
      simp only [] at hrun
      rcases List.mem_cons.mp hf with rfl | hmem
      · left
        refine ⟨hr, ?_⟩
        have := runBlocks_get_not_mem value f fs s hg
        rw [hrun] at this
        exact this
      · exact ih s s1 hnd1 hrun f hmem
    · rw [hb] at hrun
      simp only [] at hrun
      rcases List.mem_cons.mp hf with rfl | hmem
      · right
        refine ⟨raw, d, hr, ht, ?_⟩
        have := runBlocks_get_not_mem value f fs (f.set (some d) s) hg
        rw [hrun] at this
        rw [this, get_set_self]
      · have hne : f ≠ g := fun h => hg (h ▸ hmem)
        rcases ih _ s1 hnd1 hrun f hmem with ⟨h1, h2⟩ | h
        · left; exact ⟨h1, by rw [h2, get_set_ne g f hne]⟩
        · right; exact h
    · obtain ⟨e1, rfl⟩ := trialDecode_candidates_error g raw e ht
      rw [hb] at hrun
      simp only [] at hrun
      cases hrun

/-- When the blocks of a list of fields end with an error, the error is the one the
trial decoder reports for the first field whose candidates all fail, and the receiver
is as the blocks before that field left it. -/
theorem runBlocks_err {P : Declarations} (value : value P) :
    ∀ (fs : List AmbiguousField) (s s1 : ServerCapabilities P) (e : json.UnmarshalTypeError),
      runBlocks (fs.map fun f => f.block (f.raw value)) s = (s1, some e) →
      ∃ pre f post raw, fs = pre ++ f :: post ∧ f.raw value = some raw ∧
        trialDecode (P := P) raw f.candidates none = .error (some e) ∧
        runBlocks (pre.map fun f => f.block (f.raw value)) s = (s1, none) := by
  intro fs
  induction fs with
  | nil => intro s s1 e h; simp [runBlocks] at h
  | cons g fs ih =>
    intro s s1 e hrun
    simp only [List.map_cons, runBlocks] at hrun
    rcases block_cases g (g.raw value) s with ⟨hr, hb⟩ | ⟨raw, d, hr, ht, hb⟩ | ⟨raw, e0, hr, ht, hb⟩
    · rw [hb] at hrun
      simp only [] at hrun
      obtain ⟨pre, f, post, raw, h1, h2, h3, h4⟩ := ih s s1 e hrun
      refine ⟨g :: pre, f, post, raw, by rw [h1]; rfl, h2, h3, ?_⟩
      simp only [List.map_cons, runBlocks, hb]
      exact h4
    · rw [hb] at hrun
      simp only [] at hrun
      obtain ⟨pre, f, post, raw1, h1, h2, h3, h4⟩ := ih _ s1 e hrun
      refine ⟨g :: pre, f, post, raw1, by rw [h1]; rfl, h2, h3, ?_⟩
      simp only [List.map_cons, runBlocks, hb]
      exact h4
    · obtain ⟨e1, rfl⟩ := trialDecode_candidates_error g raw e0 ht
      rw [hb] at hrun
      simp only [Prod.mk.injEq, Option.some.injEq] at hrun
      obtain ⟨rfl, rfl⟩ := hrun
      exact ⟨[], g, fs, raw, rfl, hr, ht, rfl⟩

theorem trialDecode_first_ok {P : Declarations} (raw : json.Value) (pre post : List Candidate)
    (c : Candidate) (d : Dynamic P) (last : Option json.UnmarshalTypeError)
    (hpre : ∀ c1 ∈ pre, ∃ e, c1.attempt (P := P) raw = .error e)
    (hok : c.attempt raw = .ok d) :
    trialDecode raw (pre ++ c :: post) last = .ok d := by
  induction pre generalizing last with
  | nil => simp only [List.nil_append, trialDecode, hok]
  | cons a pre ih =>
    obtain ⟨e, he⟩ := hpre a (List.mem_cons_self _ _)
    simp only [List.cons_append, trialDecode, he]
    exact ih _ (fun c1 h1 => hpre c1 (List.mem_cons_of_mem _ h1))

theorem runBlocks_all_none {P : Declarations} (x : value P) (fs : List AmbiguousField)
    (s : ServerCapabilities P) (h : ∀ g ∈ fs, g.raw x = none) :
    runBlocks (fs.map fun f => f.block (f.raw x)) s = (s, none) := by
  induction fs with
  | nil => rfl
  | cons g fs ih =>
    simp only [List.map_cons, runBlocks, h g (List.mem_cons_self _ _), block_none]
    exact ih (fun g1 h1 => h g1 (List.mem_cons_of_mem _ h1))

theorem runBlocks_only {P : Declarations} (x : value P) (f : AmbiguousField)
    (fs : List AmbiguousField) (s : ServerCapabilities P) (hnd : fs.Nodup) (hf : f ∈ fs)
    (h : ∀ g ∈ fs, g ≠ f → g.raw x = none) :
    runBlocks (fs.map fun f => f.block (f.raw x)) s = f.block (f.raw x) s := by
  induction fs with
  | nil => cases hf
  | cons g fs ih =>
    have hg : g ∉ fs := (List.nodup_cons.mp hnd).1
    have hnd1 : fs.Nodup := (List.nodup_cons.mp hnd).2
    simp only [List.map_cons, runBlocks]
    by_cases hgf : g = f
    · subst hgf
      rcases hb : g.block (g.raw x) s with ⟨s1, _ | e⟩
      · simp only []
        exact runBlocks_all_none x fs s1 (fun g1 h1 =>
          h g1 (List.mem_cons_of_mem _ h1) (fun h2 => hg (h2 ▸ h1)))
      · rfl
    · have hfs : f ∈ fs := by
        rcases List.mem_cons.mp hf with h1 | h1
        · exact absurd h1.symm hgf
        · exact h1
      rw [h g (List.mem_cons_self _ _) hgf, block_none]
      exact ih hnd1 hfs (fun g1 h1 => h g1 (List.mem_cons_of_mem _ h1))

theorem value_unmarshal_single {P : Declarations} (f : AmbiguousField) (v : json.Value) :
    ∃ x : value P, json.Unmarshal (value.unmarshal P) (.obj [(f.key, v)]) {} = .ok x ∧
      f.raw x = some v ∧ (∀ g, g ≠ f → g.raw x = none) ∧
      ∀ s : ServerCapabilities P, copyPlain x s = copyPlain {} s := by
  cases f <;>
    exact ⟨_, rfl, rfl, fun g hg => by cases g <;> first | rfl | exact absurd rfl hg,
      fun _ => rfl⟩

/-- A one-member object whose key is the key of an ambiguous field: `UnmarshalJSON`
on the zero receiver does what the block of the field does. -/
theorem UnmarshalJSON_single {P : Declarations} (f : AmbiguousField) (v : json.Value) :
    UnmarshalJSON ({} : ServerCapabilities P) (.obj [(f.key, v)]) = f.block (some v) {} := by
  obtain ⟨x, hx, hraw, hother, hplain⟩ := value_unmarshal_single (P := P) f v
  rw [UnmarshalJSON_eq, hx]
  simp only []
  rw [runBlocks_only x f AmbiguousField.all _ all_nodup (mem_all f) (fun g _ hg => hother g hg),
    hraw, hplain]
  rfl

end protocol

namespace json

theorem findField_name {σ : Type} {fields : List (Field σ)} {k : String} {f : Field σ}
    (h : findField fields k = some f) : foldName f.name = foldName k := by
  unfold findField at h
  split at h
  · rename_i g hg
    cases h
    have := List.find?_some hg
    simp only [decide_eq_true_eq] at this
    rw [this]
  · have := List.find?_some h
    simpa only [decide_eq_true_eq] using this

theorem captured_of_no_match {σ : Type} (fields : List (Field σ)) (n : String)
    (ms : List (String × Value)) (cur : Option Value)
    (h : ∀ m ∈ ms, foldName m.1 ≠ foldName n) : captured fields n ms cur = cur := by
  induction ms generalizing cur with
  | nil => rfl
  | cons m rest ih =>
    obtain ⟨k, v⟩ := m
    simp only [captured]
    have hk : foldName k ≠ foldName n := h (k, v) (List.mem_cons_self _ _)
    have hne : (findField fields k).map (·.name) ≠ some n := by
      intro hf
      cases hg : findField fields k with
      | none => rw [hg] at hf; cases hf
      | some g =>
        rw [hg] at hf
        simp only [Option.map_some', Option.some.injEq] at hf
        exact hk (by rw [← findField_name hg, hf])
    rw [if_neg hne]
    exact ih cur (fun m1 h1 => h m1 (List.mem_cons_of_mem _ h1))

end json

namespace protocol
open ServerCapabilities

theorem runBlocks_get_raw_none {P : Declarations} (x : value P) (g : AmbiguousField)
    (hg : g.raw x = none) :
    ∀ (fs : List AmbiguousField) (s : ServerCapabilities P),
      g.get (runBlocks (fs.map fun f => f.block (f.raw x)) s).1 = g.get s := by
  intro fs
  induction fs with
  | nil => intro s; rfl
  | cons f fs ih =>
    intro s
    simp only [List.map_cons, runBlocks]
    rcases block_cases f (f.raw x) s with ⟨_, hb⟩ | ⟨raw, d, hr, _, hb⟩ | ⟨raw, e, _, ht, hb⟩
    · rw [hb]; exact ih s
    · have hne : g ≠ f := by
        intro h
        rw [h, hr] at hg
        cases hg
      rw [hb]; simp only []; rw [ih, get_set_ne f g hne]
    · obtain ⟨e1, rfl⟩ := trialDecode_candidates_error f raw e ht
      rw [hb]

theorem get_copyPlain {P : Declarations} (f : AmbiguousField) (x : value P)
    (s : ServerCapabilities P) : f.get (copyPlain x s) = f.get s := by
  cases f <;> rfl

theorem get_zero {P : Declarations} (f : AmbiguousField) :
    f.get ({} : ServerCapabilities P) = none := by
  cases f <;> rfl

end protocol

namespace protocol
open ServerCapabilities

theorem trialDecode_all_fail {P : Declarations} (raw : json.Value) (cs : List Candidate)
    (last : Option json.UnmarshalTypeError)
    (h : ∀ c ∈ cs, ∃ e, c.attempt (P := P) raw = .error e) :
    ∃ e, trialDecode (P := P) raw cs last = .error e := by
  induction cs generalizing last with
  | nil => exact ⟨last, rfl⟩
  | cons c cs ih =>
    obtain ⟨e, he⟩ := h c (List.mem_cons_self _ _)
    simp only [trialDecode, he]
    exact ih _ (fun c1 h1 => h c1 (List.mem_cons_of_mem _ h1))

/-- A candidate whose declaration is in the sources, or modelled, stores no number,
string or array. -/
theorem declared_attempt_fails {P : Declarations} (c : Candidate) (v : json.Value)
    (hc : ∀ t, c ≠ .undeclared t)
    (hv : json.kind v = "number" ∨ json.kind v = "string" ∨ json.kind v = "array") :
    ∃ e, c.attempt (P := P) v = .error e := by
  cases v with
  | null => simp [json.kind] at hv
  | bool b => simp [json.kind] at hv
  | obj ms => simp [json.kind] at hv
  | int n => cases c <;> first | exact ⟨_, rfl⟩ | exact absurd rfl (hc _)
  | float l => cases c <;> first | exact ⟨_, rfl⟩ | exact absurd rfl (hc _)
  | str s => cases c <;> first | exact ⟨_, rfl⟩ | exact absurd rfl (hc _)
  | arr xs => cases c <;> first | exact ⟨_, rfl⟩ | exact absurd rfl (hc _)

/-- When the trial decoder fails on the raw value captured for a field, `UnmarshalJSON`
on the zero receiver returns an error and leaves the field nil. -/
theorem UnmarshalJSON_trial_fails {P : Declarations} (f : AmbiguousField) (v : json.Value)
    (ms : List (String × json.Value))
    (hcap : json.captured (value.fields P) f.key ms none = some v)
    (hfail : ∃ e, trialDecode (P := P) v f.candidates none = .error e) :
    (UnmarshalJSON ({} : ServerCapabilities P) (.obj ms)).2 ≠ none ∧
    f.get (UnmarshalJSON ({} : ServerCapabilities P) (.obj ms)).1 = none := by
  obtain ⟨e0, hfail⟩ := hfail
  rw [UnmarshalJSON_eq]
  cases hx : json.Unmarshal (value.unmarshal P) (.obj ms) {} with
  | error e => exact ⟨Option.some_ne_none e, get_zero f⟩
  | ok x =>
    simp only []
    have hraw := value_unmarshal_raw f ms x hx
    rw [hcap] at hraw
    generalize hrun : runBlocks (AmbiguousField.all.map fun f => f.block (f.raw x))
      (copyPlain x ({} : ServerCapabilities P)) = r
    rcases r with ⟨s1, _ | e⟩
    · exfalso
      rcases runBlocks_ok x AmbiguousField.all _ s1 all_nodup hrun f (mem_all f) with
        ⟨h1, _⟩ | ⟨raw, d1, h1, h2, _⟩
      · rw [hraw] at h1; cases h1
      · rw [hraw] at h1
        cases h1
        rw [hfail] at h2
        cases h2
    · refine ⟨Option.some_ne_none e, ?_⟩
      obtain ⟨pre, g, post, raw, hsplit, _, _, hpre⟩ :=
        runBlocks_err x AmbiguousField.all _ s1 e hrun
      have hnd : (pre ++ g :: post).Nodup := hsplit ▸ all_nodup
      have hndpre : pre.Nodup := (List.nodup_append.mp hnd).1
      have hfpre : f ∉ pre := by
        intro hmem
        rcases runBlocks_ok x pre _ s1 hndpre hpre f hmem with ⟨h1, _⟩ | ⟨raw1, d1, h1, h2, _⟩
        · rw [hraw] at h1; cases h1
        · rw [hraw] at h1
          cases h1
          rw [hfail] at h2
          cases h2
      have := runBlocks_get_not_mem x f pre (copyPlain x {}) hfpre
      rw [hpre] at this
      show f.get s1 = none
      rw [show f.get s1 = f.get (copyPlain x {}) from this, get_copyPlain, get_zero]

end protocol

namespace protocol
open ServerCapabilities

/-- C1: for each of `typeHierarchyProvider`, `inlayHintProvider` and
`inlineValueProvider`, with the candidates in the order bool, Options,
RegistrationOptions: when `c` is the first candidate whose decode of `v` succeeds
(every candidate before it fails) and `d` is its result, held with the type of `c`,
then `UnmarshalJSON` on the zero receiver sets the field to `d`. This holds for the
object that carries `v` alone under the key, and for every object in which `v` is the
value captured for the key, provided the call returns no error. -/
theorem delta_provider_first_candidate (P : Declarations) (v : json.Value)
    (f : AmbiguousField) (cands pre post : List Candidate) (c : Candidate) (d : Dynamic P)
    (hf : (f, cands) ∈
      [(AmbiguousField.TypeHierarchyProvider,
          [Candidate.bool, .TypeHierarchyOptions, .TypeHierarchyRegistrationOptions]),
       (AmbiguousField.InlayHintProvider,
          [Candidate.bool, .InlayHintOptions, .InlayHintRegistrationOptions]),
       (AmbiguousField.InlineValueProvider,
          [Candidate.bool, .InlineValueOptions, .InlineValueRegistrationOptions])])
    (hc : cands = pre ++ c :: post)
    (hpre : ∀ c1 ∈ pre, ∃ e, c1.attempt (P := P) v = .error e)
    (hok : c.attempt v = .ok d) :
    UnmarshalJSON ({} : ServerCapabilities P) (.obj [(f.key, v)]) = (f.set (some d) {}, none) ∧
    ∀ ms s1, json.captured (value.fields P) f.key ms none = some v →
      UnmarshalJSON ({} : ServerCapabilities P) (.obj ms) = (s1, none) → f.get s1 = some d := by
  have hcand : f.candidates = cands := by
    simp only [List.mem_cons, Prod.mk.injEq, List.mem_singleton, List.not_mem_nil,
      or_false] at hf
    rcases hf with ⟨rfl, rfl⟩ | ⟨rfl, rfl⟩ | ⟨rfl, rfl⟩ <;> rfl
  have htrial : trialDecode (P := P) v f.candidates none = .ok d := by
    rw [hcand, hc]
    exact trialDecode_first_ok v pre post c d none hpre hok
  refine ⟨?_, ?_⟩
  · rw [UnmarshalJSON_single, block_some, htrial]
  · intro ms s1 hcap hrun
    rw [UnmarshalJSON_eq] at hrun
    cases hx : json.Unmarshal (value.unmarshal P) (.obj ms) {} with
    | error e => rw [hx] at hrun; cases hrun
    | ok x =>
      rw [hx] at hrun
      simp only [] at hrun
      have hraw := value_unmarshal_raw f ms x hx
      rw [hcap] at hraw
      rcases runBlocks_ok x AmbiguousField.all _ s1 all_nodup hrun f (mem_all f) with
        ⟨h1, _⟩ | ⟨raw, d1, h1, h2, h3⟩
      · rw [hraw] at h1; cases h1
      · rw [hraw] at h1
        cases h1
        rw [htrial] at h2
        cases h2
        exact h3

/-- C1, at the inputs the claim names: `true` under `inlayHintProvider` gives the
boolean `true`, and an object with `resolveProvider` set gives an `InlayHintOptions`
whose `ResolveProvider` is true. -/
theorem delta_provider_first_candidate_witness :
    UnmarshalJSON ({} : ServerCapabilities sample)
        (.obj [("inlayHintProvider", .bool true)]) =
      ({ InlayHintProvider := some (.bool true) }, none) ∧
    UnmarshalJSON ({} : ServerCapabilities sample)
        (.obj [("inlayHintProvider", .obj [("resolveProvider", .bool true)])]) =
      ({ InlayHintProvider := some (.InlayHintOptions { ResolveProvider := some true }) },
        none) :=
  ⟨(delta_provider_first_candidate sample (.bool true) .InlayHintProvider
      [.bool, .InlayHintOptions, .InlayHintRegistrationOptions] []
      [.InlayHintOptions, .InlayHintRegistrationOptions] .bool (.bool true)
      (by simp) rfl (by simp) rfl).1,
   (delta_provider_first_candidate sample (.obj [("resolveProvider", .bool true)])
      .InlayHintProvider [.bool, .InlayHintOptions, .InlayHintRegistrationOptions] [.bool]
      [.InlayHintRegistrationOptions] .InlayHintOptions
      (.InlayHintOptions { ResolveProvider := some true })
      (by simp) rfl
      (by intro c1 h1; simp only [List.mem_singleton] at h1; subst h1; exact ⟨_, rfl⟩)
      rfl).1⟩

/-- C2: the canonical wire form of an `InlayHintRegistrationOptions` (and likewise of
the two other registration shapes) is decoded by the options candidate, which is tried
first and ignores `documentSelector` and `id`; the registration candidate, which would
have kept them, is never reached, and re-encoding gives an object that lacks both
keys. -/
theorem registration_options_round_trip_fails (P : Declarations) :
    UnmarshalJSON ({} : ServerCapabilities P)
        (.obj [("inlayHintProvider", .obj [("documentSelector",
          .arr [.obj [("language", .str "go")]]), ("id", .str "x"),
          ("resolveProvider", .bool true)])]) =
      ({ InlayHintProvider := some (.InlayHintOptions { ResolveProvider := some true }) },
        none) ∧
    ServerCapabilities.marshal (P := P)
        { InlayHintProvider := some (.InlayHintOptions { ResolveProvider := some true }) } =
      .obj [("inlayHintProvider", .obj [("resolveProvider", .bool true)])] ∧
    Candidate.attempt (P := P) .InlayHintRegistrationOptions
        (.obj [("documentSelector", .arr [.obj [("language", .str "go")]]), ("id", .str "x"),
          ("resolveProvider", .bool true)]) =
      .ok (.InlayHintRegistrationOptions
        { ResolveProvider := some true, DocumentSelector := some [{ Language := some "go" }],
          ID := some "x" }) ∧
    UnmarshalJSON ({} : ServerCapabilities P)
        (.obj [("typeHierarchyProvider", .obj [("documentSelector",
          .arr [.obj [("language", .str "go")]]), ("id", .str "x")])]) =
      ({ TypeHierarchyProvider := some (.TypeHierarchyOptions {}) }, none) ∧
    UnmarshalJSON ({} : ServerCapabilities P)
        (.obj [("inlineValueProvider", .obj [("documentSelector",
          .arr [.obj [("language", .str "go")]]), ("id", .str "x")])]) =
      ({ InlineValueProvider := some (.InlineValueOptions {}) }, none) :=
  ⟨rfl, by simp [ServerCapabilities.marshal, ServerCapabilities.members, json.omitEmpty,
      Dynamic.marshal, InlayHintOptions.marshal], rfl, rfl, rfl⟩

/-- C3: for every boolean `b`, decoding the object `hoverProvider: (workDoneProgress: b)`
into the zero receiver succeeds, sets `HoverProvider` to a `HoverOptions` whose
`WorkDoneProgress` is `b` and leaves every other field nil; encoding the result gives
exactly that object again. -/
theorem hover_options_round_trip (P : Declarations) (b : Bool) :
    UnmarshalJSON ({} : ServerCapabilities P)
        (.obj [("hoverProvider", .obj [("workDoneProgress", .bool b)])]) =
      ({ HoverProvider := some (.HoverOptions { WorkDoneProgress := some b }) }, none) ∧
    ServerCapabilities.marshal (P := P)
        { HoverProvider := some (.HoverOptions { WorkDoneProgress := some b }) } =
      .obj [("hoverProvider", .obj [("workDoneProgress", .bool b)])] :=
  ⟨rfl, by simp [ServerCapabilities.marshal, ServerCapabilities.members, json.omitEmpty,
      Dynamic.marshal, protocol316.HoverOptions.marshal]⟩

end protocol

namespace protocol
open ServerCapabilities

/-- C4, as stated, fails: object keys are matched to fields case-insensitively, so an
object that omits the key `hoverProvider` but carries `HoverProvider` sets the field,
and one that omits `inlayHintProvider` but carries `InlayHintProvider` with a number
makes the call fail on account of that field. -/
theorem omitted_key_counterexample :
    "HoverProvider" ≠ AmbiguousField.HoverProvider.key ∧
    (UnmarshalJSON ({} : ServerCapabilities sample)
      (.obj [("HoverProvider", .bool true)])).1.HoverProvider = some (.bool true) ∧
    "InlayHintProvider" ≠ AmbiguousField.InlayHintProvider.key ∧
    (UnmarshalJSON ({} : ServerCapabilities sample)
      (.obj [("InlayHintProvider", .int 5)])).2 =
        some ⟨"number", "protocol.InlayHintRegistrationOptions"⟩ := by
  refine ⟨by decide, rfl, by decide, rfl⟩

/-- C4, amended: when no key of the input object matches the key of an ambiguous field,
exactly or case-insensitively, `UnmarshalJSON` on the zero receiver leaves the field
nil and the block of the field returns no error, whatever the receiver; and decoding
the empty object succeeds with every field nil. -/
theorem omitted_key_leaves_field_nil (P : Declarations) (f : AmbiguousField)
    (ms : List (String × json.Value))
    (h : ∀ m ∈ ms, json.foldName m.1 ≠ json.foldName f.key) :
    f.get (UnmarshalJSON ({} : ServerCapabilities P) (.obj ms)).1 = none ∧
    (∀ x, json.Unmarshal (value.unmarshal P) (.obj ms) {} = .ok x →
      ∀ s : ServerCapabilities P, f.block (f.raw x) s = (s, none)) ∧
    UnmarshalJSON ({} : ServerCapabilities P) (.obj []) = ({}, none) := by
  have hraw : ∀ x, json.Unmarshal (value.unmarshal P) (.obj ms) {} = .ok x →
      f.raw x = none := by
    intro x hx
    rw [value_unmarshal_raw f ms x hx]
    exact json.captured_of_no_match _ _ ms none h
  refine ⟨?_, ?_, rfl⟩
  · rw [UnmarshalJSON_eq]
    cases hx : json.Unmarshal (value.unmarshal P) (.obj ms) {} with
    | error e => exact get_zero f
    | ok x =>
      simp only []
      rw [runBlocks_get_raw_none x f (hraw x hx), get_copyPlain, get_zero]
  · intro x hx s
    rw [hraw x hx, block_none]

/-- C4, amended, at a concrete input: an object with the key `inlayHintProvider` only
leaves `HoverProvider` nil. -/
theorem omitted_key_leaves_field_nil_witness :
    (UnmarshalJSON ({} : ServerCapabilities sample)
      (.obj [("inlayHintProvider", .bool true)])).1.HoverProvider = none :=
  (omitted_key_leaves_field_nil sample .HoverProvider [("inlayHintProvider", .bool true)]
    (by decide)).1

end protocol

namespace json

theorem mem_omitEmpty {α : Type} (k k1 : String) (v : Value) (enc : α → Value)
    (x : Option α) : (k, v) ∈ omitEmpty k1 enc x ↔ k = k1 ∧ ∃ a, x = some a ∧ v = enc a := by
  cases x <;> simp [omitEmpty]

end json

namespace protocol
open ServerCapabilities

/-- The members of the encoding under the key of an ambiguous field are exactly the
encoding of the value the field holds. -/
theorem mem_members_iff {P : Declarations} (s : ServerCapabilities P) (f : AmbiguousField)
    (v : json.Value) :
    (f.key, v) ∈ s.members ↔ ∃ d, f.get s = some d ∧ v = d.marshal := by
  cases f <;>
    simp only [ServerCapabilities.members, List.mem_append, json.mem_omitEmpty,
      AmbiguousField.key, AmbiguousField.get, String.reduceEq, false_and, or_false, false_or,
      true_and]

/-- C5: in the object `json.Marshal` gives for a `ServerCapabilities`, the key of an
ambiguous field (in particular `diagnosticProvider`, `typeHierarchyProvider`,
`inlayHintProvider`, `inlineValueProvider`) is present if and only if the field is
not nil; a member under the key carries the encoding of the variant the field holds,
the boolean `false` being emitted as `false`; and for a nil field no member is
emitted, `null` included. -/
theorem marshal_omits_nil_fields (P : Declarations) (s : ServerCapabilities P)
    (f : AmbiguousField) :
    s.marshal = .obj s.members ∧
    ((∃ v, (f.key, v) ∈ s.members) ↔ f.get s ≠ none) ∧
    (∀ v, (f.key, v) ∈ s.members ↔ ∃ d, f.get s = some d ∧ v = d.marshal) ∧
    (f.get s = some (.bool false) → (f.key, .bool false) ∈ s.members) ∧
    (f.get s = none → ∀ v, (f.key, v) ∉ s.members) := by
  refine ⟨rfl, ?_, fun v => mem_members_iff s f v, ?_, ?_⟩
  · constructor
    · rintro ⟨v, hv⟩
      obtain ⟨d, hd, -⟩ := (mem_members_iff s f v).mp hv
      rw [hd]
      exact Option.some_ne_none d
    · intro hne
      cases hd : f.get s with
      | none => exact absurd hd hne
      | some d => exact ⟨d.marshal, (mem_members_iff s f _).mpr ⟨d, hd, rfl⟩⟩
  · intro hd
    exact (mem_members_iff s f _).mpr ⟨_, hd, rfl⟩
  · intro hd v hv
    obtain ⟨d, hd1, -⟩ := (mem_members_iff s f v).mp hv
    rw [hd] at hd1
    cases hd1

end protocol

namespace protocol
open ServerCapabilities

theorem captured_single {P : Declarations} (f : AmbiguousField) (v : json.Value) :
    json.captured (value.fields P) f.key [(f.key, v)] none = some v := by
  cases f <;> rfl

/-- C6: let `v` be a JSON number, string or array, and suppose the candidates of an
ambiguous field that are declared outside the sources are object shapes, in that they
do not store `v` (for `hoverProvider`, `typeHierarchyProvider`, `inlayHintProvider`
and `inlineValueProvider` every candidate is declared or modelled here and nothing is
supposed). Then `UnmarshalJSON` on the zero receiver returns a non-nil error and leaves
the field nil, for the object that carries `v` alone under the key of the field and
for every object in which `v` is the value captured for that key. -/
theorem shape_mismatch_rejected (P : Declarations) (f : AmbiguousField) (v : json.Value)
    (hv : json.kind v = "number" ∨ json.kind v = "string" ∨ json.kind v = "array")
    (hP : ∀ t, Candidate.undeclared t ∈ f.candidates →
      ∃ e, json.Unmarshal (P.unmarshal t) v (P.zero t) = .error e) :
    ((UnmarshalJSON ({} : ServerCapabilities P) (.obj [(f.key, v)])).2 ≠ none ∧
      f.get (UnmarshalJSON ({} : ServerCapabilities P) (.obj [(f.key, v)])).1 = none) ∧
    ∀ ms, json.captured (value.fields P) f.key ms none = some v →
      (UnmarshalJSON ({} : ServerCapabilities P) (.obj ms)).2 ≠ none ∧
      f.get (UnmarshalJSON ({} : ServerCapabilities P) (.obj ms)).1 = none := by
  have hfail : ∃ e, trialDecode (P := P) v f.candidates none = .error e := by
    apply trialDecode_all_fail
    intro c hc
    by_cases hu : ∃ t, c = .undeclared t
    · obtain ⟨t, rfl⟩ := hu
      obtain ⟨e, he⟩ := hP t hc
      exact ⟨e, by simp only [Candidate.attempt, he, Except.map]⟩
    · exact declared_attempt_fails c v (fun t ht => hu ⟨t, ht⟩) hv
  exact ⟨UnmarshalJSON_trial_fails f v _ (captured_single f v) hfail,
    fun ms hcap => UnmarshalJSON_trial_fails f v ms hcap hfail⟩

/-- C6 at concrete inputs: the number 5 under `inlayHintProvider`, after a valid
`hoverProvider`, and the string "x" under `declarationProvider` for the sample
declarations, make the call fail and leave the field nil. -/
theorem shape_mismatch_rejected_witness :
    ((UnmarshalJSON ({} : ServerCapabilities sample)
        (.obj [("hoverProvider", .bool true), ("inlayHintProvider", .int 5)])).2 ≠ none ∧
      (UnmarshalJSON ({} : ServerCapabilities sample)
        (.obj [("hoverProvider", .bool true), ("inlayHintProvider", .int 5)])).1.InlayHintProvider
          = none) ∧
    ((UnmarshalJSON ({} : ServerCapabilities sample)
        (.obj [("declarationProvider", .str "x")])).2 ≠ none ∧
      (UnmarshalJSON ({} : ServerCapabilities sample)
        (.obj [("declarationProvider", .str "x")])).1.DeclarationProvider = none) :=
  ⟨(shape_mismatch_rejected sample .InlayHintProvider (.int 5)
      (Or.inl rfl) (by intro t ht; simp [AmbiguousField.candidates] at ht)).2
      [("hoverProvider", .bool true), ("inlayHintProvider", .int 5)] rfl,
   (shape_mismatch_rejected sample .DeclarationProvider (.str "x")
      (Or.inr (Or.inl rfl))
      (by
        intro t ht
        simp only [AmbiguousField.candidates, List.mem_cons, Candidate.undeclared.injEq,
          List.mem_singleton, reduceCtorEq, false_or, List.not_mem_nil, or_false] at ht
        rcases ht with rfl | rfl <;> exact ⟨_, rfl⟩)).1⟩

end protocol

namespace protocol
open ServerCapabilities

theorem trialDecode_error_last {P : Declarations} (raw : json.Value) (cs : List Candidate)
    (last : Option json.UnmarshalTypeError) (e : json.UnmarshalTypeError)
    (h : trialDecode (P := P) raw cs last = .error (some e)) :
    (cs = [] ∧ last = some e) ∨
    ∃ pre c, cs = pre ++ [c] ∧ (∀ c1 ∈ pre, ∃ e1, c1.attempt (P := P) raw = .error e1) ∧
      c.attempt (P := P) raw = .error e := by
  induction cs generalizing last with
  | nil =>
    simp only [trialDecode, Except.error.injEq] at h
    exact Or.inl ⟨rfl, h⟩
  | cons a cs ih =>
    right
    simp only [trialDecode] at h
    cases ha : a.attempt (P := P) raw with
    | ok d => rw [ha] at h; cases h
    | error e0 =>
      rw [ha] at h
      rcases ih (some e0) h with ⟨rfl, hl⟩ | ⟨pre, c, rfl, hpre, hc⟩
      · cases hl
        exact ⟨[], a, rfl, fun c1 h1 => absurd h1 (List.not_mem_nil _), ha⟩
      · refine ⟨a :: pre, c, rfl, ?_, hc⟩
        intro c1 h1
        rcases List.mem_cons.mp h1 with rfl | h2
        · exact ⟨e0, ha⟩
        · exact hpre c1 h2

theorem trialDecode_last_error {P : Declarations} (raw : json.Value) (pre : List Candidate)
    (c : Candidate) (last : Option json.UnmarshalTypeError) (e : json.UnmarshalTypeError)
    (hpre : ∀ c1 ∈ pre, ∃ e1, c1.attempt (P := P) raw = .error e1)
    (hc : c.attempt (P := P) raw = .error e) :
    trialDecode (P := P) raw (pre ++ [c]) last = .error (some e) := by
  induction pre generalizing last with
  | nil => simp only [List.nil_append, trialDecode, hc]
  | cons a pre ih =>
    obtain ⟨e1, he1⟩ := hpre a (List.mem_cons_self _ _)
    simp only [List.cons_append, trialDecode, he1]
    exact ih _ (fun c1 h1 => hpre c1 (List.mem_cons_of_mem _ h1))

/-- C7: an error `UnmarshalJSON` returns is either the error of decoding the input
into the schema, or, for an ambiguous field all of whose candidates fail on the raw
value of the field, the error of the attempt with the last candidate of that field
(the candidates before it having failed with errors that are not reported). For the
object that carries a value under the key of one field alone, if every candidate of
the field fails the call returns exactly the error of the last candidate and leaves
the zero receiver as it was. -/
theorem last_candidate_error (P : Declarations) :
    (∀ (self s1 : ServerCapabilities P) (data : json.Value) (e : json.UnmarshalTypeError),
      UnmarshalJSON self data = (s1, some e) →
      json.Unmarshal (value.unmarshal P) data {} = .error e ∨
      ∃ (x : value P) (f : AmbiguousField) (raw : json.Value) (pre : List Candidate)
        (c : Candidate), json.Unmarshal (value.unmarshal P) data {} = .ok x ∧
        f.raw x = some raw ∧ f.candidates = pre ++ [c] ∧
        (∀ c1 ∈ pre, ∃ e1, c1.attempt (P := P) raw = .error e1) ∧
        c.attempt (P := P) raw = .error e) ∧
    (∀ (f : AmbiguousField) (raw : json.Value) (pre : List Candidate) (c : Candidate)
      (e : json.UnmarshalTypeError), f.candidates = pre ++ [c] →
      (∀ c1 ∈ pre, ∃ e1, c1.attempt (P := P) raw = .error e1) →
      c.attempt (P := P) raw = .error e →
      UnmarshalJSON ({} : ServerCapabilities P) (.obj [(f.key, raw)]) = ({}, some e)) := by
  constructor
  · intro self s1 data e h
    rw [UnmarshalJSON_eq] at h
    cases hx : json.Unmarshal (value.unmarshal P) data {} with
    | error e0 =>
      rw [hx] at h
      simp only [Prod.mk.injEq, Option.some.injEq] at h
      exact Or.inl (by rw [h.2])
    | ok x =>
      right
      rw [hx] at h
      simp only [] at h
      obtain ⟨_, f, _, raw, _, hraw, htrial, _⟩ := runBlocks_err x AmbiguousField.all _ s1 e h
      rcases trialDecode_error_last raw f.candidates none e htrial with ⟨_, hl⟩ | ⟨pre, c, h1, h2, h3⟩
      · cases hl
      · exact ⟨x, f, raw, pre, c, rfl, hraw, h1, h2, h3⟩
  · intro f raw pre c e hc hpre hlast
    rw [UnmarshalJSON_single, block_some, hc, trialDecode_last_error raw pre c none e hpre hlast]

/-- C7 at a concrete input: for the number 5 under `inlayHintProvider` the error
returned is the one of the `InlayHintRegistrationOptions` attempt, which differs from
the errors of the two attempts before it; for `textDocumentSync` and a string, with the
sample declarations, it is the one of the `TextDocumentSyncKind` attempt. -/
theorem last_candidate_error_witness :
    UnmarshalJSON ({} : ServerCapabilities sample) (.obj [("inlayHintProvider", .int 5)]) =
      ({}, some ⟨"number", "protocol.InlayHintRegistrationOptions"⟩) ∧
    Candidate.attempt (P := sample) .bool (.int 5) = .error ⟨"number", "bool"⟩ ∧
    Candidate.attempt (P := sample) .InlayHintOptions (.int 5) =
      .error ⟨"number", "protocol.InlayHintOptions"⟩ ∧
    UnmarshalJSON ({} : ServerCapabilities sample) (.obj [("textDocumentSync", .str "x")]) =
      ({}, some ⟨"string", "protocol.TextDocumentSyncKind"⟩) :=
  ⟨(last_candidate_error sample).2 .InlayHintProvider (.int 5) [.bool, .InlayHintOptions]
      .InlayHintRegistrationOptions _ rfl
      (by
        intro c1 h1
        simp only [List.mem_cons, List.mem_singleton, List.not_mem_nil, or_false] at h1
        rcases h1 with rfl | rfl <;> exact ⟨_, rfl⟩)
      rfl,
    rfl, rfl,
    (last_candidate_error sample).2 .TextDocumentSync (.str "x")
      [.undeclared .TextDocumentSyncOptions] (.undeclared .TextDocumentSyncKind) _ rfl
      (by
        intro c1 h1
        simp only [List.mem_singleton] at h1
        subst h1
        exact ⟨_, rfl⟩)
      rfl⟩

end protocol

namespace protocol
open ServerCapabilities

/-- C8, as stated, fails at the input the claim names: the call returns the error of
`inlayHintProvider`, yet `CompletionProvider` and `HoverProvider` of the receiver have
been populated from the input, so the receiver differs from its state before the
call. -/
theorem failed_decode_counterexample :
    UnmarshalJSON ({} : ServerCapabilities sample)
        (.obj [("completionProvider", .obj []), ("hoverProvider", .bool true),
          ("inlayHintProvider", .int 5)]) =
      ({ CompletionProvider := some ({} : protocol316.WorkDoneProgressOptions),
         HoverProvider := some (.bool true) },
        some ⟨"number", "protocol.InlayHintRegistrationOptions"⟩) ∧
    (UnmarshalJSON ({} : ServerCapabilities sample)
        (.obj [("completionProvider", .obj []), ("hoverProvider", .bool true),
          ("inlayHintProvider", .int 5)])).1.HoverProvider ≠
      ({} : ServerCapabilities sample).HoverProvider := by
  refine ⟨rfl, ?_⟩
  show some (Dynamic.bool true) ≠ none
  exact Option.some_ne_none _

/-- C8, amended: when `UnmarshalJSON` returns an error, either the input did not decode
into the schema and the receiver equals its state before the call, or the error is
that of an ambiguous field whose candidates all failed, and then that field, every
ambiguous field whose block comes after it, and `Experimental` hold the values they
had before the call. -/
theorem failed_decode_frame (P : Declarations) (self s1 : ServerCapabilities P)
    (data : json.Value) (e : json.UnmarshalTypeError)
    (h : UnmarshalJSON self data = (s1, some e)) :
    (json.Unmarshal (value.unmarshal P) data {} = .error e ∧ s1 = self) ∨
    ∃ (x : value P) (pre : List AmbiguousField) (f : AmbiguousField)
      (post : List AmbiguousField) (raw : json.Value),
      json.Unmarshal (value.unmarshal P) data {} = .ok x ∧
      AmbiguousField.all = pre ++ f :: post ∧ f.raw x = some raw ∧
      trialDecode (P := P) raw f.candidates none = .error (some e) ∧
      (∀ g ∈ f :: post, g.get s1 = g.get self) ∧
      s1.Experimental = self.Experimental := by
  rw [UnmarshalJSON_eq] at h
  cases hx : json.Unmarshal (value.unmarshal P) data {} with
  | error e0 =>
    rw [hx] at h
    simp only [Prod.mk.injEq, Option.some.injEq] at h
    exact Or.inl ⟨by rw [h.2], h.1.symm⟩
  | ok x =>
    right
    rw [hx] at h
    simp only [] at h
    obtain ⟨pre, f, post, raw, hsplit, hraw, htrial, hpre⟩ :=
      runBlocks_err x AmbiguousField.all _ s1 e h
    refine ⟨x, pre, f, post, raw, rfl, hsplit, hraw, htrial, ?_, ?_⟩
    · intro g hg
      have hnd : (pre ++ f :: post).Nodup := hsplit ▸ all_nodup
      have hgpre : g ∉ pre := fun hmem => (List.nodup_append.mp hnd).2.2 hmem hg
      have := runBlocks_get_not_mem x g pre (copyPlain x self) hgpre
      rw [hpre] at this
      rw [show g.get s1 = g.get (copyPlain x self) from this, get_copyPlain]
    · have := runBlocks_frame (P := P) (fun s => s.Experimental) pre
        (fun f _ d s => by cases f <;> rfl) x (copyPlain x self)
      rw [hpre] at this
      exact this

/-- C8, amended, at the input the claim names: the call returns an error, and the
failing field `InlayHintProvider` and the field after it keep their values. -/
theorem failed_decode_frame_witness :
    ∃ (s1 : ServerCapabilities sample) (e : json.UnmarshalTypeError),
      UnmarshalJSON ({} : ServerCapabilities sample)
        (.obj [("completionProvider", .obj []), ("hoverProvider", .bool true),
          ("inlayHintProvider", .int 5)]) = (s1, some e) ∧
      s1.InlayHintProvider = none ∧ s1.InlineValueProvider = none ∧
      ((json.Unmarshal (value.unmarshal sample)
          (.obj [("completionProvider", .obj []), ("hoverProvider", .bool true),
            ("inlayHintProvider", .int 5)]) {} = .error e ∧ s1 = {}) ∨
        ∃ (x : value sample) (pre : List AmbiguousField) (f : AmbiguousField)
          (post : List AmbiguousField) (raw : json.Value),
          json.Unmarshal (value.unmarshal sample)
            (.obj [("completionProvider", .obj []), ("hoverProvider", .bool true),
              ("inlayHintProvider", .int 5)]) {} = .ok x ∧
          AmbiguousField.all = pre ++ f :: post ∧ f.raw x = some raw ∧
          trialDecode (P := sample) raw f.candidates none = .error (some e) ∧
          (∀ g ∈ f :: post, g.get s1 = g.get ({} : ServerCapabilities sample)) ∧
          s1.Experimental = ({} : ServerCapabilities sample).Experimental) :=
  ⟨_, _, rfl, rfl, rfl, failed_decode_frame sample {} _ _ _ rfl⟩

end protocol

namespace json

theorem Decoded.map_eq_cases {α β : Type} (f : α → β) (d1 d2 : Decoded α)
    (h : d1.map f = d2.map f) :
    (∃ a b, d1 = .ok a ∧ d2 = .ok b ∧ f a = f b) ∨
    (∃ a b e, d1 = .saved a e ∧ d2 = .saved b e ∧ f a = f b) ∨
    (∃ e, d1 = .abort e ∧ d2 = .abort e) := by
  cases d1 <;> cases d2 <;> simp only [Decoded.map, Decoded.ok.injEq, Decoded.saved.injEq,
    Decoded.abort.injEq, reduceCtorEq] at h
  · exact Or.inl ⟨_, _, rfl, rfl, h⟩
  · exact Or.inr (Or.inl ⟨_, _, _, rfl, by rw [h.2], h.1⟩)
  · exact Or.inr (Or.inr ⟨_, rfl, by rw [h]⟩)

end json

namespace protocol
open ServerCapabilities

theorem all_eq_base_delta : AmbiguousField.all = AmbiguousField.base ++ AmbiguousField.delta := by
  decide

theorem store_clearDelta {P : Declarations} :
    ∀ fd ∈ value.fields P, ∀ v s,
      (fd.store v s).map value.clearDelta = (fd.store v s.clearDelta).map value.clearDelta := by
  intro fd hmem
  simp only [value.fields, List.mem_cons, List.mem_singleton, List.not_mem_nil, or_false] at hmem
  rcases hmem with h | h | h | h | h | h | h | h | h | h | h | h | h | h | h | h | h | h | h | h |
    h | h | h | h | h | h | h | h | h | h | h | h | h <;> subst h <;> intro v s <;>
    first
    | rfl
    | (dsimp only [value.clearDelta]
       generalize json.unmarshalPtr _ _ v _ = d
       cases d <;> rfl)

theorem store_delta_key {P : Declarations} (k : String) (hk : k ∈ deltaKeys) :
    ∃ fd, json.findField (value.fields P) k = some fd ∧
      ∀ v s, ∃ s1, fd.store v s = .ok s1 ∧ s1.clearDelta = s.clearDelta := by
  simp only [deltaKeys, List.mem_cons, List.mem_singleton, List.not_mem_nil, or_false] at hk
  rcases hk with rfl | rfl | rfl | rfl <;> exact ⟨_, rfl, fun v s => ⟨_, rfl, rfl⟩⟩

/-- Dropping from an object the members whose key is one of the four keys of this
revision changes nothing in the schema value apart from the raw bytes of those four
fields, and nothing in the error. -/
theorem unmarshalMembers_filter_delta {P : Declarations} :
    ∀ (ms : List (String × json.Value)) (s t : value P)
      (sv : Option json.UnmarshalTypeError), s.clearDelta = t.clearDelta →
      (json.unmarshalMembers (value.fields P) ms s sv).map value.clearDelta =
        (json.unmarshalMembers (value.fields P)
          (ms.filter fun m => m.1 ∉ deltaKeys) t sv).map value.clearDelta := by
  intro ms
  induction ms with
  | nil =>
    intro s t sv h
    cases sv <;> simp only [List.filter_nil, json.unmarshalMembers, json.Decoded.map, h]
  | cons m rest ih =>
    intro s t sv h
    obtain ⟨k, v⟩ := m
    by_cases hk : k ∈ deltaKeys
    · obtain ⟨fd, hfd, hstore⟩ := store_delta_key (P := P) k hk
      obtain ⟨s1, hs1, hclear⟩ := hstore v s
      have hfilter : ((k, v) :: rest).filter (fun m => m.1 ∉ deltaKeys) =
          rest.filter (fun m => m.1 ∉ deltaKeys) := by
        rw [List.filter_cons]
        simp only [hk, not_true_eq_false, decide_False, Bool.false_eq_true, if_false]
      rw [hfilter]
      simp only [json.unmarshalMembers, hfd, hs1]
      exact ih s1 t sv (hclear.trans h)
    · have hfilter : ((k, v) :: rest).filter (fun m => m.1 ∉ deltaKeys) =
          (k, v) :: rest.filter (fun m => m.1 ∉ deltaKeys) := by
        rw [List.filter_cons]
        simp only [hk, not_false_eq_true, decide_True, if_true]
      rw [hfilter]
      simp only [json.unmarshalMembers]
      cases hfd : json.findField (value.fields P) k with
      | none => exact ih s t sv h
      | some fd =>
        simp only []
        have hmem := json.findField_mem hfd
        have hrel : (fd.store v s).map value.clearDelta = (fd.store v t).map value.clearDelta := by
          rw [store_clearDelta fd hmem v s, store_clearDelta fd hmem v t, h]
        rcases json.Decoded.map_eq_cases _ _ _ hrel with
          ⟨a, b, ha, hb, hab⟩ | ⟨a, b, e, ha, hb, hab⟩ | ⟨e, ha, hb⟩
        · rw [ha, hb]; exact ih a b sv hab
        · rw [ha, hb]; exact ih a b _ hab
        · rw [ha, hb]

/-- The part of the receiver that is the embedded 3.16 capabilities is, after the
blocks have run, determined by the schema value without the raw bytes of the four
fields of this revision. -/
theorem runBlocks_base_part {P : Declarations} (x : value P) (s : ServerCapabilities P) :
    (runBlocks (AmbiguousField.all.map fun f => f.block (f.raw x))
        (copyPlain x s)).1.toServerCapabilities =
      (runBlocks (AmbiguousField.base.map fun f => f.block (f.raw x.clearDelta))
        (copyPlain x.clearDelta s)).1.toServerCapabilities := by
  have hbase : (AmbiguousField.base.map fun f => f.block (P := P) (f.raw x)) =
      AmbiguousField.base.map fun f => f.block (f.raw x.clearDelta) := by
    apply List.map_congr_left
    intro f hf
    cases f <;> first | rfl | (exfalso; revert hf; decide)
  rw [all_eq_base_delta, List.map_append, runBlocks_append, hbase]
  rw [show copyPlain x s = copyPlain x.clearDelta s from rfl]
  generalize runBlocks (AmbiguousField.base.map fun f => f.block (f.raw x.clearDelta))
    (copyPlain x.clearDelta s) = r
  rcases r with ⟨s1, _ | e⟩
  · exact runBlocks_frame (P := P) (fun s => s.toServerCapabilities) AmbiguousField.delta
      (fun f hf d s => by
        simp only [AmbiguousField.delta, List.mem_cons, List.mem_singleton, List.not_mem_nil,
          or_false] at hf
        rcases hf with rfl | rfl | rfl | rfl <;> rfl) x s1
  · rfl

/-- C9: one flat object with the 3.16 key `hoverProvider` and the 3.17 key
`inlayHintProvider` populates both `HoverProvider`, in the embedded 3.16 capabilities,
and `InlayHintProvider`. And for every object, the embedded 3.16 capabilities decoded
from it are the same as those decoded from the object without its members under the
four 3.17 keys: adding members under 3.17 keys to an object that has none changes no
base-revision field. -/
theorem layering_one_pass (P : Declarations) (ms : List (String × json.Value)) :
    UnmarshalJSON ({} : ServerCapabilities P)
        (.obj [("hoverProvider", .bool true), ("inlayHintProvider", .bool true)]) =
      ({ HoverProvider := some (.bool true), InlayHintProvider := some (.bool true) }, none) ∧
    (UnmarshalJSON ({} : ServerCapabilities P)
        (.obj [("hoverProvider", .bool true), ("inlayHintProvider", .bool true)])
      ).1.toServerCapabilities.HoverProvider = some (.bool true) ∧
    (UnmarshalJSON ({} : ServerCapabilities P) (.obj ms)).1.toServerCapabilities =
      (UnmarshalJSON ({} : ServerCapabilities P)
        (.obj (ms.filter fun m => m.1 ∉ deltaKeys))).1.toServerCapabilities := by
  refine ⟨rfl, rfl, ?_⟩
  have hrel := unmarshalMembers_filter_delta (P := P) ms {} {} none rfl
  rw [UnmarshalJSON_eq, UnmarshalJSON_eq]
  simp only [json.Unmarshal, value.unmarshal, json.unmarshalStruct]
  rcases json.Decoded.map_eq_cases _ _ _ hrel with
    ⟨a, b, ha, hb, hab⟩ | ⟨a, b, e, ha, hb, _⟩ | ⟨e, ha, hb⟩
  · rw [ha, hb]
    simp only []
    rw [runBlocks_base_part a, runBlocks_base_part b, hab]
  · rw [ha, hb]
  · rw [ha, hb]

end protocol

namespace protocol
open ServerCapabilities

/-- C10: the empty object under `typeHierarchyProvider`, `inlayHintProvider` or
`inlineValueProvider` is decoded to the options candidate, listed before the
registration candidate, with every field unset, and never to the registration
candidate; under `diagnosticProvider` it is decoded to the `DiagnosticOptions` value
`d` that this type, declared outside the sources, gives for the empty object, and
never to a `DiagnosticRegistrationOptions`. The decoder is a function of its input:
two decodes of the same input into zero receivers give equal results. -/
theorem empty_object_selects_options (P : Declarations) (d : P.Val .DiagnosticOptions)
    (hd : json.Unmarshal (P.unmarshal .DiagnosticOptions) (.obj [])
      (P.zero .DiagnosticOptions) = .ok d) :
    UnmarshalJSON ({} : ServerCapabilities P) (.obj [("typeHierarchyProvider", .obj [])]) =
      ({ TypeHierarchyProvider := some (.TypeHierarchyOptions { WorkDoneProgress := none }) },
        none) ∧
    UnmarshalJSON ({} : ServerCapabilities P) (.obj [("inlayHintProvider", .obj [])]) =
      ({ InlayHintProvider := some (.InlayHintOptions
          { WorkDoneProgress := none, ResolveProvider := none }) }, none) ∧
    UnmarshalJSON ({} : ServerCapabilities P) (.obj [("inlineValueProvider", .obj [])]) =
      ({ InlineValueProvider := some (.InlineValueOptions { WorkDoneProgress := none }) },
        none) ∧
    UnmarshalJSON ({} : ServerCapabilities P) (.obj [("diagnosticProvider", .obj [])]) =
      ({ DiagnosticProvider := some (.undeclared .DiagnosticOptions d) }, none) ∧
    (∀ r, (UnmarshalJSON ({} : ServerCapabilities P)
        (.obj [("typeHierarchyProvider", .obj [])])).1.TypeHierarchyProvider ≠
      some (.TypeHierarchyRegistrationOptions r)) ∧
    (∀ r, (UnmarshalJSON ({} : ServerCapabilities P)
        (.obj [("inlayHintProvider", .obj [])])).1.InlayHintProvider ≠
      some (.InlayHintRegistrationOptions r)) ∧
    (∀ r, (UnmarshalJSON ({} : ServerCapabilities P)
        (.obj [("inlineValueProvider", .obj [])])).1.InlineValueProvider ≠
      some (.InlineValueRegistrationOptions r)) ∧
    (∀ r, (UnmarshalJSON ({} : ServerCapabilities P)
        (.obj [("diagnosticProvider", .obj [])])).1.DiagnosticProvider ≠
      some (.undeclared .DiagnosticRegistrationOptions r)) ∧
    (∀ (data : json.Value) (r1 r2 : ServerCapabilities P × Option json.UnmarshalTypeError),
      r1 = UnmarshalJSON {} data → r2 = UnmarshalJSON {} data → r1 = r2) := by
  have hdiag : UnmarshalJSON ({} : ServerCapabilities P)
      (.obj [("diagnosticProvider", .obj [])]) =
      ({ DiagnosticProvider := some (.undeclared .DiagnosticOptions d) }, none) := by
    have := UnmarshalJSON_single (P := P) .DiagnosticProvider (.obj [])
    rw [show AmbiguousField.DiagnosticProvider.key = "diagnosticProvider" from rfl] at this
    rw [this]
    simp only [AmbiguousField.block, setDiagnosticProvider, hd]
  refine ⟨rfl, rfl, rfl, hdiag, ?_, ?_, ?_, ?_, ?_⟩
  · intro r h
    have h1 : some (Dynamic.TypeHierarchyOptions (P := P) { WorkDoneProgress := none }) =
        some (.TypeHierarchyRegistrationOptions r) := h
    simp at h1
  · intro r h
    have h1 : some (Dynamic.InlayHintOptions (P := P)
        { WorkDoneProgress := none, ResolveProvider := none }) =
        some (.InlayHintRegistrationOptions r) := h
    simp at h1
  · intro r h
    have h1 : some (Dynamic.InlineValueOptions (P := P) { WorkDoneProgress := none }) =
        some (.InlineValueRegistrationOptions r) := h
    simp at h1
  · intro r h
    rw [hdiag] at h
    simp at h
  · intro data r1 r2 h1 h2
    rw [h1, h2]

/-- C10 with the sample declarations, where `DiagnosticOptions` decodes the empty
object to its zero value. -/
theorem empty_object_selects_options_witness :
    UnmarshalJSON ({} : ServerCapabilities sample) (.obj [("diagnosticProvider", .obj [])]) =
      ({ DiagnosticProvider := some (.undeclared .DiagnosticOptions
          ({} : protocol316.WorkDoneProgressOptions)) }, none) ∧
    UnmarshalJSON ({} : ServerCapabilities sample) (.obj [("inlayHintProvider", .obj [])]) =
      ({ InlayHintProvider := some (.InlayHintOptions {}) }, none) :=
  ⟨(empty_object_selects_options sample ({} : protocol316.WorkDoneProgressOptions) rfl).2.2.2.1,
   (empty_object_selects_options sample ({} : protocol316.WorkDoneProgressOptions) rfl).2.1⟩

end protocol

namespace json

theorem Decoded.err_map {α β : Type} (f : α → β) (d : Decoded α) :
    (d.map f).err = d.err := by
  cases d <;> rfl

theorem Unmarshal_error_of_err {α : Type} {decode : Value → α → Decoded α} {data : Value}
    {z : α} (h : (decode data z).err ≠ none) : ∃ e, Unmarshal decode data z = .error e := by
  unfold Unmarshal
  cases hd : decode data z with
  | ok x => rw [hd] at h; exact absurd rfl h
  | saved x e => exact ⟨e, rfl⟩
  | abort e => exact ⟨e, rfl⟩

theorem unmarshalMembers_err_of_saved {σ : Type} (fields : List (Field σ))
    (ms : List (String × Value)) (s : σ) (e : UnmarshalTypeError) :
    (unmarshalMembers fields ms s (some e)).err ≠ none := by
  induction ms generalizing s with
  | nil => simp [unmarshalMembers, Decoded.err]
  | cons m rest ih =>
    obtain ⟨k, v⟩ := m
    simp only [unmarshalMembers]
    cases findField fields k with
    | none => exact ih s
    | some f =>
      simp only []
      cases f.store v s with
      | ok s1 => exact ih s1
      | saved s1 e1 => exact ih s1
      | abort e1 => simp [Decoded.err]

/-- A member whose value its field does not store makes the decode of the object
report an error. -/
theorem unmarshalMembers_err_of_member {σ : Type} (fields : List (Field σ))
    (ms : List (String × Value)) (k : String) (v : Value) (fd : Field σ)
    (hmem : (k, v) ∈ ms) (hfd : findField fields k = some fd)
    (hstore : ∀ s, (fd.store v s).err ≠ none) :
    ∀ (s : σ) (sv : Option UnmarshalTypeError),
      (unmarshalMembers fields ms s sv).err ≠ none := by
  induction ms with
  | nil => cases hmem
  | cons m rest ih =>
    intro s sv
    obtain ⟨k1, v1⟩ := m
    simp only [unmarshalMembers]
    rcases List.mem_cons.mp hmem with h | h
    · cases h
      simp only [hfd]
      have := hstore s
      cases hst : fd.store v s with
      | ok s1 => rw [hst] at this; exact absurd rfl this
      | saved s1 e1 =>
        simp only []
        cases sv with
        | none => exact unmarshalMembers_err_of_saved fields rest s1 e1
        | some e0 => exact unmarshalMembers_err_of_saved fields rest s1 e0
      | abort e1 => simp [Decoded.err]
    · cases findField fields k1 with
      | none => exact ih h s sv
      | some f =>
        simp only []
        cases f.store v1 s with
        | ok s1 => exact ih h s1 sv
        | saved s1 e1 => exact ih h s1 _
        | abort e1 => simp [Decoded.err]

end json

namespace protocol
open ServerCapabilities

theorem listed_eq_candidates (f : AmbiguousField) : f.listed = f.candidates := by
  cases f <;> rfl

/-- C15: the reserved protocol error codes have the specified integer values, the
four named error codes are pairwise distinct, and each of them lies between
`LSPReservedErrorRangeStart` and `LSPReservedErrorRangeEnd`. -/
theorem reserved_error_codes :
    LSPReservedErrorRangeStart = -32899 ∧ RequestFailed = -32803 ∧
    ServerCancelled = -32802 ∧ ContentModified = -32801 ∧ RequestCancelled = -32800 ∧
    LSPReservedErrorRangeEnd = -32800 ∧
    [RequestFailed, ServerCancelled, ContentModified, RequestCancelled].Nodup ∧
    ∀ c ∈ [RequestFailed, ServerCancelled, ContentModified, RequestCancelled],
      LSPReservedErrorRangeStart ≤ c ∧ c ≤ LSPReservedErrorRangeEnd := by
  decide

/-- C16: the start marker differs from every named error code, but the end marker
`LSPReservedErrorRangeEnd` has the value of the named error code `RequestCancelled`,
against the comment of the constant, which says it does not denote a real error
code. -/
theorem reserved_range_end_is_request_cancelled :
    LSPReservedErrorRangeEnd = RequestCancelled ∧
    LSPReservedErrorRangeStart ∉
      [RequestFailed, ServerCancelled, ContentModified, RequestCancelled] ∧
    LSPReservedErrorRangeEnd ∉ [RequestFailed, ServerCancelled, ContentModified] := by
  decide

/-- C20: the nested try and fallback chain of the block of every ambiguous field is
the generic trial decoder applied to the candidate list the comment of the field
gives: a nil raw value leaves the receiver as it is with no error; otherwise the block
stores the first successful candidate decode, and when every candidate fails it leaves
the receiver as it is and returns the error of the last candidate. The lists are the
ones the claim names for `hoverProvider`, `textDocumentSync` and
`inlayHintProvider`. -/
theorem chain_refines_trial_decode (P : Declarations) (f : AmbiguousField)
    (self : ServerCapabilities P) :
    f.block none self = (self, none) ∧
    (∀ raw : json.Value, f.block (some raw) self =
      match trialDecode raw f.listed none with
      | .ok d => (f.set (some d) self, none)
      | .error e => (self, e)) ∧
    (∀ (raw : json.Value) (e : Option json.UnmarshalTypeError),
      trialDecode (P := P) raw f.listed none = .error e → e ≠ none) ∧
    AmbiguousField.listed .HoverProvider = [.bool, .HoverOptions] ∧
    AmbiguousField.listed .TextDocumentSync =
      [.undeclared .TextDocumentSyncOptions, .undeclared .TextDocumentSyncKind] ∧
    AmbiguousField.listed .InlayHintProvider =
      [.bool, .InlayHintOptions, .InlayHintRegistrationOptions] := by
  refine ⟨block_none f self, ?_, ?_, rfl, rfl, rfl⟩
  · intro raw
    rw [listed_eq_candidates]
    exact block_some f raw self
  · intro raw e h
    rw [listed_eq_candidates] at h
    obtain ⟨e1, rfl⟩ := trialDecode_candidates_error f raw e h
    exact Option.some_ne_none e1

end protocol

namespace protocol
open ServerCapabilities

theorem plain_get_set {P : Declarations} (pf : PlainField) (f : AmbiguousField)
    (d : Option (Dynamic P)) (s : ServerCapabilities P) :
    pf.get (f.set d s) = pf.get s := by
  cases pf <;> cases f <;> rfl

theorem plain_get_copyPlain {P : Declarations} (pf : PlainField) (x : value P)
    (s : ServerCapabilities P) : pf.get (copyPlain x s) = pf.value x := by
  cases pf <;> rfl

/-- After a call of `UnmarshalJSON` that returns no error the seven copied fields hold
what the decode schema holds, and `Experimental` holds what it held before. -/
theorem UnmarshalJSON_plain {P : Declarations} (self s1 : ServerCapabilities P)
    (data : json.Value) (h : UnmarshalJSON self data = (s1, none)) :
    ∃ x : value P, json.Unmarshal (value.unmarshal P) data {} = .ok x ∧
      (∀ pf : PlainField, pf.get s1 = pf.value x) ∧ s1.Experimental = self.Experimental := by
  rw [UnmarshalJSON_eq] at h
  cases hx : json.Unmarshal (value.unmarshal P) data {} with
  | error e => rw [hx] at h; cases h
  | ok x =>
    rw [hx] at h
    simp only [] at h
    refine ⟨x, rfl, ?_, ?_⟩
    · intro pf
      have := runBlocks_frame (P := P) (fun s => pf.get s) AmbiguousField.all
        (fun f _ d s => plain_get_set pf f d s) x (copyPlain x self)
      rw [h] at this
      exact this.trans (plain_get_copyPlain pf x self)
    · have := runBlocks_frame (P := P) (fun s => s.Experimental) AmbiguousField.all
        (fun f _ d s => by cases f <;> rfl) x (copyPlain x self)
      rw [h] at this
      exact this

/-- C11: the schema field `experimental` is decoded but never copied to the receiver:
for the object `experimental: (x: 1)` the schema holds the value, the call returns no
error, and `Experimental` of the result is nil. After every call that returns no
error the seven other fields of one shape hold what the schema decoded, while
`Experimental` holds what the receiver held before. -/
theorem experimental_not_copied (P : Declarations) :
    json.Unmarshal (value.unmarshal P) (.obj [("experimental", .obj [("x", .int 1)])]) {} =
      .ok { Experimental := some (.obj [("x", .int 1)]) } ∧
    UnmarshalJSON ({} : ServerCapabilities P)
      (.obj [("experimental", .obj [("x", .int 1)])]) = ({}, none) ∧
    (UnmarshalJSON ({} : ServerCapabilities P)
      (.obj [("experimental", .obj [("x", .int 1)])])).1.Experimental = none ∧
    ∀ (self s1 : ServerCapabilities P) (data : json.Value),
      UnmarshalJSON self data = (s1, none) →
      ∃ x : value P, json.Unmarshal (value.unmarshal P) data {} = .ok x ∧
        (∀ pf : PlainField, pf.get s1 = pf.value x) ∧
        s1.Experimental = self.Experimental :=
  ⟨rfl, rfl, rfl, fun self s1 data h => UnmarshalJSON_plain self s1 data h⟩

theorem value_store_plain_err {P : Declarations} (pf : PlainField) :
    ∀ fd ∈ value.fields P, fd.name = pf.key → ∀ v s,
      (fd.store v s).err =
        (json.unmarshalPtr (P.zero pf.type) (P.unmarshal pf.type) v (pf.value s)).err := by
  intro fd hmem
  simp only [value.fields, List.mem_cons, List.mem_singleton, List.not_mem_nil, or_false] at hmem
  rcases hmem with h | h | h | h | h | h | h | h | h | h | h | h | h | h | h | h | h | h | h | h |
    h | h | h | h | h | h | h | h | h | h | h | h | h <;> subst h <;> cases pf <;>
    first
    | (intro _ v s; exact json.Decoded.err_map _ _)
    | (intro hn; simp [PlainField.key] at hn)

/-- C12: when a member of the input object is stored in one of the seven pointer
fields of one shape and its value, not `null`, has the wrong JSON type, in that the
type the field points to does not store it, `UnmarshalJSON` returns a non-nil error
and leaves the receiver as it was. The same holds when the input is a boolean, number,
string or array instead of an object: the error is then the type mismatch of the
schema. -/
theorem malformed_plain_field_rejected (P : Declarations) (self : ServerCapabilities P)
    (ms : List (String × json.Value)) (pf : PlainField) (k : String) (v : json.Value)
    (hmem : (k, v) ∈ ms)
    (hk : (json.findField (value.fields P) k).map (·.name) = some pf.key)
    (hv : v ≠ .null)
    (hP : ∀ cur, (P.unmarshal pf.type v cur).err ≠ none) :
    (∃ e, UnmarshalJSON self (.obj ms) = (self, some e)) ∧
    ∀ data : json.Value, json.kind data ∈ ["bool", "number", "string", "array"] →
      UnmarshalJSON self data = (self, some ⟨json.kind data, "struct"⟩) := by
  constructor
  · cases hfd : json.findField (value.fields P) k with
    | none => rw [hfd] at hk; cases hk
    | some fd =>
      rw [hfd] at hk
      simp only [Option.map_some', Option.some.injEq] at hk
      have hstore : ∀ s, (fd.store v s).err ≠ none := by
        intro s
        rw [value_store_plain_err pf fd (json.findField_mem hfd) hk v s]
        cases v with
        | null => exact absurd rfl hv
        | bool b => simp only [json.unmarshalPtr, json.Decoded.err_map]; exact hP _
        | int n => simp only [json.unmarshalPtr, json.Decoded.err_map]; exact hP _
        | float l => simp only [json.unmarshalPtr, json.Decoded.err_map]; exact hP _
        | str t => simp only [json.unmarshalPtr, json.Decoded.err_map]; exact hP _
        | arr xs => simp only [json.unmarshalPtr, json.Decoded.err_map]; exact hP _
        | obj os => simp only [json.unmarshalPtr, json.Decoded.err_map]; exact hP _
      have herr := json.unmarshalMembers_err_of_member (value.fields P) ms k v fd hmem hfd
        hstore {} none
      have herr1 : (value.unmarshal P (.obj ms) {}).err ≠ none := herr
      obtain ⟨e, he⟩ := json.Unmarshal_error_of_err herr1
      exact ⟨e, by rw [UnmarshalJSON_eq, he]⟩
  · intro data hd
    cases data with
    | null => simp [json.kind] at hd
    | obj os => simp [json.kind] at hd
    | bool b => rfl
    | int n => rfl
    | float l => rfl
    | str t => rfl
    | arr xs => rfl

/-- C12 at a concrete input: a number under `completionProvider`, after a valid
`hoverProvider`, makes the call fail and leaves the zero receiver as it was. -/
theorem malformed_plain_field_rejected_witness :
    ∃ e, UnmarshalJSON ({} : ServerCapabilities sample)
      (.obj [("hoverProvider", .bool true), ("completionProvider", .int 5)]) = ({}, some e) :=
  (malformed_plain_field_rejected sample {}
    [("hoverProvider", .bool true), ("completionProvider", .int 5)] .CompletionProvider
    "completionProvider" (.int 5) (by simp) rfl (by simp)
    (fun cur => by
      show (json.unmarshalStruct "protocol.CompletionOptions" protocol316.WorkDoneProgressOptions.fields
        (json.Value.int 5) cur).err ≠ none
      simp [json.unmarshalStruct, json.Decoded.err])).1

end protocol

namespace json

theorem findField_fold {σ : Type} (fields : List (Field σ)) (k n : String)
    (hex : ∃ fd ∈ fields, fd.name = n) (hk : foldName k = foldName n) :
    ∃ fd ∈ fields, findField fields k = some fd ∧ foldName fd.name = foldName n := by
  cases h : findField fields k with
  | some fd => exact ⟨fd, findField_mem h, rfl, (findField_name h).trans hk⟩
  | none =>
    exfalso
    obtain ⟨fd, hfd, hn⟩ := hex
    unfold findField at h
    split at h
    · cases h
    · have := List.find?_eq_none.mp h fd hfd
      simp only [decide_eq_true_eq] at this
      exact this (by rw [hn, hk])

theorem findField_none_of_fold {σ : Type} (fields : List (Field σ)) (k : String)
    (h : ∀ fd ∈ fields, foldName fd.name ≠ foldName k) : findField fields k = none := by
  cases hf : findField fields k with
  | none => rfl
  | some fd => exact absurd (findField_name hf) (h fd (findField_mem hf))

theorem unmarshalMembers_skip {σ : Type} (fields : List (Field σ)) (k : String) (v : Value)
    (ms2 : List (String × Value)) (hk : findField fields k = none) :
    ∀ (ms1 : List (String × Value)) (s : σ) (sv : Option UnmarshalTypeError),
      unmarshalMembers fields (ms1 ++ (k, v) :: ms2) s sv =
        unmarshalMembers fields (ms1 ++ ms2) s sv := by
  intro ms1
  induction ms1 with
  | nil => intro s sv; simp only [List.nil_append, unmarshalMembers, hk]
  | cons m rest ih =>
    intro s sv
    obtain ⟨k1, v1⟩ := m
    simp only [List.cons_append, unmarshalMembers]
    cases findField fields k1 with
    | none => exact ih s sv
    | some fd =>
      simp only []
      cases fd.store v1 s with
      | ok s1 => exact ih s1 sv
      | saved s1 e => exact ih s1 _
      | abort e => rfl

theorem ptr_bool_err {σ : Type} (v : Value) (hv : kind v ≠ "bool" ∧ kind v ≠ "null")
    (cur : Option Bool) (g : Option Bool → σ) :
    ((unmarshalPtr false unmarshalBool v cur).map g).err ≠ none := by
  cases v with
  | null => exact absurd rfl hv.2
  | bool b => exact absurd rfl hv.1
  | int n => simp [unmarshalPtr, unmarshalBool, Decoded.map, Decoded.err]
  | float l => simp [unmarshalPtr, unmarshalBool, Decoded.map, Decoded.err]
  | str t => simp [unmarshalPtr, unmarshalBool, Decoded.map, Decoded.err]
  | arr xs => simp [unmarshalPtr, unmarshalBool, Decoded.map, Decoded.err]
  | obj os => simp [unmarshalPtr, unmarshalBool, Decoded.map, Decoded.err]

/-- A struct decode records an error when a member of the object resolves, exactly or
case-insensitively, to a field named `n` and every field that matches `n`
case-insensitively does not store the value of the member. -/
theorem unmarshalStruct_err_of_key {σ : Type} (typ : String) (fields : List (Field σ))
    (o : List (String × Value)) (k n : String) (v : Value) (cur : σ)
    (hmem : (k, v) ∈ o) (hex : ∃ fd ∈ fields, fd.name = n) (hk : foldName k = foldName n)
    (hstore : ∀ fd ∈ fields, foldName fd.name = foldName n → ∀ s, (fd.store v s).err ≠ none) :
    ∃ e, Unmarshal (unmarshalStruct typ fields) (.obj o) cur = .error e := by
  obtain ⟨fd, hfd, hfind, hfold⟩ := findField_fold fields k n hex hk
  exact Unmarshal_error_of_err
    (unmarshalMembers_err_of_member fields o k v fd hmem hfind (hstore fd hfd hfold) cur none)

end json

namespace protocol
open ServerCapabilities

/-- The error `UnmarshalJSON` returns does not depend on the receiver. -/
theorem runBlocks_error_indep {P : Declarations} (x : value P) :
    ∀ (fs : List AmbiguousField) (s t : ServerCapabilities P),
      (runBlocks (fs.map fun f => f.block (f.raw x)) s).2 =
        (runBlocks (fs.map fun f => f.block (f.raw x)) t).2 := by
  intro fs
  induction fs with
  | nil => intro s t; rfl
  | cons f fs ih =>
    intro s t
    simp only [List.map_cons, runBlocks]
    rcases block_cases f (f.raw x) s with ⟨hr, hs⟩ | ⟨raw, d, hr, hd, hs⟩ | ⟨raw, e, hr, he, hs⟩
    · rw [hs, hr, block_none]; exact ih s t
    · rw [hs, hr, block_some, hd]; exact ih _ _
    · rw [hs, hr, block_some, he]
      obtain ⟨e1, rfl⟩ := trialDecode_candidates_error f raw e he
      rfl

theorem UnmarshalJSON_error_indep {P : Declarations} (s t : ServerCapabilities P)
    (data : json.Value) : (UnmarshalJSON s data).2 = (UnmarshalJSON t data).2 := by
  rw [UnmarshalJSON_eq, UnmarshalJSON_eq]
  cases json.Unmarshal (value.unmarshal P) data {} with
  | error e => rfl
  | ok x => exact runBlocks_error_indep x _ _ _

/-- C18, the claim as stated fails: `id` is a key of the candidate shape
`InlayHintRegistrationOptions`, where it is a string, and the number 5 under it makes
that candidate fail; yet the object is decoded by the candidate `InlayHintOptions`,
which does not know the key, and `UnmarshalJSON` returns a nil error and stores an
options value. -/
theorem candidate_key_counterexample :
    "id" ∈ Candidate.keys .InlayHintRegistrationOptions ∧
    Candidate.attempt (P := sample) .InlayHintRegistrationOptions (.obj [("id", .int 5)]) =
      .error ⟨"number", "string"⟩ ∧
    Candidate.attempt (P := sample) .InlayHintOptions (.obj [("id", .int 5)]) =
      .ok (.InlayHintOptions {}) ∧
    UnmarshalJSON ({} : ServerCapabilities sample)
        (.obj [("inlayHintProvider", .obj [("id", .int 5)])]) =
      ({ InlayHintProvider := some (.InlayHintOptions {}) }, none) := by
  refine ⟨by decide, rfl, rfl, rfl⟩

/-- C18 as amended: for `typeHierarchyProvider`, `inlayHintProvider` and
`inlineValueProvider`, when the object under the field has a member whose key matches
`workDoneProgress` (for `inlayHintProvider` also `resolveProvider`), exactly or
case-insensitively, and whose value is neither a boolean nor `null`, every candidate of
the field fails on the object and `UnmarshalJSON` returns a non-nil error, for every
receiver and every input object in which the field captures that object; on the zero
receiver the field stays nil. -/
theorem options_key_type_checked (P : Declarations) (f : AmbiguousField)
    (o : List (String × json.Value)) (k : String) (v : json.Value)
    (hf : f = .TypeHierarchyProvider ∨ f = .InlayHintProvider ∨ f = .InlineValueProvider)
    (hmem : (k, v) ∈ o)
    (hk : json.foldName k = json.foldName "workDoneProgress" ∨
      (f = .InlayHintProvider ∧ json.foldName k = json.foldName "resolveProvider"))
    (hv : json.kind v ≠ "bool" ∧ json.kind v ≠ "null") :
    (∀ c ∈ f.candidates, ∃ e, c.attempt (P := P) (.obj o) = .error e) ∧
    ∀ (self : ServerCapabilities P) (ms : List (String × json.Value)),
      json.captured (value.fields P) f.key ms none = some (.obj o) →
      (UnmarshalJSON self (.obj ms)).2 ≠ none ∧
      f.get (UnmarshalJSON ({} : ServerCapabilities P) (.obj ms)).1 = none := by
  have key : ∀ c ∈ f.candidates, ∃ e, c.attempt (P := P) (.obj o) = .error e := by
    intro c hc
    have hstruct : ∀ {σ : Type} (typ : String) (fields : List (json.Field σ)) (cur : σ)
        (ctor : σ → Dynamic P) (n : String),
        json.foldName k = json.foldName n → (∃ fd ∈ fields, fd.name = n) →
        (∀ fd ∈ fields, json.foldName fd.name = json.foldName n →
          ∀ s, (fd.store v s).err ≠ none) →
        ∃ e, (json.Unmarshal (json.unmarshalStruct typ fields) (.obj o) cur).map ctor =
          .error e := by
      intro σ typ fields cur ctor n hkn hex hstore
      obtain ⟨e, he⟩ := json.unmarshalStruct_err_of_key typ fields o k n v cur hmem hex hkn hstore
      exact ⟨e, by rw [he]; rfl⟩
    rcases hf with rfl | rfl | rfl
    · rcases hk with hk | ⟨h, _⟩
      · simp only [AmbiguousField.candidates, List.mem_cons, List.mem_singleton,
          List.not_mem_nil, or_false] at hc
        rcases hc with rfl | rfl | rfl
        · exact ⟨_, rfl⟩
        · refine hstruct _ TypeHierarchyOptions.fields _ _ "workDoneProgress" hk
            (by simp [TypeHierarchyOptions.fields]) ?_
          intro fd hfd hfold s
          simp only [TypeHierarchyOptions.fields, List.mem_cons, List.mem_singleton,
            List.not_mem_nil, or_false] at hfd
          rcases hfd with rfl | rfl | rfl | rfl
          all_goals first | exact absurd hfold (by decide) | exact json.ptr_bool_err v hv _ _
        · refine hstruct _ TypeHierarchyRegistrationOptions.fields _ _ "workDoneProgress" hk
            (by simp [TypeHierarchyRegistrationOptions.fields]) ?_
          intro fd hfd hfold s
          simp only [TypeHierarchyRegistrationOptions.fields, List.mem_cons, List.mem_singleton,
            List.not_mem_nil, or_false] at hfd
          rcases hfd with rfl | rfl | rfl | rfl
          all_goals first | exact absurd hfold (by decide) | exact json.ptr_bool_err v hv _ _
      · cases h
    · simp only [AmbiguousField.candidates, List.mem_cons, List.mem_singleton,
        List.not_mem_nil, or_false] at hc
      rcases hk with hk | ⟨_, hk⟩
      · rcases hc with rfl | rfl | rfl
        · exact ⟨_, rfl⟩
        · refine hstruct _ InlayHintOptions.fields _ _ "workDoneProgress" hk
            (by simp [InlayHintOptions.fields]) ?_
          intro fd hfd hfold s
          simp only [InlayHintOptions.fields, List.mem_cons, List.mem_singleton,
            List.not_mem_nil, or_false] at hfd
          rcases hfd with rfl | rfl | rfl | rfl
          all_goals first | exact absurd hfold (by decide) | exact json.ptr_bool_err v hv _ _
        · refine hstruct _ InlayHintRegistrationOptions.fields _ _ "workDoneProgress" hk
            (by simp [InlayHintRegistrationOptions.fields]) ?_
          intro fd hfd hfold s
          simp only [InlayHintRegistrationOptions.fields, List.mem_cons, List.mem_singleton,
            List.not_mem_nil, or_false] at hfd
          rcases hfd with rfl | rfl | rfl | rfl
          all_goals first | exact absurd hfold (by decide) | exact json.ptr_bool_err v hv _ _
      · rcases hc with rfl | rfl | rfl
        · exact ⟨_, rfl⟩
        · refine hstruct _ InlayHintOptions.fields _ _ "resolveProvider" hk
            (by simp [InlayHintOptions.fields]) ?_
          intro fd hfd hfold s
          simp only [InlayHintOptions.fields, List.mem_cons, List.mem_singleton,
            List.not_mem_nil, or_false] at hfd
          rcases hfd with rfl | rfl | rfl | rfl
          all_goals first | exact absurd hfold (by decide) | exact json.ptr_bool_err v hv _ _
        · refine hstruct _ InlayHintRegistrationOptions.fields _ _ "resolveProvider" hk
            (by simp [InlayHintRegistrationOptions.fields]) ?_
          intro fd hfd hfold s
          simp only [InlayHintRegistrationOptions.fields, List.mem_cons, List.mem_singleton,
            List.not_mem_nil, or_false] at hfd
          rcases hfd with rfl | rfl | rfl | rfl
          all_goals first | exact absurd hfold (by decide) | exact json.ptr_bool_err v hv _ _
    · rcases hk with hk | ⟨h, _⟩
      · simp only [AmbiguousField.candidates, List.mem_cons, List.mem_singleton,
          List.not_mem_nil, or_false] at hc
        rcases hc with rfl | rfl | rfl
        · exact ⟨_, rfl⟩
        · refine hstruct _ InlineValueOptions.fields _ _ "workDoneProgress" hk
            (by simp [InlineValueOptions.fields]) ?_
          intro fd hfd hfold s
          simp only [InlineValueOptions.fields, List.mem_cons, List.mem_singleton,
            List.not_mem_nil, or_false] at hfd
          rcases hfd with rfl | rfl | rfl | rfl
          all_goals first | exact absurd hfold (by decide) | exact json.ptr_bool_err v hv _ _
        · refine hstruct _ InlineValueRegistrationOptions.fields _ _ "workDoneProgress" hk
            (by simp [InlineValueRegistrationOptions.fields]) ?_
          intro fd hfd hfold s
          simp only [InlineValueRegistrationOptions.fields, List.mem_cons, List.mem_singleton,
            List.not_mem_nil, or_false] at hfd
          rcases hfd with rfl | rfl | rfl | rfl
          all_goals first | exact absurd hfold (by decide) | exact json.ptr_bool_err v hv _ _
      · cases h
  refine ⟨key, ?_⟩
  intro self ms hcap
  have h0 := UnmarshalJSON_trial_fails f (.obj o) ms hcap
    (trialDecode_all_fail (.obj o) f.candidates none key)
  refine ⟨?_, h0.2⟩
  rw [UnmarshalJSON_error_indep self {}]
  exact h0.1

/-- C18 at the two inputs the claim names: a string under `resolveProvider` and a
number under `workDoneProgress` make `UnmarshalJSON` fail. -/
theorem options_key_type_checked_witness :
    ((UnmarshalJSON ({} : ServerCapabilities sample)
        (.obj [("inlayHintProvider", .obj [("resolveProvider", .str "yes")])])).2 ≠ none ∧
      (UnmarshalJSON ({} : ServerCapabilities sample)
        (.obj [("inlayHintProvider", .obj [("resolveProvider", .str "yes")])])).1.InlayHintProvider
          = none) ∧
    (UnmarshalJSON ({} : ServerCapabilities sample)
        (.obj [("typeHierarchyProvider", .obj [("workDoneProgress", .int 1)])])).2 ≠ none :=
  ⟨(options_key_type_checked sample .InlayHintProvider [("resolveProvider", .str "yes")]
      "resolveProvider" (.str "yes") (Or.inr (Or.inl rfl)) (by simp)
      (Or.inr ⟨rfl, rfl⟩) (by decide)).2 {} _ rfl,
   ((options_key_type_checked sample .TypeHierarchyProvider [("workDoneProgress", .int 1)]
      "workDoneProgress" (.int 1) (Or.inl rfl) (by simp)
      (Or.inl rfl) (by decide)).2 {}
      [("typeHierarchyProvider", .obj [("workDoneProgress", .int 1)])] rfl).1⟩

end protocol

namespace protocol
open ServerCapabilities

theorem store_key {P : Declarations} (f : AmbiguousField) :
    ∀ fd ∈ value.fields P, fd.name = f.key → ∀ v s, fd.store v s = .ok (f.setRaw (some v) s) := by
  intro fd hmem
  simp only [value.fields, List.mem_cons, List.mem_singleton, List.not_mem_nil, or_false] at hmem
  rcases hmem with h | h | h | h | h | h | h | h | h | h | h | h | h | h | h | h | h | h | h | h |
    h | h | h | h | h | h | h | h | h | h | h | h | h <;> subst h <;> cases f <;>
    first
    | (intro _ v s; rfl)
    | (intro hn; simp [AmbiguousField.key] at hn)

theorem store_other {P : Declarations} (f : AmbiguousField) :
    ∀ fd ∈ value.fields P, fd.name ≠ f.key → ∀ v r s,
      fd.store v (f.setRaw r s) = (fd.store v s).map (f.setRaw r) := by
  intro fd hmem
  simp only [value.fields, List.mem_cons, List.mem_singleton, List.not_mem_nil, or_false] at hmem
  rcases hmem with h | h | h | h | h | h | h | h | h | h | h | h | h | h | h | h | h | h | h | h |
    h | h | h | h | h | h | h | h | h | h | h | h | h <;> subst h <;> cases f <;>
    first
    | (intro hn; exact absurd rfl hn)
    | (intro _ v r s; rfl)
    | (intro _ v r s
       simp only [AmbiguousField.setRaw]
       generalize json.unmarshalPtr _ _ v _ = d
       cases d <;> rfl)

theorem setRaw_setRaw {P : Declarations} (f : AmbiguousField) (r r1 : json.RawMessage)
    (x : value P) : f.setRaw r (f.setRaw r1 x) = f.setRaw r x := by
  cases f <;> rfl

theorem setRaw_raw {P : Declarations} (f : AmbiguousField) (x : value P) :
    f.setRaw (f.raw x) x = x := by
  cases f <;> rfl

theorem raw_setRaw_self {P : Declarations} (f : AmbiguousField) (r : json.RawMessage)
    (x : value P) : f.raw (f.setRaw r x) = r := by
  cases f <;> rfl

theorem raw_setRaw_ne {P : Declarations} (f g : AmbiguousField) (h : g ≠ f)
    (r : json.RawMessage) (x : value P) : g.raw (f.setRaw r x) = g.raw x := by
  cases f <;> cases g <;> first | rfl | exact absurd rfl h

theorem copyPlain_setRaw {P : Declarations} (f : AmbiguousField) (r : json.RawMessage)
    (x : value P) (s : ServerCapabilities P) : copyPlain (f.setRaw r x) s = copyPlain x s := by
  cases f <;> rfl

theorem trialDecode_congr {P : Declarations} (r1 r2 : json.Value) (cs : List Candidate)
    (h : ∀ c ∈ cs, c.attempt (P := P) r1 = c.attempt r2)
    (last : Option json.UnmarshalTypeError) :
    trialDecode (P := P) r1 cs last = trialDecode r2 cs last := by
  induction cs generalizing last with
  | nil => rfl
  | cons c cs ih =>
    simp only [trialDecode, h c (List.mem_cons_self _ _)]
    cases c.attempt (P := P) r2 with
    | ok d => rfl
    | error e => exact ih (fun c1 h1 => h c1 (List.mem_cons_of_mem _ h1)) _

theorem related_members {P : Declarations} (f : AmbiguousField) :
    ∀ (ms : List (String × json.Value)) (r1 r2 : json.RawMessage) (s : value P)
      (sv : Option json.UnmarshalTypeError),
      (∀ self : ServerCapabilities P, f.block r1 self = f.block r2 self) →
      Related f (json.unmarshalMembers (value.fields P) ms (f.setRaw r1 s) sv)
        (json.unmarshalMembers (value.fields P) ms (f.setRaw r2 s) sv) := by
  intro ms
  induction ms with
  | nil =>
    intro r1 r2 s sv hE
    cases sv with
    | none => exact ⟨r1, r2, .ok s, hE, rfl, rfl⟩
    | some e => exact ⟨r1, r2, .saved s e, hE, rfl, rfl⟩
  | cons m rest ih =>
    intro r1 r2 s sv hE
    obtain ⟨k, v⟩ := m
    simp only [json.unmarshalMembers]
    cases hfd : json.findField (value.fields P) k with
    | none => exact ih r1 r2 s sv hE
    | some fd =>
      simp only []
      have hmem := json.findField_mem hfd
      by_cases hn : fd.name = f.key
      · rw [store_key f fd hmem hn, store_key f fd hmem hn, setRaw_setRaw, setRaw_setRaw]
        exact ih (some v) (some v) s sv (fun _ => rfl)
      · rw [store_other f fd hmem hn, store_other f fd hmem hn]
        cases fd.store v s with
        | ok s1 => exact ih r1 r2 s1 sv hE
        | saved s1 e => exact ih r1 r2 s1 _ hE
        | abort e => exact ⟨none, none, .abort e, fun _ => rfl, rfl, rfl⟩

theorem related_prefix {P : Declarations} (f : AmbiguousField) (key : String)
    (v1 v2 : json.Value) (post : List (String × json.Value))
    (hkey : (json.findField (value.fields P) key).map (·.name) = some f.key)
    (hE : ∀ self : ServerCapabilities P, f.block (some v1) self = f.block (some v2) self) :
    ∀ (pre : List (String × json.Value)) (s : value P) (sv : Option json.UnmarshalTypeError),
      Related f (json.unmarshalMembers (value.fields P) (pre ++ (key, v1) :: post) s sv)
        (json.unmarshalMembers (value.fields P) (pre ++ (key, v2) :: post) s sv) := by
  intro pre
  induction pre with
  | nil =>
    intro s sv
    simp only [List.nil_append, json.unmarshalMembers]
    cases hfd : json.findField (value.fields P) key with
    | none => rw [hfd] at hkey; cases hkey
    | some fd =>
      rw [hfd] at hkey
      simp only [Option.map_some', Option.some.injEq] at hkey
      simp only []
      rw [store_key f fd (json.findField_mem hfd) hkey, store_key f fd (json.findField_mem hfd) hkey]
      exact related_members f post (some v1) (some v2) s sv hE
  | cons m rest ih =>
    intro s sv
    obtain ⟨k, v⟩ := m
    simp only [List.cons_append, json.unmarshalMembers]
    cases json.findField (value.fields P) k with
    | none => exact ih s sv
    | some fd =>
      simp only []
      cases fd.store v s with
      | ok s1 => exact ih s1 sv
      | saved s1 e => exact ih s1 _
      | abort e => exact ⟨none, none, .abort e, fun _ => rfl, rfl, rfl⟩

theorem UnmarshalJSON_of_related {P : Declarations} (f : AmbiguousField)
    (ms1 ms2 : List (String × json.Value))
    (h : Related f (json.unmarshalMembers (value.fields P) ms1 {} none)
      (json.unmarshalMembers (value.fields P) ms2 {} none))
    (self : ServerCapabilities P) :
    UnmarshalJSON self (.obj ms1) = UnmarshalJSON self (.obj ms2) := by
  obtain ⟨r1, r2, d, hE, h1, h2⟩ := h
  rw [UnmarshalJSON_eq, UnmarshalJSON_eq]
  have e1 : json.Unmarshal (value.unmarshal P) (.obj ms1) {} =
      json.Unmarshal (fun _ _ => d.map (f.setRaw r1)) .null {} := by
    simp only [json.Unmarshal, value.unmarshal, json.unmarshalStruct, h1]
  have e2 : json.Unmarshal (value.unmarshal P) (.obj ms2) {} =
      json.Unmarshal (fun _ _ => d.map (f.setRaw r2)) .null {} := by
    simp only [json.Unmarshal, value.unmarshal, json.unmarshalStruct, h2]
  rw [e1, e2]
  cases d with
  | saved x e => rfl
  | abort e => rfl
  | ok x =>
    simp only [json.Unmarshal, json.Decoded.map, copyPlain_setRaw]
    congr 1
    apply List.map_congr_left
    intro g _
    by_cases hg : g = f
    · subst hg
      rw [raw_setRaw_self, raw_setRaw_self]
      exact funext hE
    · rw [raw_setRaw_ne f g hg, raw_setRaw_ne f g hg]

theorem attempt_ignores {P : Declarations} (c : Candidate) (o1 o2 : List (String × json.Value))
    (k : String) (v : json.Value)
    (hP : ∀ t, c = .undeclared t →
      P.unmarshal t (.obj (o1 ++ (k, v) :: o2)) (P.zero t) =
        P.unmarshal t (.obj (o1 ++ o2)) (P.zero t))
    (hk : ∀ n ∈ c.keys, json.foldName n ≠ json.foldName k) :
    c.attempt (P := P) (.obj (o1 ++ (k, v) :: o2)) = c.attempt (.obj (o1 ++ o2)) := by
  have hstruct : ∀ {σ : Type} (typ : String) (fields : List (json.Field σ)) (cur : σ),
      (∀ n ∈ fields.map (·.name), json.foldName n ≠ json.foldName k) →
      json.Unmarshal (json.unmarshalStruct typ fields) (.obj (o1 ++ (k, v) :: o2)) cur =
        json.Unmarshal (json.unmarshalStruct typ fields) (.obj (o1 ++ o2)) cur := by
    intro σ typ fields cur hn
    have hnone := json.findField_none_of_fold fields k
      (fun fd hfd => hn fd.name (List.mem_map_of_mem _ hfd))
    simp only [json.Unmarshal, json.unmarshalStruct,
      json.unmarshalMembers_skip fields k v o2 hnone o1 cur none]
  cases c with
  | bool => rfl
  | undeclared t =>
    simp only [Candidate.attempt, json.Unmarshal, hP t rfl]
  | HoverOptions => exact congrArg (Except.map _) (hstruct _ _ _ hk)
  | TypeHierarchyOptions => exact congrArg (Except.map _) (hstruct _ _ _ hk)
  | TypeHierarchyRegistrationOptions => exact congrArg (Except.map _) (hstruct _ _ _ hk)
  | InlayHintOptions => exact congrArg (Except.map _) (hstruct _ _ _ hk)
  | InlayHintRegistrationOptions => exact congrArg (Except.map _) (hstruct _ _ _ hk)
  | InlineValueOptions => exact congrArg (Except.map _) (hstruct _ _ _ hk)
  | InlineValueRegistrationOptions => exact congrArg (Except.map _) (hstruct _ _ _ hk)

end protocol

namespace protocol
open ServerCapabilities

/-- C17, the claim as stated fails. The key `HoverProvider` is not a key of the schema,
and added to the empty object, which decodes, it makes the decode fail: it is stored
in the field `hoverProvider`, which it matches case-insensitively. The key
`RESOLVEPROVIDER` is a key of no candidate shape of `inlayHintProvider`, and added to
the empty object under that field it makes the decode fail as well. -/
theorem unknown_key_counterexample :
    ("HoverProvider" ∉ (value.fields sample).map (·.name) ∧
      UnmarshalJSON ({} : ServerCapabilities sample) (.obj []) = ({}, none) ∧
      UnmarshalJSON ({} : ServerCapabilities sample) (.obj [("HoverProvider", .int 5)]) =
        ({}, some ⟨"number", "protocol.HoverOptions"⟩)) ∧
    ((∀ c ∈ AmbiguousField.candidates .InlayHintProvider, "RESOLVEPROVIDER" ∉ c.keys) ∧
      UnmarshalJSON ({} : ServerCapabilities sample) (.obj [("inlayHintProvider", .obj [])]) =
        ({ InlayHintProvider := some (.InlayHintOptions {}) }, none) ∧
      UnmarshalJSON ({} : ServerCapabilities sample)
          (.obj [("inlayHintProvider", .obj [("RESOLVEPROVIDER", .str "yes")])]) =
        ({}, some ⟨"string", "bool"⟩)) := by
  refine ⟨⟨by decide, rfl, rfl⟩, ⟨by decide, rfl, rfl⟩⟩

/-- C17 as amended: a member added to the input object changes nothing in what
`UnmarshalJSON` returns (receiver and error) when its key matches no field of the
schema, exactly or case-insensitively; and a member added to the object under an
ambiguous field changes nothing when its key matches, case-insensitively, no key of
the candidate shapes of that field that are declared or modelled here, and the
candidate shapes declared outside the sources decode the object with and without the
member alike. -/
theorem unknown_key_ignored (P : Declarations) (self : ServerCapabilities P) :
    (∀ (ms1 ms2 : List (String × json.Value)) (k : String) (v : json.Value),
      json.findField (value.fields P) k = none →
      UnmarshalJSON self (.obj (ms1 ++ (k, v) :: ms2)) = UnmarshalJSON self (.obj (ms1 ++ ms2))) ∧
    (∀ (f : AmbiguousField) (pre post o1 o2 : List (String × json.Value)) (key k : String)
        (v : json.Value),
      (json.findField (value.fields P) key).map (·.name) = some f.key →
      (∀ c ∈ f.candidates, ∀ n ∈ c.keys, json.foldName n ≠ json.foldName k) →
      (∀ t, Candidate.undeclared t ∈ f.candidates →
        P.unmarshal t (.obj (o1 ++ (k, v) :: o2)) (P.zero t) =
          P.unmarshal t (.obj (o1 ++ o2)) (P.zero t)) →
      UnmarshalJSON self (.obj (pre ++ (key, .obj (o1 ++ (k, v) :: o2)) :: post)) =
        UnmarshalJSON self (.obj (pre ++ (key, .obj (o1 ++ o2)) :: post))) := by
  constructor
  · intro ms1 ms2 k v hk
    rw [UnmarshalJSON_eq, UnmarshalJSON_eq]
    have : json.Unmarshal (value.unmarshal P) (.obj (ms1 ++ (k, v) :: ms2)) {} =
        json.Unmarshal (value.unmarshal P) (.obj (ms1 ++ ms2)) {} := by
      simp only [json.Unmarshal, value.unmarshal, json.unmarshalStruct,
        json.unmarshalMembers_skip (value.fields P) k v ms2 hk ms1 {} none]
    rw [this]
  · intro f pre post o1 o2 key k v hkey hkeys hP
    apply UnmarshalJSON_of_related f
    apply related_prefix f key _ _ post hkey
    intro s
    rw [block_some, block_some, trialDecode_congr (.obj (o1 ++ (k, v) :: o2)) (.obj (o1 ++ o2))]
    intro c hc
    exact attempt_ignores c o1 o2 k v (fun t ht => hP t (ht ▸ hc)) (hkeys c hc)

/-- C17 at concrete inputs: the key `foo` added at the top level, and added under
`inlayHintProvider` (the input the claim names), leaves the result as it is without it. -/
theorem unknown_key_ignored_witness :
    UnmarshalJSON ({} : ServerCapabilities sample)
        (.obj [("hoverProvider", .bool true), ("foo", .int 1)]) =
      ({ HoverProvider := some (.bool true) }, none) ∧
    UnmarshalJSON ({} : ServerCapabilities sample)
        (.obj [("inlayHintProvider", .obj [("foo", .int 1)])]) =
      ({ InlayHintProvider := some (.InlayHintOptions {}) }, none) :=
  ⟨((unknown_key_ignored sample {}).1 [("hoverProvider", .bool true)] [] "foo" (.int 1)
      rfl).trans rfl,
   ((unknown_key_ignored sample {}).2 .InlayHintProvider [] [] [] [] "inlayHintProvider" "foo"
      (.int 1) rfl (by decide)
      (fun t ht => by simp [AmbiguousField.candidates] at ht)).trans rfl⟩

end protocol

namespace json

theorem Member.ranks_self {σ : Type} (m : Member σ) : m.ranks m = true := by
  cases h : m.tagged <;> simp [Member.ranks, h]

theorem filter_name_of_nodup {σ : Type} (own : List (Member σ))
    (hnd : (own.map (·.name)).Nodup) (m : Member σ) (hm : m ∈ own) :
    own.filter (fun n => decide (n.name = m.name)) = [m] := by
  induction own with
  | nil => cases hm
  | cons a rest ih =>
    simp only [List.map_cons, List.nodup_cons, List.mem_map, not_exists, not_and] at hnd
    rcases List.mem_cons.mp hm with rfl | hm1
    · have hrest : rest.filter (fun n => decide (n.name = m.name)) = [] := by
        rw [List.filter_eq_nil_iff]
        intro n hn
        simp only [decide_eq_true_eq]
        exact hnd.1 n hn
      simp [List.filter_cons, hrest]
    · have hne : a.name ≠ m.name := fun h => hnd.1 m hm1 h.symm
      simp only [List.filter_cons, hne, decide_False, Bool.false_eq_true, if_false]
      exact ih hnd.2 hm1

theorem find?_of_filter_eq {α : Type} (q : α → Bool) (m : α) (rest : List α) :
    ∀ l : List α, l.filter q = m :: rest → l.find? q = some m := by
  intro l
  induction l with
  | nil => intro h; cases h
  | cons a l ih =>
    intro h
    by_cases hq : q a = true
    · simp only [List.filter_cons, hq, if_true, List.cons.injEq] at h
      rw [← h.1]
      simp only [List.find?_cons, hq]
    · simp only [Bool.not_eq_true] at hq
      simp only [List.filter_cons, hq, Bool.false_eq_true, if_false] at h
      simp only [List.find?_cons, hq]
      exact ih h

/-- The fields a struct declares itself (depth 0, tagged, pairwise distinct names) stay
after the rule for fields of one name, whatever the embedded structs declare, and an
embedded field of the same name does not stay. -/
theorem dominant_own {σ : Type} (emb own : List (Member σ))
    (hemb : ∀ m ∈ emb, 0 < m.depth) (hown : ∀ m ∈ own, m.depth = 0 ∧ m.tagged = true)
    (hnd : (own.map (·.name)).Nodup) (m : Member σ) (hm : m ∈ own) :
    (dominant (emb ++ own)).filter (fun n => decide (n.name = m.name)) = [m] := by
  have hranks_own : ∀ a ∈ own, ∀ n ∈ own, n.ranks a = decide (n.name = a.name) := by
    intro a ha n hn
    simp [Member.ranks, (hown a ha).1, (hown n hn).1, (hown n hn).2]
  have hranks_emb : ∀ a ∈ own, ∀ n ∈ emb, n.ranks a = false := by
    intro a ha n hn
    have := hemb n hn
    simp only [Member.ranks, (hown a ha).1, Bool.and_eq_false_imp, decide_eq_true_eq]
    intro _
    simp only [Nat.not_lt_zero, decide_False, Bool.false_or, Bool.and_eq_false_imp,
      decide_eq_true_eq]
    intro h0
    omega
  have hown_stay : ∀ a ∈ own,
      decide (((emb ++ own).filter fun n => n.ranks a).length = 1) = true := by
    intro a ha
    have h1 : emb.filter (fun n => n.ranks a) = [] := by
      rw [List.filter_eq_nil_iff]
      intro n hn
      rw [hranks_emb a ha n hn]
      simp
    have h2 : own.filter (fun n => n.ranks a) = [a] := by
      rw [List.filter_congr (hranks_own a ha)]
      exact filter_name_of_nodup own hnd a ha
    simp [List.filter_append, h1, h2]
  have hemb_drop : ∀ n ∈ emb, n.name = m.name →
      decide (((emb ++ own).filter fun k => k.ranks n).length = 1) = false := by
    intro n hn hname
    have h1 : 1 ≤ (emb.filter fun k => k.ranks n).length :=
      List.length_pos_of_mem (List.mem_filter.mpr ⟨hn, Member.ranks_self n⟩)
    have hmn : m.ranks n = true := by
      have := hemb n hn
      simp [Member.ranks, hname, (hown m hm).1, this]
    have h2 : 1 ≤ (own.filter fun k => k.ranks n).length :=
      List.length_pos_of_mem (List.mem_filter.mpr ⟨hm, hmn⟩)
    simp only [List.filter_append, List.length_append, decide_eq_false_iff_not]
    omega
  unfold dominant
  rw [List.filter_append, List.filter_append]
  have e1 : (emb.filter fun a => decide (((emb ++ own).filter fun n => n.ranks a).length = 1)).filter
      (fun n => decide (n.name = m.name)) = [] := by
    rw [List.filter_eq_nil_iff]
    intro n hn
    have hn1 := List.mem_filter.mp hn
    simp only [decide_eq_true_eq]
    intro hname
    have := hemb_drop n hn1.1 hname
    rw [this] at hn1
    exact absurd hn1.2 (by simp)
  have e2 : own.filter (fun a => decide (((emb ++ own).filter fun n => n.ranks a).length = 1)) =
      own := List.filter_eq_self.mpr hown_stay
  rw [e1, e2, List.nil_append]
  exact filter_name_of_nodup own hnd m hm

/-- The decoder stores a key that is the name of a field the struct declares itself in
that field. -/
theorem findField_own {σ : Type} (emb own : List (Member σ))
    (hemb : ∀ m ∈ emb, 0 < m.depth) (hown : ∀ m ∈ own, m.depth = 0 ∧ m.tagged = true)
    (hnd : (own.map (·.name)).Nodup) (m : Member σ) (hm : m ∈ own) :
    findField (structFields (emb ++ own)) m.name = some m.toField := by
  have h := find?_of_filter_eq _ m [] _ (dominant_own emb own hemb hown hnd m hm)
  unfold findField structFields
  have : List.find? (fun f => decide (f.name = m.name)) ((dominant (emb ++ own)).map Member.toField)
      = some m.toField := by
    rw [List.find?_map]
    have hc : ((fun f : Field σ => decide (f.name = m.name)) ∘ Member.toField) =
        fun n : Member σ => decide (n.name = m.name) := rfl
    rw [hc, h]
    rfl
  rw [this]

/-- The encoder emits the name of a field the struct declares itself for that field
only. -/
theorem marshalStruct_membersAt {σ : Type} (emb own : List (Member σ))
    (hemb : ∀ m ∈ emb, 0 < m.depth) (hown : ∀ m ∈ own, m.depth = 0 ∧ m.tagged = true)
    (hnd : (own.map (·.name)).Nodup) (m : Member σ) (hm : m ∈ own) (s : σ) :
    (marshalStruct (emb ++ own) s).membersAt m.name = (m.emit s).toList := by
  have h := dominant_own emb own hemb hown hnd m hm
  have key : ∀ l : List (Member σ),
      ((l.filterMap fun n => (n.emit s).map fun v => (n.name, v)).filter
        fun p => decide (p.1 = m.name)).map (·.2) =
      (l.filter fun n => decide (n.name = m.name)).filterMap fun n => n.emit s := by
    intro l
    induction l with
    | nil => rfl
    | cons a l ih =>
      by_cases hn : a.name = m.name
      · cases he : a.emit s with
        | none => simp [List.filterMap_cons, List.filter_cons, he, hn, ih]
        | some v => simp [List.filterMap_cons, List.filter_cons, he, hn, ih]
      · cases he : a.emit s with
        | none => simp [List.filterMap_cons, List.filter_cons, he, hn, ih]
        | some v => simp [List.filterMap_cons, List.filter_cons, he, hn, ih]
  simp only [marshalStruct, Value.membersAt]
  rw [key, h]
  cases he : m.emit s <;> simp [List.filterMap_cons, he]

/-- Decoding an object of one member whose key a field takes is storing the value of
the member in that field. -/
theorem unmarshalStruct_single {σ : Type} (typ : String) (fields : List (Field σ))
    (k : String) (v : Value) (fd : Field σ) (s : σ) (h : findField fields k = some fd) :
    unmarshalStruct typ fields (.obj [(k, v)]) s = fd.store v s := by
  simp only [unmarshalStruct, unmarshalMembers, h]
  cases fd.store v s <;> rfl

theorem lift_depth_pos {σ τ : Type} (get : σ → τ) (set : τ → σ → σ) (l : List (Member τ)) :
    ∀ m ∈ l.map (Member.lift get set), 0 < m.depth := by
  intro m hm
  obtain ⟨n, _, rfl⟩ := List.mem_map.mp hm
  exact Nat.succ_pos _

end json

namespace protocol

theorem ClientCapabilities.own_depth_names (Q : ClientDeclarations) :
    (∀ m ∈ ClientCapabilities.own Q, m.depth = 0 ∧ m.tagged = true) ∧
    ((ClientCapabilities.own Q).map (·.name)).Nodup := by
  constructor
  · intro m hm
    simp only [ClientCapabilities.own, List.mem_cons, List.mem_singleton, List.not_mem_nil,
      or_false] at hm
    rcases hm with rfl | rfl | rfl <;> exact ⟨rfl, rfl⟩
  · simp [ClientCapabilities.own, json.Member.ptr]

theorem InitializeParams.params_own_depth_names (Q : ClientDeclarations) :
    (∀ m ∈ InitializeParams.own Q, m.depth = 0 ∧ m.tagged = true) ∧
    ((InitializeParams.own Q).map (·.name)).Nodup := by
  constructor
  · intro m hm
    simp only [InitializeParams.own, List.mem_cons, List.mem_singleton, List.not_mem_nil,
      or_false] at hm
    subst hm
    exact ⟨rfl, rfl⟩
  · simp [InitializeParams.own, json.Member.val]

/-- A key that `ClientCapabilities` declares itself is stored in the field it declares. -/
theorem ClientCapabilities.findField_outer (Q : ClientDeclarations)
    (m : json.Member (ClientCapabilities Q)) (hm : m ∈ ClientCapabilities.own Q) :
    json.findField (json.structFields (ClientCapabilities.members Q)) m.name = some m.toField :=
  json.findField_own _ _ (json.lift_depth_pos _ _ _) (ClientCapabilities.own_depth_names Q).1
    (ClientCapabilities.own_depth_names Q).2 m hm

theorem InitializeParams.findField_capabilities (Q : ClientDeclarations)
    (m : json.Member (InitializeParams Q)) (hm : m ∈ InitializeParams.own Q) :
    json.findField (json.structFields (InitializeParams.members Q)) m.name = some m.toField :=
  json.findField_own _ _ (json.lift_depth_pos _ _ _) (InitializeParams.params_own_depth_names Q).1
    (InitializeParams.params_own_depth_names Q).2 m hm

/-- Decoding a one-member object whose key `ClientCapabilities` declares itself. -/
theorem ClientCapabilities.unmarshal_outer (Q : ClientDeclarations)
    (m : json.Member (ClientCapabilities Q)) (hm : m ∈ ClientCapabilities.own Q)
    (v : json.Value) (s : ClientCapabilities Q) :
    ClientCapabilities.unmarshal Q (.obj [(m.name, v)]) s = m.store v s :=
  json.unmarshalStruct_single _ _ _ v m.toField s (ClientCapabilities.findField_outer Q m hm)

theorem InitializeParams.unmarshal_capabilities (Q : ClientDeclarations)
    (m : json.Member (InitializeParams Q)) (hm : m ∈ InitializeParams.own Q)
    (v : json.Value) (s : InitializeParams Q) :
    InitializeParams.unmarshal Q (.obj [(m.name, v)]) s = m.store v s :=
  json.unmarshalStruct_single _ _ _ v m.toField s (InitializeParams.findField_capabilities Q m hm)

theorem ClientCapabilities.marshal_outer (Q : ClientDeclarations)
    (m : json.Member (ClientCapabilities Q)) (hm : m ∈ ClientCapabilities.own Q)
    (s : ClientCapabilities Q) :
    (ClientCapabilities.marshal Q s).membersAt m.name = (m.emit s).toList :=
  json.marshalStruct_membersAt _ _ (json.lift_depth_pos _ _ _) (ClientCapabilities.own_depth_names Q).1
    (ClientCapabilities.own_depth_names Q).2 m hm s

theorem InitializeParams.marshal_capabilities (Q : ClientDeclarations)
    (m : json.Member (InitializeParams Q)) (hm : m ∈ InitializeParams.own Q)
    (s : InitializeParams Q) :
    (InitializeParams.marshal Q s).membersAt m.name = (m.emit s).toList :=
  json.marshalStruct_membersAt _ _ (json.lift_depth_pos _ _ _) (InitializeParams.params_own_depth_names Q).1
    (InitializeParams.params_own_depth_names Q).2 m hm s

theorem ClientCapabilities.store_own_base (Q : ClientDeclarations)
    (m : json.Member (ClientCapabilities Q)) (hm : m ∈ ClientCapabilities.own Q)
    (v : json.Value) (s s1 : ClientCapabilities Q) (h : (m.store v s).val? = some s1) :
    s1.toClientCapabilities = s.toClientCapabilities := by
  simp only [ClientCapabilities.own, List.mem_cons, List.mem_singleton, List.not_mem_nil,
    or_false] at hm
  rcases hm with rfl | rfl | rfl <;>
  · simp only [json.Member.ptr, json.Decoded.val?_map, Option.map_eq_some'] at h
    obtain ⟨p, _, rfl⟩ := h
    rfl

end protocol

namespace protocol

/-- C13: decoding the object `workspace: (applyEdit: true, inlayHint: (refreshSupport:
true))` into a zero `ClientCapabilities` gives no error and a value whose embedded 3.16
struct is still zero and whose `Workspace` holds the inlay hint capability only: the
struct `WorkspaceClientCapabilities` of this revision has the keys `inlayHint` and
`inlineValue` and embeds nothing, so `applyEdit` is an unknown key, whatever value it
carries. The sibling `TextDocumentClientCapabilities` embeds the 3.16 struct, and on
the sample declarations the base capability `hover` is read next to `inlayHint`; a
3.16 `workspace` field, a flag in the sample, cannot be decoded: its value is a type
mismatch for the struct of this revision. -/
theorem workspace_base_capability_dropped (Q : ClientDeclarations) :
    (json.structFields WorkspaceClientCapabilities.members).map (·.name) =
      ["inlayHint", "inlineValue"] ∧
    (∀ b : json.Value,
      ClientCapabilities.unmarshal Q
        (.obj [("workspace", .obj [("applyEdit", b),
          ("inlayHint", .obj [("refreshSupport", .bool true)])])]) {} =
      .ok { Workspace := some { InlayHint := some { RefreshSupport := some true } } }) ∧
    (ClientCapabilities.marshal Q
        { Workspace := some { InlayHint := some { RefreshSupport := some true } } }).membersAt
          "workspace" =
      [.obj [("inlayHint", .obj [("refreshSupport", .bool true)])]] ∧
    ClientCapabilities.unmarshal sampleClient
        (.obj [("textDocument", .obj [("hover", .bool true),
          ("inlayHint", .obj [("dynamicRegistration", .bool true)])])]) {} =
      .ok { TextDocument := some ⟨{ Flag := some true }, none, none,
        some { DynamicRegistration := some true }, none⟩ } ∧
    ClientCapabilities.unmarshal sampleClient (.obj [("workspace", .bool true)]) {} =
      .saved { Workspace := some {} } ⟨"bool", "protocol.WorkspaceClientCapabilities"⟩ := by
  have hw : (ClientCapabilities.own Q).get ⟨1, by simp [ClientCapabilities.own]⟩ ∈
      ClientCapabilities.own Q := List.get_mem _ _ _
  refine ⟨rfl, ?_, ?_, rfl, rfl⟩
  · intro b
    exact (ClientCapabilities.unmarshal_outer Q _ hw _ _).trans rfl
  · exact (ClientCapabilities.marshal_outer Q _ hw _).trans rfl

end protocol

namespace json

theorem unmarshalElems_strs (dec : Value → String → Decoded String)
    (hdec : ∀ s, dec (.str s) "" = .ok s) :
    ∀ (l acc : List String),
      unmarshalElems "" dec (l.map .str) acc none = .ok (acc.reverse ++ l) := by
  intro l
  induction l with
  | nil => intro acc; simp [unmarshalElems]
  | cons a l ih =>
    intro acc
    simp only [List.map_cons, unmarshalElems, hdec]
    rw [ih]
    simp

theorem unmarshalPtr_ne_null {α : Type} (zero : α) (dec : Value → α → Decoded α) (v : Value)
    (cur : Option α) (hv : v ≠ .null) :
    unmarshalPtr zero dec v cur = (dec v (cur.getD zero)).map some := by
  cases v <;> first | exact absurd rfl hv | rfl

theorem unmarshalNilable_marshalStrings (typ : String) (dec : Value → String → Decoded String)
    (hdec : ∀ s, dec (.str s) "" = .ok s) (o cur : Option (List String)) :
    unmarshalNilable typ "" dec (marshalStrings o) cur = .ok o := by
  cases o with
  | none => rfl
  | some l =>
    simp only [marshalStrings, unmarshalNilable, unmarshalElems_strs dec hdec l []]
    rfl

end json

namespace protocol

theorem StaleRequestSupportStruct.stale_round_trip (x cur : StaleRequestSupportStruct) :
    StaleRequestSupportStruct.unmarshal (StaleRequestSupportStruct.marshal x) cur = .ok x := by
  obtain ⟨c, r⟩ := x
  have h := json.unmarshalNilable_marshalStrings "[]string" json.unmarshalString (fun _ => rfl) r
  have hd : json.dominant StaleRequestSupportStruct.members = StaleRequestSupportStruct.members :=
    rfl
  simp only [StaleRequestSupportStruct.unmarshal, StaleRequestSupportStruct.marshal,
    json.marshalStruct, json.structFields, hd]
  simp [StaleRequestSupportStruct.members, json.unmarshalStruct, json.unmarshalMembers,
    json.findField, json.Member.val, json.Member.toField, h, json.unmarshalBool,
    json.Decoded.map]

end protocol

namespace protocol

theorem StaleRequestSupportStruct.marshal_ne_null (x : StaleRequestSupportStruct) :
    StaleRequestSupportStruct.marshal x ≠ .null := by
  simp [StaleRequestSupportStruct.marshal, json.marshalStruct]

theorem GeneralClientCapabilities.general_round_trip (Q : ClientDeclarations)
    (hR : ∀ x, Q.RegularExpressionsClientCapabilities.marshal x ≠ .null ∧
      Q.RegularExpressionsClientCapabilities.unmarshal
        (Q.RegularExpressionsClientCapabilities.marshal x)
        Q.RegularExpressionsClientCapabilities.zero = .ok x)
    (hM : ∀ x, Q.MarkdownClientCapabilities.marshal x ≠ .null ∧
      Q.MarkdownClientCapabilities.unmarshal (Q.MarkdownClientCapabilities.marshal x)
        Q.MarkdownClientCapabilities.zero = .ok x)
    (g : GeneralClientCapabilities Q) (hg : g.PositionEncodings ≠ some []) :
    GeneralClientCapabilities.unmarshal Q (GeneralClientCapabilities.marshal Q g) {} = .ok g := by
  obtain ⟨a, b, c, d⟩ := g
  have hd : json.dominant (GeneralClientCapabilities.members Q) =
      GeneralClientCapabilities.members Q := rfl
  have hs : ∀ (k : String) (ks : List String),
      json.unmarshalElems "" (json.unmarshalStringAs "protocol.PositionEncodingKind")
        (json.Value.str k :: ks.map json.Value.str) [] none = .ok (k :: ks) :=
    fun k ks => json.unmarshalElems_strs
      (json.unmarshalStringAs "protocol.PositionEncodingKind") (fun _ => rfl) (k :: ks) []
  simp only [GeneralClientCapabilities.unmarshal, GeneralClientCapabilities.marshal,
    json.marshalStruct, json.structFields, hd]
  rcases a with _ | a <;> rcases b with _ | b <;> rcases c with _ | c <;>
    rcases d with _ | _ | ⟨k, ks⟩ <;>
    first
    | exact absurd rfl hg
    | simp [GeneralClientCapabilities.members, json.unmarshalStruct, json.unmarshalMembers,
        json.findField, json.Member.ptr, json.Member.toField, json.Decoded.map,
        json.omitEmptyStrings, json.unmarshalNilable, hs,
        json.unmarshalPtr_ne_null _ _ _ _ (StaleRequestSupportStruct.marshal_ne_null _),
        StaleRequestSupportStruct.stale_round_trip,
        json.unmarshalPtr_ne_null _ _ _ _ (hR _).1, (hR _).2,
        json.unmarshalPtr_ne_null _ _ _ _ (hM _).1, (hM _).2]

end protocol

namespace protocol

theorem InitializeResult.result_round_trip (P : Declarations) (Q : ClientDeclarations)
    (hS : ∀ x, Q.InitializeResultServerInfo.marshal x ≠ .null ∧
      Q.InitializeResultServerInfo.unmarshal (Q.InitializeResultServerInfo.marshal x)
        Q.InitializeResultServerInfo.zero = .ok x)
    (r : InitializeResult P Q) (c : ServerCapabilities P)
    (hc : ServerCapabilities.UnmarshalJSON {} r.Capabilities.marshal = (c, none)) :
    InitializeResult.unmarshal P Q (InitializeResult.marshal P Q r) {} =
      .ok { r with Capabilities := c } := by
  obtain ⟨caps, si, pe⟩ := r
  have hd : json.dominant (InitializeResult.members P Q) = InitializeResult.members P Q := rfl
  simp only [InitializeResult.unmarshal, InitializeResult.marshal,
    json.marshalStruct, json.structFields, hd]
  simp only [] at hc
  have hstr : ∀ (dec : json.Value → String → json.Decoded String) (cur : Option String)
      (t : String), json.unmarshalPtr "" dec (.str t) cur = (dec (.str t) (cur.getD "")).map some :=
    fun _ _ _ => rfl
  rcases si with _ | si <;> rcases pe with _ | pe <;>
    simp [InitializeResult.members, json.unmarshalStruct, json.unmarshalMembers,
      json.findField, json.Member.ptr, json.Member.toField, json.Decoded.map, hc,
      hstr, json.unmarshalStringAs,
      json.unmarshalPtr_ne_null _ _ _ _ (hS _).1, (hS _).2]

theorem sampleExternal_round_trip (x : sampleExternal.Val) :
    sampleExternal.marshal x ≠ .null ∧
      sampleExternal.unmarshal (sampleExternal.marshal x) sampleExternal.zero = .ok x := by
  obtain ⟨w⟩ := x
  cases w with
  | none => exact ⟨(fun h => by cases h), rfl⟩
  | some b => exact ⟨(fun h => by cases h), rfl⟩

/-- C19: the three position-encoding kinds are the strings `utf-8`, `utf-16` and
`utf-32`, pairwise distinct. Suppose the types the two structs hold behind pointers and
the sources lack are encoded to a non-null value that decodes back to the same value.
Then decoding the encoding of a `GeneralClientCapabilities` that carries position
encodings (the slice is nil or not empty) gives the same value back, the kinds
included; and decoding the encoding of an `InitializeResult` whose capabilities decode
back without error gives back the same server information and the same position
encoding. -/
theorem position_encoding_round_trip (P : Declarations) (Q : ClientDeclarations)
    (hR : ∀ x, Q.RegularExpressionsClientCapabilities.marshal x ≠ .null ∧
      Q.RegularExpressionsClientCapabilities.unmarshal
        (Q.RegularExpressionsClientCapabilities.marshal x)
        Q.RegularExpressionsClientCapabilities.zero = .ok x)
    (hM : ∀ x, Q.MarkdownClientCapabilities.marshal x ≠ .null ∧
      Q.MarkdownClientCapabilities.unmarshal (Q.MarkdownClientCapabilities.marshal x)
        Q.MarkdownClientCapabilities.zero = .ok x)
    (hS : ∀ x, Q.InitializeResultServerInfo.marshal x ≠ .null ∧
      Q.InitializeResultServerInfo.unmarshal (Q.InitializeResultServerInfo.marshal x)
        Q.InitializeResultServerInfo.zero = .ok x) :
    (PositionEncodingKindUTF8 = "utf-8" ∧ PositionEncodingKindUTF16 = "utf-16" ∧
      PositionEncodingKindUTF32 = "utf-32" ∧
      [PositionEncodingKindUTF8, PositionEncodingKindUTF16, PositionEncodingKindUTF32].Nodup) ∧
    (∀ g : GeneralClientCapabilities Q, g.PositionEncodings ≠ some [] →
      GeneralClientCapabilities.unmarshal Q (GeneralClientCapabilities.marshal Q g) {} =
        .ok g) ∧
    (∀ (r : InitializeResult P Q) (c : ServerCapabilities P),
      ServerCapabilities.UnmarshalJSON {} r.Capabilities.marshal = (c, none) →
      InitializeResult.unmarshal P Q (InitializeResult.marshal P Q r) {} =
        .ok { r with Capabilities := c }) :=
  ⟨⟨rfl, rfl, rfl, by decide⟩, fun g hg => GeneralClientCapabilities.general_round_trip Q hR hM g hg,
    fun r c hc => InitializeResult.result_round_trip P Q hS r c hc⟩

/-- C19 on the sample declarations: a client that offers the three kinds, and a
result that picks `utf-8`, decode back from their encodings. -/
theorem position_encoding_round_trip_witness :
    (GeneralClientCapabilities.unmarshal sampleClient
        (.obj [("positionEncodings", .arr [.str "utf-8", .str "utf-16", .str "utf-32"])]) {} =
      .ok { PositionEncodings := some [PositionEncodingKindUTF8, PositionEncodingKindUTF16,
        PositionEncodingKindUTF32] }) ∧
    (InitializeResult.unmarshal sample sampleClient
        (.obj [("capabilities", .obj [("hoverProvider", .bool true)]),
          ("positionEncoding", .str "utf-8")]) {} =
      .ok { Capabilities := { HoverProvider := some (.bool true) },
            PositionEncoding := some PositionEncodingKindUTF8 }) :=
  ⟨(position_encoding_round_trip sample sampleClient sampleExternal_round_trip
      sampleExternal_round_trip sampleExternal_round_trip).2.1
      { PositionEncodings := some [PositionEncodingKindUTF8, PositionEncodingKindUTF16,
        PositionEncodingKindUTF32] } (by simp),
   (position_encoding_round_trip sample sampleClient sampleExternal_round_trip
      sampleExternal_round_trip sampleExternal_round_trip).2.2
      { Capabilities := { HoverProvider := some (.bool true) },
        PositionEncoding := some PositionEncodingKindUTF8 }
      { HoverProvider := some (.bool true) }
      (by simp [ServerCapabilities.marshal, ServerCapabilities.members, json.omitEmpty,
        Dynamic.marshal]; rfl)⟩

end protocol

namespace protocol
open ServerCapabilities

/-- C26: the nine method-name constants of this revision are the stated strings and
pairwise distinct, so among them a lookup by name finds at most one. -/
theorem method_names_distinct :
    methods = ["initialize", "textDocument/prepareTypeHierarchy", "typeHierarchy/supertypes",
      "typeHierarchy/subtypes", "textDocument/inlayHint", "inlayHint/resolve",
      "workspace/inlayHint/refresh", "textDocument/inlineValue",
      "workspace/inlineValue/refresh"] ∧
    methods.Nodup ∧
    ∀ name : protocol316.Method, (methods.filter fun m => decide (m = name)).length ≤ 1 := by
  have hnd : methods.Nodup := by decide
  refine ⟨rfl, hnd, fun name => ?_⟩
  have h := List.nodup_iff_count_le_one.mp hnd name
  rw [List.count_eq_countP, List.countP_eq_length_filter] at h
  have e : (methods.filter fun m => decide (m = name)) = methods.filter (· == name) :=
    List.filter_congr (fun _ _ => rfl)
  rw [e]
  exact h

end protocol

namespace protocol
open ServerCapabilities

theorem bool_first_iff (f : AmbiguousField) :
    f.candidates.head? = some .bool ↔
      f ∉ [AmbiguousField.TextDocumentSync, .SemanticTokensProvider, .DiagnosticProvider] := by
  cases f <;> simp [AmbiguousField.candidates]

theorem trialDecode_null_bool {P : Declarations} (f : AmbiguousField)
    (hf : f.candidates.head? = some .bool) :
    trialDecode (P := P) .null f.candidates none = .ok (.bool false) := by
  cases hc : f.candidates with
  | nil => rw [hc] at hf; cases hf
  | cons c cs =>
    rw [hc] at hf
    simp only [List.head?_cons, Option.some.injEq] at hf
    subst hf
    rfl

theorem set_ne_zero {P : Declarations} (f : AmbiguousField) (d : Dynamic P) :
    f.set (some d) ({} : ServerCapabilities P) ≠ {} := by
  intro h
  have := congrArg f.get h
  rw [get_set_self, get_zero] at this
  cases this

/-- After a call that returns no error, an ambiguous field for which the schema
captured a raw value holds the result of the trial decoder on that value. -/
theorem UnmarshalJSON_get_of_raw {P : Declarations} (f : AmbiguousField)
    (self s1 : ServerCapabilities P) (ms : List (String × json.Value)) (raw : json.Value)
    (hcap : json.captured (value.fields P) f.key ms none = some raw)
    (h : UnmarshalJSON self (.obj ms) = (s1, none)) :
    ∃ d, trialDecode (P := P) raw f.candidates none = .ok d ∧ f.get s1 = some d := by
  rw [UnmarshalJSON_eq] at h
  cases hx : json.Unmarshal (value.unmarshal P) (.obj ms) {} with
  | error e => rw [hx] at h; cases h
  | ok x =>
    rw [hx] at h
    simp only [] at h
    have hraw : f.raw x = some raw := (value_unmarshal_raw f ms x hx).trans hcap
    rcases runBlocks_ok x AmbiguousField.all _ s1 all_nodup h f (mem_all f) with
      ⟨hn, _⟩ | ⟨r, d, hr, hd, hg⟩
    · rw [hraw] at hn; cases hn
    · rw [hraw] at hr
      cases hr
      exact ⟨d, hd, hg⟩

/-- C23: for every ambiguous field whose first candidate is `bool` (all but
`textDocumentSync`, `semanticTokensProvider` and `diagnosticProvider`), decoding the
object that carries `null` under the key of the field returns no error and sets the
field to the boolean `false`, which differs from the result for the empty object; and
after every call without error on an object in which the field captures `null`, the
field holds `false`. For `textDocumentSync` and `diagnosticProvider`, whose first
candidate is a struct declared outside the sources, `null` gives the zero value of that
struct, supposing that `null` leaves a value of the type as it is. -/
theorem null_is_not_absent (P : Declarations)
    (hT : P.unmarshal .TextDocumentSyncOptions .null (P.zero .TextDocumentSyncOptions) =
      .ok (P.zero .TextDocumentSyncOptions))
    (hD : P.unmarshal .DiagnosticOptions .null (P.zero .DiagnosticOptions) =
      .ok (P.zero .DiagnosticOptions)) :
    (∀ f : AmbiguousField,
      f ∉ [AmbiguousField.TextDocumentSync, .SemanticTokensProvider, .DiagnosticProvider] →
      f.candidates.head? = some .bool ∧
      UnmarshalJSON ({} : ServerCapabilities P) (.obj [(f.key, .null)]) =
        (f.set (some (.bool false)) {}, none) ∧
      UnmarshalJSON ({} : ServerCapabilities P) (.obj [(f.key, .null)]) ≠
        UnmarshalJSON ({} : ServerCapabilities P) (.obj []) ∧
      ∀ (self s1 : ServerCapabilities P) (ms : List (String × json.Value)),
        json.captured (value.fields P) f.key ms none = some .null →
        UnmarshalJSON self (.obj ms) = (s1, none) → f.get s1 = some (.bool false)) ∧
    UnmarshalJSON ({} : ServerCapabilities P) (.obj [("textDocumentSync", .null)]) =
      ({ TextDocumentSync := some (.undeclared .TextDocumentSyncOptions
          (P.zero .TextDocumentSyncOptions)) }, none) ∧
    UnmarshalJSON ({} : ServerCapabilities P) (.obj [("diagnosticProvider", .null)]) =
      ({ DiagnosticProvider := some (.undeclared .DiagnosticOptions
          (P.zero .DiagnosticOptions)) }, none) := by
  refine ⟨?_, ?_, ?_⟩
  · intro f hf
    have hb := (bool_first_iff f).mpr hf
    have h1 : UnmarshalJSON ({} : ServerCapabilities P) (.obj [(f.key, .null)]) =
        (f.set (some (.bool false)) {}, none) := by
      rw [UnmarshalJSON_single, block_some, trialDecode_null_bool f hb]
    refine ⟨hb, h1, ?_, ?_⟩
    · rw [h1]
      intro h
      have h2 : UnmarshalJSON ({} : ServerCapabilities P) (.obj []) = ({}, none) := rfl
      rw [h2] at h
      exact set_ne_zero f _ (congrArg Prod.fst h)
    · intro self s1 ms hcap h
      obtain ⟨d, hd, hg⟩ := UnmarshalJSON_get_of_raw f self s1 ms .null hcap h
      rw [trialDecode_null_bool f hb] at hd
      cases hd
      exact hg
  · have := UnmarshalJSON_single (P := P) .TextDocumentSync .null
    rw [block_some] at this
    simp only [AmbiguousField.candidates, trialDecode, Candidate.attempt, json.Unmarshal, hT,
      Except.map] at this
    exact this
  · have := UnmarshalJSON_single (P := P) .DiagnosticProvider .null
    rw [block_some] at this
    simp only [AmbiguousField.candidates, trialDecode, Candidate.attempt, json.Unmarshal, hD,
      Except.map] at this
    exact this

/-- C23 on the sample declarations, at the input the claim names and at
`textDocumentSync`. -/
theorem null_is_not_absent_witness :
    UnmarshalJSON ({} : ServerCapabilities sample) (.obj [("inlayHintProvider", .null)]) =
      ({ InlayHintProvider := some (.bool false) }, none) ∧
    UnmarshalJSON ({} : ServerCapabilities sample) (.obj [("textDocumentSync", .null)]) =
      ({ TextDocumentSync := some (.undeclared .TextDocumentSyncOptions
          ({} : protocol316.WorkDoneProgressOptions)) }, none) :=
  ⟨((null_is_not_absent sample rfl rfl).1 .InlayHintProvider (by decide)).2.1,
   (null_is_not_absent sample rfl rfl).2.1⟩

end protocol

namespace protocol
open ServerCapabilities

/-- C25: the block of `textDocumentSync` tries `TextDocumentSyncOptions` and then
`TextDocumentSyncKind`: a raw value the first type stores (an object) decodes to that
`TextDocumentSyncOptions`, and a raw value the first type does not store and the second
does (an integer in range) decodes to that `TextDocumentSyncKind`. For
`textDocumentSync`, `semanticTokensProvider` and `diagnosticProvider` no candidate is
`bool`, and a JSON boolean that the candidate types, declared outside the sources, do
not store makes `UnmarshalJSON` return a non-nil error, on the one-member object and on
every object in which the field captures the boolean. -/
theorem fields_without_boolean_candidate (P : Declarations) :
    AmbiguousField.candidates .TextDocumentSync =
      [.undeclared .TextDocumentSyncOptions, .undeclared .TextDocumentSyncKind] ∧
    (∀ (raw : json.Value) (o : P.Val .TextDocumentSyncOptions),
      json.Unmarshal (P.unmarshal .TextDocumentSyncOptions) raw
        (P.zero .TextDocumentSyncOptions) = .ok o →
      UnmarshalJSON ({} : ServerCapabilities P) (.obj [("textDocumentSync", raw)]) =
        ({ TextDocumentSync := some (.undeclared .TextDocumentSyncOptions o) }, none)) ∧
    (∀ (raw : json.Value) (e : json.UnmarshalTypeError) (k : P.Val .TextDocumentSyncKind),
      json.Unmarshal (P.unmarshal .TextDocumentSyncOptions) raw
        (P.zero .TextDocumentSyncOptions) = .error e →
      json.Unmarshal (P.unmarshal .TextDocumentSyncKind) raw
        (P.zero .TextDocumentSyncKind) = .ok k →
      UnmarshalJSON ({} : ServerCapabilities P) (.obj [("textDocumentSync", raw)]) =
        ({ TextDocumentSync := some (.undeclared .TextDocumentSyncKind k) }, none)) ∧
    (∀ f ∈ [AmbiguousField.TextDocumentSync, .SemanticTokensProvider, .DiagnosticProvider],
      Candidate.bool ∉ f.candidates ∧
      ∀ b : Bool,
        (∀ t, Candidate.undeclared t ∈ f.candidates →
          ∃ e, json.Unmarshal (P.unmarshal t) (.bool b) (P.zero t) = .error e) →
        (UnmarshalJSON ({} : ServerCapabilities P) (.obj [(f.key, .bool b)])).2 ≠ none ∧
        ∀ (self : ServerCapabilities P) (ms : List (String × json.Value)),
          json.captured (value.fields P) f.key ms none = some (.bool b) →
          (UnmarshalJSON self (.obj ms)).2 ≠ none) := by
  refine ⟨rfl, ?_, ?_, ?_⟩
  · intro raw o ho
    have := UnmarshalJSON_single (P := P) .TextDocumentSync raw
    rw [block_some] at this
    simp only [AmbiguousField.candidates, trialDecode, Candidate.attempt, ho, Except.map] at this
    exact this
  · intro raw e k he hk
    have := UnmarshalJSON_single (P := P) .TextDocumentSync raw
    rw [block_some] at this
    simp only [AmbiguousField.candidates, trialDecode, Candidate.attempt, he, hk,
      Except.map] at this
    exact this
  · intro f hf
    have hnb : Candidate.bool ∉ f.candidates := by
      simp only [List.mem_cons, List.mem_singleton, List.not_mem_nil, or_false] at hf
      rcases hf with rfl | rfl | rfl <;> simp [AmbiguousField.candidates]
    refine ⟨hnb, ?_⟩
    intro b hP
    have hund : ∀ c ∈ f.candidates, ∃ t, c = .undeclared t := by
      intro c hc
      simp only [List.mem_cons, List.mem_singleton, List.not_mem_nil, or_false] at hf
      rcases hf with rfl | rfl | rfl <;>
        simp only [AmbiguousField.candidates, List.mem_cons, List.mem_singleton,
          List.not_mem_nil, or_false] at hc <;>
        rcases hc with rfl | rfl <;> exact ⟨_, rfl⟩
    have hfail : ∃ e, trialDecode (P := P) (.bool b) f.candidates none = .error e := by
      apply trialDecode_all_fail
      intro c hc
      obtain ⟨t, rfl⟩ := hund c hc
      obtain ⟨e, he⟩ := hP t hc
      exact ⟨e, by simp only [Candidate.attempt, he, Except.map]⟩
    refine ⟨(UnmarshalJSON_trial_fails f (.bool b) _ (captured_single f _) hfail).1, ?_⟩
    intro self ms hcap
    rw [UnmarshalJSON_error_indep self {}]
    exact (UnmarshalJSON_trial_fails f (.bool b) ms hcap hfail).1

/-- C25 on the sample declarations: an object and the number 2 under
`textDocumentSync`, and `true` under `semanticTokensProvider`. -/
theorem fields_without_boolean_candidate_witness :
    UnmarshalJSON ({} : ServerCapabilities sample)
        (.obj [("textDocumentSync", .obj [("workDoneProgress", .bool true)])]) =
      ({ TextDocumentSync := some (.undeclared .TextDocumentSyncOptions
          ({ WorkDoneProgress := some true } : protocol316.WorkDoneProgressOptions)) }, none) ∧
    UnmarshalJSON ({} : ServerCapabilities sample) (.obj [("textDocumentSync", .int 2)]) =
      ({ TextDocumentSync := some (.undeclared .TextDocumentSyncKind (2 : Int)) }, none) ∧
    (UnmarshalJSON ({} : ServerCapabilities sample)
      (.obj [("semanticTokensProvider", .bool true)])).2 ≠ none :=
  ⟨(fields_without_boolean_candidate sample).2.1 (.obj [("workDoneProgress", .bool true)])
      ({ WorkDoneProgress := some true } : protocol316.WorkDoneProgressOptions) rfl,
   (fields_without_boolean_candidate sample).2.2.1 (.int 2) _ (2 : Int) rfl rfl,
   (((fields_without_boolean_candidate sample).2.2.2 .SemanticTokensProvider (by decide)).2 true
      (by
        intro t ht
        simp only [AmbiguousField.candidates, List.mem_cons, Candidate.undeclared.injEq,
          List.mem_singleton, List.not_mem_nil, or_false] at ht
        rcases ht with rfl | rfl <;> exact ⟨_, rfl⟩)).1⟩

end protocol

namespace json

theorem unmarshalMembers_err_cause {σ : Type} (fields : List (Field σ)) :
    ∀ (ms : List (String × Value)) (s : σ),
      (unmarshalMembers fields ms s none).err ≠ none →
      ∃ k v fd s1, (k, v) ∈ ms ∧ findField fields k = some fd ∧ (fd.store v s1).err ≠ none := by
  intro ms
  induction ms with
  | nil => intro s h; exact absurd rfl h
  | cons m rest ih =>
    intro s h
    obtain ⟨k, v⟩ := m
    simp only [unmarshalMembers] at h
    cases hfd : findField fields k with
    | none =>
      rw [hfd] at h
      obtain ⟨k1, v1, fd1, s1, hm, hf, he⟩ := ih s h
      exact ⟨k1, v1, fd1, s1, List.mem_cons_of_mem _ hm, hf, he⟩
    | some fd =>
      rw [hfd] at h
      simp only [] at h
      cases hst : fd.store v s with
      | ok s1 =>
        rw [hst] at h
        obtain ⟨k1, v1, fd1, s2, hm, hf, he⟩ := ih s1 h
        exact ⟨k1, v1, fd1, s2, List.mem_cons_of_mem _ hm, hf, he⟩
      | saved s1 e =>
        exact ⟨k, v, fd, s, List.mem_cons_self _ _, hfd, by rw [hst]; exact fun h => by cases h⟩
      | abort e =>
        exact ⟨k, v, fd, s, List.mem_cons_self _ _, hfd, by rw [hst]; exact fun h => by cases h⟩

theorem err_of_Unmarshal_error {α : Type} {decode : Value → α → Decoded α} {data : Value}
    {z : α} {e : UnmarshalTypeError} (h : Unmarshal decode data z = .error e) :
    (decode data z).err ≠ none := by
  unfold Unmarshal at h
  cases hd : decode data z with
  | ok x => rw [hd] at h; cases h
  | saved x e1 => exact fun h1 => by cases h1
  | abort e1 => exact fun h1 => by cases h1

theorem ptr_bool_err_inv {σ : Type} (v : Value) (cur : Option Bool) (g : Option Bool → σ)
    (h : ((unmarshalPtr false unmarshalBool v cur).map g).err ≠ none) :
    kind v ≠ "bool" ∧ kind v ≠ "null" := by
  cases v with
  | null => exact absurd rfl h
  | bool b => exact absurd rfl h
  | int n => exact ⟨by simp [kind], by simp [kind]⟩
  | float l => exact ⟨by simp [kind], by simp [kind]⟩
  | str t => exact ⟨by simp [kind], by simp [kind]⟩
  | arr xs => exact ⟨by simp [kind], by simp [kind]⟩
  | obj os => exact ⟨by simp [kind], by simp [kind]⟩

/-- When every member that one struct type does not store is not stored by a second
struct type either, a raw value the first decode fails on makes the second fail. -/
theorem struct_err_transfer {σ τ : Type} (typ1 typ2 : String) (F1 : List (Field σ))
    (F2 : List (Field τ)) (raw : Value) (c1 : σ) (c2 : τ)
    (h : ∀ k v fd s, findField F1 k = some fd → (fd.store v s).err ≠ none →
      ∃ fd2, findField F2 k = some fd2 ∧ ∀ s2, (fd2.store v s2).err ≠ none)
    (herr : (unmarshalStruct typ1 F1 raw c1).err ≠ none) :
    (unmarshalStruct typ2 F2 raw c2).err ≠ none := by
  cases raw with
  | null => exact absurd rfl herr
  | bool b => exact fun h1 => by cases h1
  | int n => exact fun h1 => by cases h1
  | float l => exact fun h1 => by cases h1
  | str t => exact fun h1 => by cases h1
  | arr xs => exact fun h1 => by cases h1
  | obj ms =>
    obtain ⟨k, v, fd, s1, hm, hf, he⟩ := unmarshalMembers_err_cause F1 ms c1 herr
    obtain ⟨fd2, hf2, he2⟩ := h k v fd s1 hf he
    exact unmarshalMembers_err_of_member F2 ms k v fd2 hm hf2 he2 c2 none

end json

namespace protocol
open ServerCapabilities

/-- After a call that returns no error an ambiguous field holds what the receiver held
or the result of the trial decoder on some raw value. -/
theorem UnmarshalJSON_get_cases {P : Declarations} (f : AmbiguousField)
    (self s1 : ServerCapabilities P) (data : json.Value)
    (h : UnmarshalJSON self data = (s1, none)) :
    f.get s1 = f.get self ∨
      ∃ raw d, trialDecode (P := P) raw f.candidates none = .ok d ∧ f.get s1 = some d := by
  rw [UnmarshalJSON_eq] at h
  cases hx : json.Unmarshal (value.unmarshal P) data {} with
  | error e => rw [hx] at h; cases h
  | ok x =>
    rw [hx] at h
    simp only [] at h
    rcases runBlocks_ok x AmbiguousField.all _ s1 all_nodup h f (mem_all f) with
      ⟨_, hg⟩ | ⟨r, d, _, hd, hg⟩
    · exact Or.inl (hg.trans (get_copyPlain f x self))
    · exact Or.inr ⟨r, d, hd, hg⟩

theorem bool_attempt_ok {P : Declarations} (raw : json.Value) (d : Dynamic P)
    (h : Candidate.attempt (P := P) .bool raw = .ok d) : ∃ b, d = .bool b := by
  simp only [Candidate.attempt] at h
  cases hu : json.Unmarshal json.unmarshalBool raw false with
  | error e => rw [hu] at h; cases h
  | ok b => rw [hu] at h; cases h; exact ⟨b, rfl⟩

theorem typeHierarchy_reg_fails {P : Declarations} (raw : json.Value)
    (e : json.UnmarshalTypeError)
    (h : Candidate.attempt (P := P) .TypeHierarchyOptions raw = .error e) :
    ∃ e1, Candidate.attempt (P := P) .TypeHierarchyRegistrationOptions raw = .error e1 := by
  simp only [Candidate.attempt] at h ⊢
  cases hu : json.Unmarshal TypeHierarchyOptions.unmarshal raw {} with
  | ok o => rw [hu] at h; cases h
  | error e0 =>
    have herr := json.err_of_Unmarshal_error hu
    have h2 : (TypeHierarchyRegistrationOptions.unmarshal raw {}).err ≠ none := by
      refine json.struct_err_transfer _ _ TypeHierarchyOptions.fields
        TypeHierarchyRegistrationOptions.fields raw _ _ ?_ herr
      intro k v fd s hf he
      have hfd := json.findField_mem hf
      have hk := json.findField_name hf
      simp only [TypeHierarchyOptions.fields, List.mem_cons, List.mem_singleton,
        List.not_mem_nil, or_false] at hfd
      subst hfd
      have hv := json.ptr_bool_err_inv v _ _ he
      obtain ⟨fd2, hfd2, hf2, hfold⟩ := json.findField_fold
        TypeHierarchyRegistrationOptions.fields k "workDoneProgress"
        (by simp [TypeHierarchyRegistrationOptions.fields]) hk.symm
      refine ⟨fd2, hf2, ?_⟩
      simp only [TypeHierarchyRegistrationOptions.fields, List.mem_cons, List.mem_singleton,
        List.not_mem_nil, or_false] at hfd2
      rcases hfd2 with rfl | rfl | rfl | rfl
      all_goals first
        | exact absurd hfold (by decide)
        | exact fun s2 => json.ptr_bool_err v hv _ _
    obtain ⟨e1, he1⟩ := json.Unmarshal_error_of_err h2
    exact ⟨e1, by rw [he1]; rfl⟩

theorem inlineValue_reg_fails {P : Declarations} (raw : json.Value)
    (e : json.UnmarshalTypeError)
    (h : Candidate.attempt (P := P) .InlineValueOptions raw = .error e) :
    ∃ e1, Candidate.attempt (P := P) .InlineValueRegistrationOptions raw = .error e1 := by
  simp only [Candidate.attempt] at h ⊢
  cases hu : json.Unmarshal InlineValueOptions.unmarshal raw {} with
  | ok o => rw [hu] at h; cases h
  | error e0 =>
    have herr := json.err_of_Unmarshal_error hu
    have h2 : (InlineValueRegistrationOptions.unmarshal raw {}).err ≠ none := by
      refine json.struct_err_transfer _ _ InlineValueOptions.fields
        InlineValueRegistrationOptions.fields raw _ _ ?_ herr
      intro k v fd s hf he
      have hfd := json.findField_mem hf
      have hk := json.findField_name hf
      simp only [InlineValueOptions.fields, List.mem_cons, List.mem_singleton,
        List.not_mem_nil, or_false] at hfd
      subst hfd
      have hv := json.ptr_bool_err_inv v _ _ he
      obtain ⟨fd2, hfd2, hf2, hfold⟩ := json.findField_fold
        InlineValueRegistrationOptions.fields k "workDoneProgress"
        (by simp [InlineValueRegistrationOptions.fields]) hk.symm
      refine ⟨fd2, hf2, ?_⟩
      simp only [InlineValueRegistrationOptions.fields, List.mem_cons, List.mem_singleton,
        List.not_mem_nil, or_false] at hfd2
      rcases hfd2 with rfl | rfl | rfl | rfl
      all_goals first
        | exact absurd hfold (by decide)
        | exact fun s2 => json.ptr_bool_err v hv _ _
    obtain ⟨e1, he1⟩ := json.Unmarshal_error_of_err h2
    exact ⟨e1, by rw [he1]; rfl⟩

theorem inlayHint_reg_fails {P : Declarations} (raw : json.Value)
    (e : json.UnmarshalTypeError)
    (h : Candidate.attempt (P := P) .InlayHintOptions raw = .error e) :
    ∃ e1, Candidate.attempt (P := P) .InlayHintRegistrationOptions raw = .error e1 := by
  simp only [Candidate.attempt] at h ⊢
  cases hu : json.Unmarshal InlayHintOptions.unmarshal raw {} with
  | ok o => rw [hu] at h; cases h
  | error e0 =>
    have herr := json.err_of_Unmarshal_error hu
    have h2 : (InlayHintRegistrationOptions.unmarshal raw {}).err ≠ none := by
      refine json.struct_err_transfer _ _ InlayHintOptions.fields
        InlayHintRegistrationOptions.fields raw _ _ ?_ herr
      intro k v fd s hf he
      have hfd := json.findField_mem hf
      have hk := json.findField_name hf
      simp only [InlayHintOptions.fields, List.mem_cons, List.mem_singleton,
        List.not_mem_nil, or_false] at hfd
      rcases hfd with rfl | rfl
      · have hv := json.ptr_bool_err_inv v _ _ he
        obtain ⟨fd2, hfd2, hf2, hfold⟩ := json.findField_fold
          InlayHintRegistrationOptions.fields k "workDoneProgress"
          (by simp [InlayHintRegistrationOptions.fields]) hk.symm
        refine ⟨fd2, hf2, ?_⟩
        simp only [InlayHintRegistrationOptions.fields, List.mem_cons, List.mem_singleton,
          List.not_mem_nil, or_false] at hfd2
        rcases hfd2 with rfl | rfl | rfl | rfl
        all_goals first
          | exact absurd hfold (by decide)
          | exact fun s2 => json.ptr_bool_err v hv _ _
      · have hv := json.ptr_bool_err_inv v _ _ he
        obtain ⟨fd2, hfd2, hf2, hfold⟩ := json.findField_fold
          InlayHintRegistrationOptions.fields k "resolveProvider"
          (by simp [InlayHintRegistrationOptions.fields]) hk.symm
        refine ⟨fd2, hf2, ?_⟩
        simp only [InlayHintRegistrationOptions.fields, List.mem_cons, List.mem_singleton,
          List.not_mem_nil, or_false] at hfd2
        rcases hfd2 with rfl | rfl | rfl | rfl
        all_goals first
          | exact absurd hfold (by decide)
          | exact fun s2 => json.ptr_bool_err v hv _ _
    obtain ⟨e1, he1⟩ := json.Unmarshal_error_of_err h2
    exact ⟨e1, by rw [he1]; rfl⟩

/-- The result of the trial decoder on the candidates `bool`, options, registration
options, when the registration options fail wherever the options fail: a boolean or
the result of the options candidate. -/
theorem trialDecode_three {P : Declarations} (raw : json.Value) (opt reg : Candidate)
    (d : Dynamic P)
    (hreg : ∀ e, opt.attempt (P := P) raw = .error e → ∃ e1, reg.attempt (P := P) raw = .error e1)
    (h : trialDecode (P := P) raw [.bool, opt, reg] none = .ok d) :
    (∃ b, d = .bool b) ∨ opt.attempt (P := P) raw = .ok d := by
  simp only [trialDecode] at h
  cases hb : Candidate.attempt (P := P) .bool raw with
  | ok d1 =>
    rw [hb] at h
    cases h
    exact Or.inl (bool_attempt_ok raw d hb)
  | error e0 =>
    rw [hb] at h
    simp only [] at h
    cases ho : opt.attempt (P := P) raw with
    | ok d1 => rw [ho] at h; cases h; exact Or.inr rfl
    | error e1 =>
      rw [ho] at h
      simp only [] at h
      obtain ⟨e2, he2⟩ := hreg e1 ho
      rw [he2] at h
      cases h

theorem options_attempt_ok {P : Declarations} (raw : json.Value) (d : Dynamic P) :
    (Candidate.attempt (P := P) .TypeHierarchyOptions raw = .ok d →
      ∃ o, d = .TypeHierarchyOptions o) ∧
    (Candidate.attempt (P := P) .InlayHintOptions raw = .ok d → ∃ o, d = .InlayHintOptions o) ∧
    (Candidate.attempt (P := P) .InlineValueOptions raw = .ok d →
      ∃ o, d = .InlineValueOptions o) := by
  refine ⟨?_, ?_, ?_⟩
  · intro h
    simp only [Candidate.attempt] at h
    cases hu : json.Unmarshal TypeHierarchyOptions.unmarshal raw {} with
    | error e => rw [hu] at h; cases h
    | ok o => rw [hu] at h; cases h; exact ⟨o, rfl⟩
  · intro h
    simp only [Candidate.attempt] at h
    cases hu : json.Unmarshal InlayHintOptions.unmarshal raw {} with
    | error e => rw [hu] at h; cases h
    | ok o => rw [hu] at h; cases h; exact ⟨o, rfl⟩
  · intro h
    simp only [Candidate.attempt] at h
    cases hu : json.Unmarshal InlineValueOptions.unmarshal raw {} with
    | error e => rw [hu] at h; cases h
    | ok o => rw [hu] at h; cases h; exact ⟨o, rfl⟩

/-- C22: after a call of `UnmarshalJSON` on a zero receiver that returns no error,
`TypeHierarchyProvider` is nil, a boolean or a `TypeHierarchyOptions` and never a
`TypeHierarchyRegistrationOptions`, and likewise `InlayHintProvider` and
`InlineValueProvider`; for every raw value on which the options candidate fails, the
registration options candidate, tried after it, fails as well. -/
theorem third_candidate_unreachable (P : Declarations) (data : json.Value)
    (s1 : ServerCapabilities P) (h : UnmarshalJSON ({} : ServerCapabilities P) data = (s1, none)) :
    ((s1.TypeHierarchyProvider = none ∨ (∃ b, s1.TypeHierarchyProvider = some (.bool b)) ∨
        ∃ o, s1.TypeHierarchyProvider = some (.TypeHierarchyOptions o)) ∧
      ∀ r, s1.TypeHierarchyProvider ≠ some (.TypeHierarchyRegistrationOptions r)) ∧
    ((s1.InlayHintProvider = none ∨ (∃ b, s1.InlayHintProvider = some (.bool b)) ∨
        ∃ o, s1.InlayHintProvider = some (.InlayHintOptions o)) ∧
      ∀ r, s1.InlayHintProvider ≠ some (.InlayHintRegistrationOptions r)) ∧
    ((s1.InlineValueProvider = none ∨ (∃ b, s1.InlineValueProvider = some (.bool b)) ∨
        ∃ o, s1.InlineValueProvider = some (.InlineValueOptions o)) ∧
      ∀ r, s1.InlineValueProvider ≠ some (.InlineValueRegistrationOptions r)) ∧
    ∀ (raw : json.Value) (e : json.UnmarshalTypeError),
      (Candidate.attempt (P := P) .TypeHierarchyOptions raw = .error e →
        ∃ e1, Candidate.attempt (P := P) .TypeHierarchyRegistrationOptions raw = .error e1) ∧
      (Candidate.attempt (P := P) .InlayHintOptions raw = .error e →
        ∃ e1, Candidate.attempt (P := P) .InlayHintRegistrationOptions raw = .error e1) ∧
      (Candidate.attempt (P := P) .InlineValueOptions raw = .error e →
        ∃ e1, Candidate.attempt (P := P) .InlineValueRegistrationOptions raw = .error e1) := by
  have hT : s1.TypeHierarchyProvider = none ∨ (∃ b, s1.TypeHierarchyProvider = some (.bool b)) ∨
      ∃ o, s1.TypeHierarchyProvider = some (.TypeHierarchyOptions o) := by
    rcases UnmarshalJSON_get_cases .TypeHierarchyProvider {} s1 data h with hg | ⟨raw, d, hd, hg⟩
    · exact Or.inl hg
    · rcases trialDecode_three raw _ _ d (fun e he => typeHierarchy_reg_fails raw e he) hd with
        ⟨b, rfl⟩ | ho
      · exact Or.inr (Or.inl ⟨b, hg⟩)
      · obtain ⟨o, rfl⟩ := (options_attempt_ok raw d).1 ho
        exact Or.inr (Or.inr ⟨o, hg⟩)
  have hI : s1.InlayHintProvider = none ∨ (∃ b, s1.InlayHintProvider = some (.bool b)) ∨
      ∃ o, s1.InlayHintProvider = some (.InlayHintOptions o) := by
    rcases UnmarshalJSON_get_cases .InlayHintProvider {} s1 data h with hg | ⟨raw, d, hd, hg⟩
    · exact Or.inl hg
    · rcases trialDecode_three raw _ _ d (fun e he => inlayHint_reg_fails raw e he) hd with
        ⟨b, rfl⟩ | ho
      · exact Or.inr (Or.inl ⟨b, hg⟩)
      · obtain ⟨o, rfl⟩ := (options_attempt_ok raw d).2.1 ho
        exact Or.inr (Or.inr ⟨o, hg⟩)
  have hV : s1.InlineValueProvider = none ∨ (∃ b, s1.InlineValueProvider = some (.bool b)) ∨
      ∃ o, s1.InlineValueProvider = some (.InlineValueOptions o) := by
    rcases UnmarshalJSON_get_cases .InlineValueProvider {} s1 data h with hg | ⟨raw, d, hd, hg⟩
    · exact Or.inl hg
    · rcases trialDecode_three raw _ _ d (fun e he => inlineValue_reg_fails raw e he) hd with
        ⟨b, rfl⟩ | ho
      · exact Or.inr (Or.inl ⟨b, hg⟩)
      · obtain ⟨o, rfl⟩ := (options_attempt_ok raw d).2.2 ho
        exact Or.inr (Or.inr ⟨o, hg⟩)
  refine ⟨⟨hT, ?_⟩, ⟨hI, ?_⟩, ⟨hV, ?_⟩, fun raw e =>
    ⟨typeHierarchy_reg_fails raw e, inlayHint_reg_fails raw e, inlineValue_reg_fails raw e⟩⟩
  · intro r hr
    rcases hT with h0 | ⟨b, h0⟩ | ⟨o, h0⟩ <;> rw [h0] at hr <;> cases hr
  · intro r hr
    rcases hI with h0 | ⟨b, h0⟩ | ⟨o, h0⟩ <;> rw [h0] at hr <;> cases hr
  · intro r hr
    rcases hV with h0 | ⟨b, h0⟩ | ⟨o, h0⟩ <;> rw [h0] at hr <;> cases hr

/-- C22 at a concrete input: an object with the keys of the registration options
decodes, and the field holds an options value. -/
theorem third_candidate_unreachable_witness :
    UnmarshalJSON ({} : ServerCapabilities sample)
        (.obj [("inlayHintProvider", .obj [("id", .str "x"), ("resolveProvider", .bool true)])]) =
      ({ InlayHintProvider := some (.InlayHintOptions { ResolveProvider := some true }) }, none) ∧
    ∀ r, (UnmarshalJSON ({} : ServerCapabilities sample)
        (.obj [("inlayHintProvider", .obj [("id", .str "x"),
          ("resolveProvider", .bool true)])])).1.InlayHintProvider ≠
      some (.InlayHintRegistrationOptions r) :=
  ⟨rfl, (third_candidate_unreachable sample
    (.obj [("inlayHintProvider", .obj [("id", .str "x"), ("resolveProvider", .bool true)])])
    _ rfl).2.1.2⟩

end protocol

namespace json

theorem Decoded.map_map {α β γ : Type} (f : α → β) (g : β → γ) (d : Decoded α) :
    (d.map f).map g = d.map (fun a => g (f a)) := by
  cases d <;> rfl

theorem Decoded.map_id_of {α : Type} (f : α → α) (h : ∀ a, f a = a) (d : Decoded α) :
    d.map f = d := by
  cases d <;> simp [Decoded.map, h]

theorem unmarshalMembers_not_ok_of_saved {σ : Type} (fields : List (Field σ))
    (ms : List (String × Value)) (s s1 : σ) (e : UnmarshalTypeError) :
    unmarshalMembers fields ms s (some e) ≠ .ok s1 := by
  intro h
  have := unmarshalMembers_err_of_saved fields ms s e
  rw [h] at this
  exact this rfl

/-- A field `get` of the struct value after a decode without error is the one a decode
of the members selected by `p` alone gives, when the fields that take the other
members leave `get` as it is and the fields that take the selected members store
through `get` only. -/
theorem unmarshalMembers_filter_key {σ α : Type} (fields : List (Field σ)) (get : σ → α)
    (p : String → Bool)
    (hother : ∀ k fd, findField fields k = some fd → p k = false →
      ∀ v s s1, fd.store v s = .ok s1 → get s1 = get s)
    (hkey : ∀ k fd, findField fields k = some fd → p k = true →
      ∀ v s t s1, get s = get t → fd.store v s = .ok s1 →
        ∃ t1, fd.store v t = .ok t1 ∧ get t1 = get s1) :
    ∀ (ms : List (String × Value)) (s t s1 : σ), get s = get t →
      unmarshalMembers fields ms s none = .ok s1 →
      ∃ t1, unmarshalMembers fields (ms.filter fun m => p m.1) t none = .ok t1 ∧
        get t1 = get s1 := by
  intro ms
  induction ms with
  | nil =>
    intro s t s1 hst h
    simp only [unmarshalMembers, Decoded.ok.injEq] at h
    subst h
    exact ⟨t, rfl, hst.symm⟩
  | cons m rest ih =>
    intro s t s1 hst h
    obtain ⟨k, v⟩ := m
    simp only [unmarshalMembers] at h
    cases hfd : findField fields k with
    | none =>
      rw [hfd] at h
      simp only [] at h
      cases hp : p k with
      | false =>
        simp only [List.filter_cons, hp, Bool.false_eq_true, if_false]
        exact ih s t s1 hst h
      | true =>
        simp only [List.filter_cons, hp, if_true, unmarshalMembers, hfd]
        exact ih s t s1 hst h
    | some fd =>
      rw [hfd] at h
      simp only [] at h
      cases hs : fd.store v s with
      | saved s2 e =>
        rw [hs] at h
        exact absurd h (unmarshalMembers_not_ok_of_saved fields rest s2 s1 e)
      | abort e => rw [hs] at h; cases h
      | ok s2 =>
        rw [hs] at h
        simp only [] at h
        cases hp : p k with
        | false =>
          simp only [List.filter_cons, hp, Bool.false_eq_true, if_false]
          exact ih s2 t s1 ((hother k fd hfd hp v s s2 hs).trans hst) h
        | true =>
          obtain ⟨t1, ht1, hg⟩ := hkey k fd hfd hp v s t s2 hst hs
          simp only [List.filter_cons, hp, if_true, unmarshalMembers, hfd, ht1]
          exact ih s2 t1 s1 hg.symm h

/-- A field `get` keeps its value through a decode in which no member is taken by a
field named `n`, when the other fields leave `get` as it is. -/
theorem unmarshalMembers_frame {σ α : Type} (fields : List (Field σ)) (n : String)
    (get : σ → α)
    (hstore : ∀ fd ∈ fields, fd.name ≠ n → ∀ v s s1, (fd.store v s).val? = some s1 →
      get s1 = get s) :
    ∀ (ms : List (String × Value)) (s : σ) (sv : Option UnmarshalTypeError) (s1 : σ),
      (∀ m ∈ ms, foldName m.1 ≠ foldName n) →
      (unmarshalMembers fields ms s sv).val? = some s1 → get s1 = get s := by
  intro ms
  induction ms with
  | nil =>
    intro s sv s1 _ h
    cases sv <;> simp only [unmarshalMembers, Decoded.val?, Option.some.injEq] at h <;>
      rw [h]
  | cons m rest ih =>
    intro s sv s1 hms h
    obtain ⟨k, v⟩ := m
    have hk : foldName k ≠ foldName n := hms (k, v) (List.mem_cons_self _ _)
    have hrest : ∀ m ∈ rest, foldName m.1 ≠ foldName n :=
      fun m hm => hms m (List.mem_cons_of_mem _ hm)
    simp only [unmarshalMembers] at h
    cases hfd : findField fields k with
    | none => rw [hfd] at h; exact ih s sv s1 hrest h
    | some fd =>
      rw [hfd] at h
      simp only [] at h
      have hn : fd.name ≠ n := fun hn => hk (by rw [← hn]; exact (findField_name hfd).symm)
      cases hs : fd.store v s with
      | ok s2 =>
        rw [hs] at h
        exact (ih s2 sv s1 hrest h).trans
          (hstore fd (findField_mem hfd) hn v s s2 (by rw [hs]; rfl))
      | saved s2 e =>
        rw [hs] at h
        exact (ih s2 _ s1 hrest h).trans
          (hstore fd (findField_mem hfd) hn v s s2 (by rw [hs]; rfl))
      | abort e => rw [hs] at h; cases h

end json

namespace protocol
open ServerCapabilities

theorem value_store_plain_frame {P : Declarations} (pf : PlainField) :
    ∀ fd ∈ value.fields P, fd.name ≠ pf.key → ∀ v s s1, (fd.store v s).val? = some s1 →
      pf.value s1 = pf.value s := by
  intro fd hmem
  simp only [value.fields, List.mem_cons, List.mem_singleton, List.not_mem_nil, or_false] at hmem
  rcases hmem with h | h | h | h | h | h | h | h | h | h | h | h | h | h | h | h | h | h | h | h |
    h | h | h | h | h | h | h | h | h | h | h | h | h <;> subst h <;> cases pf <;>
    first
    | (intro hn; exact absurd rfl hn)
    | (intro _ v s s1 h; cases h; rfl)
    | (intro _ v s s1 h
       rw [json.Decoded.val?_map, Option.map_eq_some'] at h
       obtain ⟨p, -, rfl⟩ := h
       rfl)

theorem value_store_plain_map {P : Declarations} (pf : PlainField) :
    ∀ fd ∈ value.fields P, fd.name = pf.key → ∀ v s,
      (fd.store v s).map pf.value =
        json.unmarshalPtr (P.zero pf.type) (P.unmarshal pf.type) v (pf.value s) := by
  intro fd hmem
  simp only [value.fields, List.mem_cons, List.mem_singleton, List.not_mem_nil, or_false] at hmem
  rcases hmem with h | h | h | h | h | h | h | h | h | h | h | h | h | h | h | h | h | h | h | h |
    h | h | h | h | h | h | h | h | h | h | h | h | h <;> subst h <;> cases pf <;>
    first
    | (intro _ v s
       exact (json.Decoded.map_map _ _ _).trans (json.Decoded.map_id_of _ (fun _ => rfl) _))
    | (intro hn; simp [PlainField.key] at hn)

end protocol

namespace protocol
open ServerCapabilities

theorem value_fields_names (P : Declarations) :
    (value.fields P).map (·.name) =
      ["textDocumentSync", "completionProvider", "hoverProvider", "signatureHelpProvider",
       "declarationProvider", "definitionProvider", "typeDefinitionProvider",
       "implementationProvider", "referencesProvider", "documentHighlightProvider",
       "documentSymbolProvider", "codeActionProvider", "codeLensProvider",
       "documentLinkProvider", "colorProvider", "documentFormattingProvider",
       "documentRangeFormattingProvider", "documentOnTypeFormattingProvider",
       "renameProvider", "foldingRangeProvider", "executeCommandProvider",
       "selectionRangeProvider", "linkedEditingRangeProvider", "callHierarchyProvider",
       "semanticTokensProvider", "monikerProvider", "workspaceSymbolProvider", "workspace",
       "experimental", "diagnosticProvider", "typeHierarchyProvider", "inlayHintProvider",
       "inlineValueProvider"] := rfl

theorem value_fields_fold_nodup (P : Declarations) :
    (((value.fields P).map (·.name)).map json.foldName).Nodup := by
  rw [value_fields_names]
  decide

theorem ambiguous_key_mem (P : Declarations) (f : AmbiguousField) :
    f.key ∈ (value.fields P).map (·.name) := by
  rw [value_fields_names]
  cases f <;> simp [AmbiguousField.key]

theorem plain_key_mem (P : Declarations) (pf : PlainField) :
    pf.key ∈ (value.fields P).map (·.name) := by
  rw [value_fields_names]
  cases pf <;> simp [PlainField.key]

/-- A field of the schema whose name matches a key of the schema case-insensitively
is the field of that key. -/
theorem value_fields_fold_inj {P : Declarations} (fd : json.Field (value P)) (key : String)
    (hfd : fd ∈ value.fields P) (hkey : key ∈ (value.fields P).map (·.name))
    (h : json.foldName fd.name = json.foldName key) : fd.name = key :=
  List.inj_on_of_nodup_map (value_fields_fold_nodup P) (List.mem_map_of_mem _ hfd) hkey h

theorem value_Unmarshal_obj {P : Declarations} (ms : List (String × json.Value)) (x : value P)
    (h : json.Unmarshal (value.unmarshal P) (.obj ms) {} = .ok x) :
    json.unmarshalMembers (value.fields P) ms {} none = .ok x := by
  have h1 : json.Unmarshal (fun _ _ => json.unmarshalMembers (value.fields P) ms {} none)
      json.Value.null ({} : value P) = .ok x := h
  unfold json.Unmarshal at h1
  cases hd : json.unmarshalMembers (value.fields P) ms {} none with
  | ok y => rw [hd] at h1; cases h1; rfl
  | saved y e => rw [hd] at h1; cases h1
  | abort e => rw [hd] at h1; cases h1

/-- A call of `UnmarshalJSON` that returns no error decoded the schema without error. -/
theorem UnmarshalJSON_schema_ok {P : Declarations} (self s1 : ServerCapabilities P)
    (data : json.Value) (h : UnmarshalJSON self data = (s1, none)) :
    ∃ x, json.Unmarshal (value.unmarshal P) data {} = .ok x ∧
      runBlocks (AmbiguousField.all.map fun f => f.block (f.raw x)) (copyPlain x self) =
        (s1, none) := by
  rw [UnmarshalJSON_eq] at h
  cases hx : json.Unmarshal (value.unmarshal P) data {} with
  | error e => rw [hx] at h; cases h
  | ok x => rw [hx] at h; exact ⟨x, rfl, h⟩

theorem value_filter_raw {P : Declarations} (f : AmbiguousField)
    (ms : List (String × json.Value)) (x : value P)
    (h : json.unmarshalMembers (value.fields P) ms {} none = .ok x) :
    ∃ t, json.unmarshalMembers (value.fields P)
        (ms.filter fun m => decide (json.foldName m.1 = json.foldName f.key)) {} none = .ok t ∧
      f.raw t = f.raw x := by
  refine json.unmarshalMembers_filter_key (value.fields P) f.raw
    (fun k => decide (json.foldName k = json.foldName f.key)) ?_ ?_ ms {} {} x rfl h
  · intro k fd hfd hp v s s1 hs
    have hne : fd.name ≠ f.key := by
      intro hn
      have := json.findField_name hfd
      rw [hn] at this
      simp only [decide_eq_false_iff_not] at hp
      exact hp this.symm
    have := value_store_raw f fd (json.findField_mem hfd) v s s1 (by rw [hs]; rfl)
    rw [this, if_neg hne]
  · intro k fd hfd hp v s t s1 _ hs
    simp only [decide_eq_true_eq] at hp
    have hn : fd.name = f.key := value_fields_fold_inj fd f.key (json.findField_mem hfd)
      (ambiguous_key_mem P f) ((json.findField_name hfd).trans hp)
    rw [store_key f fd (json.findField_mem hfd) hn] at hs ⊢
    cases hs
    exact ⟨_, rfl, by rw [raw_setRaw_self, raw_setRaw_self]⟩

theorem value_filter_plain {P : Declarations} (pf : PlainField)
    (ms : List (String × json.Value)) (x : value P)
    (h : json.unmarshalMembers (value.fields P) ms {} none = .ok x) :
    ∃ t, json.unmarshalMembers (value.fields P)
        (ms.filter fun m => decide (json.foldName m.1 = json.foldName pf.key)) {} none = .ok t ∧
      pf.value t = pf.value x := by
  refine json.unmarshalMembers_filter_key (value.fields P) pf.value
    (fun k => decide (json.foldName k = json.foldName pf.key)) ?_ ?_ ms {} {} x rfl h
  · intro k fd hfd hp v s s1 hs
    have hne : fd.name ≠ pf.key := by
      intro hn
      have := json.findField_name hfd
      rw [hn] at this
      simp only [decide_eq_false_iff_not] at hp
      exact hp this.symm
    exact value_store_plain_frame pf fd (json.findField_mem hfd) hne v s s1 (by rw [hs]; rfl)
  · intro k fd hfd hp v s t s1 hst hs
    simp only [decide_eq_true_eq] at hp
    have hn : fd.name = pf.key := value_fields_fold_inj fd pf.key (json.findField_mem hfd)
      (plain_key_mem P pf) ((json.findField_name hfd).trans hp)
    have h1 := value_store_plain_map pf fd (json.findField_mem hfd) hn v s
    have h2 := value_store_plain_map pf fd (json.findField_mem hfd) hn v t
    rw [← hst, ← h1, hs] at h2
    cases ht : fd.store v t with
    | ok t1 => rw [ht] at h2; exact ⟨t1, rfl, json.Decoded.ok.inj h2⟩
    | saved t1 e => rw [ht] at h2; cases h2
    | abort e => rw [ht] at h2; cases h2

/-- Two calls on zero receivers that return no error and whose schemas hold the same
raw value for an ambiguous field leave the same value in the field. -/
theorem get_eq_of_raw_eq {P : Declarations} (f : AmbiguousField) (x1 x2 : value P)
    (s1 s2 : ServerCapabilities P) (hraw : f.raw x1 = f.raw x2)
    (h1 : runBlocks (AmbiguousField.all.map fun f => f.block (f.raw x1)) (copyPlain x1 {}) =
      (s1, none))
    (h2 : runBlocks (AmbiguousField.all.map fun f => f.block (f.raw x2)) (copyPlain x2 {}) =
      (s2, none)) :
    f.get s1 = f.get s2 := by
  rcases runBlocks_ok x1 AmbiguousField.all _ s1 all_nodup h1 f (mem_all f) with
    ⟨hn1, hg1⟩ | ⟨r1, d1, hr1, hd1, hg1⟩ <;>
  rcases runBlocks_ok x2 AmbiguousField.all _ s2 all_nodup h2 f (mem_all f) with
    ⟨hn2, hg2⟩ | ⟨r2, d2, hr2, hd2, hg2⟩
  · rw [hg1, hg2, get_copyPlain, get_copyPlain]
  · rw [hraw, hr2] at hn1; cases hn1
  · rw [← hraw, hr1] at hn2; cases hn2
  · rw [hraw, hr2] at hr1
    cases hr1
    rw [hd2] at hd1
    cases hd1
    rw [hg1, hg2]

/-- C21, the claim as stated fails: the two objects carry the same value, `true`,
under the key `hoverProvider`, and both decode without error into zero receivers,
yet `HoverProvider` is `true` after the first and `false` after the second, whose
member `HOVERPROVIDER` is stored in the same field. -/
theorem field_independence_counterexample :
    (json.Value.obj [("hoverProvider", .bool true)]).membersAt "hoverProvider" =
      (json.Value.obj [("hoverProvider", .bool true),
        ("HOVERPROVIDER", .bool false)]).membersAt "hoverProvider" ∧
    UnmarshalJSON ({} : ServerCapabilities sample) (.obj [("hoverProvider", .bool true)]) =
      ({ HoverProvider := some (.bool true) }, none) ∧
    UnmarshalJSON ({} : ServerCapabilities sample)
        (.obj [("hoverProvider", .bool true), ("HOVERPROVIDER", .bool false)]) =
      ({ HoverProvider := some (.bool false) }, none) := by
  refine ⟨rfl, rfl, rfl⟩

/-- C21 as amended: when two input objects both decode without error into zero
receivers and have the same members, in the same order, among those whose key matches
the key of a field exactly or case-insensitively, that field is equal in the two
results. This holds for each ambiguous field and for each of the seven copied fields:
the value decoded for a field depends on no member stored in another field. -/
theorem field_independence (P : Declarations) (o1 o2 : List (String × json.Value))
    (s1 s2 : ServerCapabilities P)
    (h1 : UnmarshalJSON ({} : ServerCapabilities P) (.obj o1) = (s1, none))
    (h2 : UnmarshalJSON ({} : ServerCapabilities P) (.obj o2) = (s2, none)) :
    (∀ f : AmbiguousField,
      (o1.filter fun m => decide (json.foldName m.1 = json.foldName f.key)) =
        (o2.filter fun m => decide (json.foldName m.1 = json.foldName f.key)) →
      f.get s1 = f.get s2) ∧
    (∀ pf : PlainField,
      (o1.filter fun m => decide (json.foldName m.1 = json.foldName pf.key)) =
        (o2.filter fun m => decide (json.foldName m.1 = json.foldName pf.key)) →
      pf.get s1 = pf.get s2) := by
  obtain ⟨x1, hx1, hr1⟩ := UnmarshalJSON_schema_ok _ _ _ h1
  obtain ⟨x2, hx2, hr2⟩ := UnmarshalJSON_schema_ok _ _ _ h2
  have hm1 := value_Unmarshal_obj o1 x1 hx1
  have hm2 := value_Unmarshal_obj o2 x2 hx2
  constructor
  · intro f hf
    obtain ⟨t1, ht1, hg1⟩ := value_filter_raw f o1 x1 hm1
    obtain ⟨t2, ht2, hg2⟩ := value_filter_raw f o2 x2 hm2
    rw [hf, ht2] at ht1
    cases ht1
    exact get_eq_of_raw_eq f x1 x2 s1 s2 (hg1.symm.trans hg2) hr1 hr2
  · intro pf hf
    obtain ⟨t1, ht1, hg1⟩ := value_filter_plain pf o1 x1 hm1
    obtain ⟨t2, ht2, hg2⟩ := value_filter_plain pf o2 x2 hm2
    rw [hf, ht2] at ht1
    cases ht1
    obtain ⟨y1, hy1, hp1, _⟩ := UnmarshalJSON_plain _ _ _ h1
    obtain ⟨y2, hy2, hp2, _⟩ := UnmarshalJSON_plain _ _ _ h2
    rw [hx1] at hy1
    rw [hx2] at hy2
    cases hy1
    cases hy2
    rw [hp1 pf, hp2 pf, ← hg1, ← hg2]

/-- C21 as amended, at concrete inputs: two objects that agree on `hoverProvider` and
differ elsewhere give the same `HoverProvider`. -/
theorem field_independence_witness :
    (UnmarshalJSON ({} : ServerCapabilities sample)
        (.obj [("hoverProvider", .bool true), ("inlayHintProvider", .bool false)])).1.HoverProvider =
      (UnmarshalJSON ({} : ServerCapabilities sample)
        (.obj [("renameProvider", .bool true), ("hoverProvider", .bool true)])).1.HoverProvider :=
  (field_independence sample
    [("hoverProvider", .bool true), ("inlayHintProvider", .bool false)]
    [("renameProvider", .bool true), ("hoverProvider", .bool true)] _ _ rfl rfl).1
    .HoverProvider rfl

end protocol

namespace protocol
open ServerCapabilities

theorem raw_zero {P : Declarations} (f : AmbiguousField) : f.raw ({} : value P) = none := by
  cases f <;> rfl

theorem plain_value_zero {P : Declarations} (pf : PlainField) :
    pf.value ({} : value P) = none := by
  cases pf <;> rfl

/-- What the schema holds for a field no member of the input is stored in: nothing. -/
theorem schema_absent {P : Declarations} (data : json.Value) (x : value P) (key : String)
    (hx : json.Unmarshal (value.unmarshal P) data {} = .ok x)
    (habs : data = .null ∨
      ∃ ms, data = .obj ms ∧ ∀ m ∈ ms, json.foldName m.1 ≠ json.foldName key) :
    (∀ f : AmbiguousField, f.key = key → f.raw x = none) ∧
    (∀ pf : PlainField, pf.key = key → pf.value x = none) := by
  rcases habs with rfl | ⟨ms, rfl, hms⟩
  · cases hx
    exact ⟨fun f _ => raw_zero f, fun pf _ => plain_value_zero pf⟩
  · constructor
    · intro f hf
      rw [value_unmarshal_raw f ms x hx]
      exact json.captured_of_no_match _ _ ms none (hf ▸ hms)
    · intro pf hpf
      have h1 := value_Unmarshal_obj ms x hx
      have := json.unmarshalMembers_frame (value.fields P) pf.key pf.value
        (value_store_plain_frame pf) ms {} none x (hpf ▸ hms) (by rw [h1]; rfl)
      rw [this, plain_value_zero]

/-- C24, the claim as stated fails. The key `hoverProvider` is absent from the object
with the one key `HOVERPROVIDER`, and the call returns no error, yet `HoverProvider`
of the receiver changes from `true` to `false`; and the key `completionProvider` is
absent from the object with the one key `COMPLETIONPROVIDER`, yet `CompletionProvider`
is not nil after the call. -/
theorem decode_frame_counterexample :
    ((json.Value.obj [("HOVERPROVIDER", .bool false)]).membersAt "hoverProvider" = [] ∧
      UnmarshalJSON ({ HoverProvider := some (.bool true) } : ServerCapabilities sample)
          (.obj [("HOVERPROVIDER", .bool false)]) =
        ({ HoverProvider := some (.bool false) }, none)) ∧
    ((json.Value.obj [("COMPLETIONPROVIDER", .obj [])]).membersAt "completionProvider" = [] ∧
      UnmarshalJSON ({} : ServerCapabilities sample) (.obj [("COMPLETIONPROVIDER", .obj [])]) =
        ({ CompletionProvider := some ({} : protocol316.WorkDoneProgressOptions) }, none)) := by
  refine ⟨⟨rfl, rfl⟩, ⟨rfl, rfl⟩⟩

/-- C24 as amended: after a call of `UnmarshalJSON` that returns no error, whatever the
receiver held, (a) each ambiguous field that no member of the input matches, exactly or
case-insensitively (the input being `null` or an object), holds what the receiver held
before; (b) each of the seven copied fields holds what the schema, decoded from its
zero value, holds, and is nil when no member of the input matches its key, exactly or
case-insensitively; (c) `Experimental` holds what the receiver held before. -/
theorem decode_frame (P : Declarations) (self s1 : ServerCapabilities P) (data : json.Value)
    (h : UnmarshalJSON self data = (s1, none)) :
    (∀ f : AmbiguousField,
      (data = .null ∨
        ∃ ms, data = .obj ms ∧ ∀ m ∈ ms, json.foldName m.1 ≠ json.foldName f.key) →
      f.get s1 = f.get self) ∧
    (∃ x, json.Unmarshal (value.unmarshal P) data {} = .ok x ∧
      ∀ pf : PlainField, pf.get s1 = pf.value x) ∧
    (∀ pf : PlainField,
      (data = .null ∨
        ∃ ms, data = .obj ms ∧ ∀ m ∈ ms, json.foldName m.1 ≠ json.foldName pf.key) →
      pf.get s1 = none) ∧
    s1.Experimental = self.Experimental := by
  obtain ⟨x, hx, hrun⟩ := UnmarshalJSON_schema_ok self s1 data h
  obtain ⟨y, hy, hplain, hexp⟩ := UnmarshalJSON_plain self s1 data h
  rw [hx] at hy
  cases hy
  refine ⟨?_, ⟨x, hx, hplain⟩, ?_, hexp⟩
  · intro f habs
    have hraw := (schema_absent data x f.key hx habs).1 f rfl
    have := runBlocks_get_raw_none x f hraw AmbiguousField.all (copyPlain x self)
    rw [hrun] at this
    exact this.trans (get_copyPlain f x self)
  · intro pf habs
    rw [hplain pf]
    exact (schema_absent data x pf.key hx habs).2 pf rfl

/-- C24 as amended, at a concrete input: a receiver that holds `HoverProvider`,
`CompletionProvider` and `Experimental` decodes an object with the one key
`inlayHintProvider`; the first and the last are kept, the second becomes nil. -/
theorem decode_frame_witness :
    ∃ s1 : ServerCapabilities sample,
      UnmarshalJSON
          ({ HoverProvider := some (.bool true),
             CompletionProvider := some ({} : protocol316.WorkDoneProgressOptions),
             Experimental := some (.int 1) } : ServerCapabilities sample)
          (.obj [("inlayHintProvider", .bool true)]) = (s1, none) ∧
      s1.InlayHintProvider = some (.bool true) ∧
      s1.HoverProvider = some (.bool true) ∧
      s1.CompletionProvider = none ∧
      s1.Experimental = some (.int 1) :=
  ⟨_, rfl, rfl,
    (decode_frame sample _ _ (.obj [("inlayHintProvider", .bool true)]) rfl).1 .HoverProvider
      (Or.inr ⟨_, rfl, by decide⟩),
    (decode_frame sample _ _ (.obj [("inlayHintProvider", .bool true)]) rfl).2.2.1
      .CompletionProvider (Or.inr ⟨_, rfl, by decide⟩),
    (decode_frame sample _ _ (.obj [("inlayHintProvider", .bool true)]) rfl).2.2.2⟩

end protocol

namespace json

/-- Decoding a value other than `null` into a pointer leaves the pointer non-nil,
pointing at what the pointee decode stored. -/
theorem unmarshalPtr_populates {α : Type} (zero : α) (dec : Value → α → Decoded α)
    (v : Value) (cur r : Option α) (hv : v ≠ .null)
    (h : (unmarshalPtr zero dec v cur).val? = some r) :
    ∃ a, (dec v (cur.getD zero)).val? = some a ∧ r = some a := by
  have e : unmarshalPtr zero dec v cur = (dec v (cur.getD zero)).map some := by
    cases v <;> first | exact absurd rfl hv | rfl
  rw [e, Decoded.val?_map, Option.map_eq_some'] at h
  obtain ⟨a, ha, rfl⟩ := h
  exact ⟨a, ha, rfl⟩

end json

namespace protocol

/-- C14, the claim as stated fails. In the sample declarations the embedded 3.16
struct declares the key `workspace` as well, and here it holds a value; the 3.17 field
`Workspace` is nil. The encoding is the empty object: the key `workspace` is emitted
not once but not at all, the nil 3.17 field being left out under `omitempty` and the
3.16 field being hidden by it. -/
theorem outer_field_counterexample :
    "workspace" ∈ sampleClient.ClientCapabilities.members.map (·.name) ∧
    "workspace" ∈ (ClientCapabilities.own sampleClient).map (·.name) ∧
    ClientCapabilities.marshal sampleClient
      { toClientCapabilities := { Flag := some true }, Workspace := none } = .obj [] ∧
    ((ClientCapabilities.marshal sampleClient
      { toClientCapabilities := { Flag := some true }, Workspace := none }).membersAt
        "workspace").length ≠ 1 := by
  refine ⟨by decide, by decide, rfl, by decide⟩

/-- C14 as amended: whatever fields the embedded 3.16 structs declare, also under the
same keys, the keys `general`, `workspace` and `textDocument` of a `ClientCapabilities`
and the key `capabilities` of an `InitializeParams` belong to the field the 3.17 struct
declares itself. The decoder looks each of these keys up to that field. Decoding an
object with one of them populates the 3.17 field from the value (a value other than
`null` leaves the pointer non-nil, pointing at what the 3.17 struct decoded; `null`
sets it to nil) and leaves the embedded struct as it was, at its zero value when
decoding into a zero value. The encoder emits the key for the 3.17 field only, at most
once: once with the encoding of that field when the field is non-nil, and always for
`capabilities`; not at all when the 3.17 pointer is nil under `omitempty`. -/
theorem outer_field_takes_key (Q : ClientDeclarations) :
    ((ClientCapabilities.own Q).map (·.name) = ["general", "workspace", "textDocument"] ∧
      (InitializeParams.own Q).map (·.name) = ["capabilities"]) ∧
    ((∀ m ∈ ClientCapabilities.own Q,
        json.findField (json.structFields (ClientCapabilities.members Q)) m.name =
          some m.toField) ∧
      (∀ m ∈ InitializeParams.own Q,
        json.findField (json.structFields (InitializeParams.members Q)) m.name =
          some m.toField)) ∧
    ((∀ v s, ClientCapabilities.unmarshal Q (.obj [("general", v)]) s =
        (json.unmarshalPtr {} (GeneralClientCapabilities.unmarshal Q) v s.General).map
          fun p => { s with General := p }) ∧
      (∀ v s, ClientCapabilities.unmarshal Q (.obj [("workspace", v)]) s =
        (json.unmarshalPtr {} WorkspaceClientCapabilities.unmarshal v s.Workspace).map
          fun p => { s with Workspace := p }) ∧
      (∀ v s, ClientCapabilities.unmarshal Q (.obj [("textDocument", v)]) s =
        (json.unmarshalPtr {} (TextDocumentClientCapabilities.unmarshal Q) v s.TextDocument).map
          fun p => { s with TextDocument := p }) ∧
      (∀ v s, InitializeParams.unmarshal Q (.obj [("capabilities", v)]) s =
        (ClientCapabilities.unmarshal Q v s.Capabilities).map
          fun p => { s with Capabilities := p })) ∧
    ((∀ v s s1, v ≠ .null →
        (ClientCapabilities.unmarshal Q (.obj [("general", v)]) s).val? = some s1 →
        ∃ g, (GeneralClientCapabilities.unmarshal Q v (s.General.getD {})).val? = some g ∧
          s1.General = some g) ∧
      (∀ v s s1, v ≠ .null →
        (ClientCapabilities.unmarshal Q (.obj [("workspace", v)]) s).val? = some s1 →
        ∃ w, (WorkspaceClientCapabilities.unmarshal v (s.Workspace.getD {})).val? = some w ∧
          s1.Workspace = some w) ∧
      (∀ v s s1, v ≠ .null →
        (ClientCapabilities.unmarshal Q (.obj [("textDocument", v)]) s).val? = some s1 →
        ∃ t, (TextDocumentClientCapabilities.unmarshal Q v (s.TextDocument.getD {})).val? =
            some t ∧ s1.TextDocument = some t) ∧
      (∀ v s s1, (InitializeParams.unmarshal Q (.obj [("capabilities", v)]) s).val? = some s1 →
        (ClientCapabilities.unmarshal Q v s.Capabilities).val? = some s1.Capabilities)) ∧
    ((∀ s, ClientCapabilities.unmarshal Q (.obj [("general", .null)]) s =
        .ok { s with General := none }) ∧
      (∀ s, ClientCapabilities.unmarshal Q (.obj [("workspace", .null)]) s =
        .ok { s with Workspace := none }) ∧
      (∀ s, ClientCapabilities.unmarshal Q (.obj [("textDocument", .null)]) s =
        .ok { s with TextDocument := none })) ∧
    (ClientCapabilities.unmarshal Q (.obj [("general", .obj [])]) {} =
        .ok { General := some {} } ∧
      ClientCapabilities.unmarshal Q
          (.obj [("workspace", .obj [("inlayHint", .obj [("refreshSupport", .bool true)])])]) {} =
        .ok { Workspace := some { InlayHint := some { RefreshSupport := some true } } } ∧
      ClientCapabilities.unmarshal Q (.obj [("textDocument", .obj [])]) {} =
        .ok { TextDocument := some {} } ∧
      InitializeParams.unmarshal Q (.obj [("capabilities", .obj [("workspace", .obj [])])]) {} =
        .ok { Capabilities := { Workspace := some {} } }) ∧
    ((∀ key ∈ ["general", "workspace", "textDocument"], ∀ v s s1,
        (ClientCapabilities.unmarshal Q (.obj [(key, v)]) s).val? = some s1 →
        s1.toClientCapabilities = s.toClientCapabilities) ∧
      (∀ v s s1, (InitializeParams.unmarshal Q (.obj [("capabilities", v)]) s).val? = some s1 →
        s1.toInitializeParams = s.toInitializeParams)) ∧
    ((∀ s, (ClientCapabilities.marshal Q s).membersAt "general" =
        (s.General.map (GeneralClientCapabilities.marshal Q)).toList) ∧
      (∀ s, (ClientCapabilities.marshal Q s).membersAt "workspace" =
        (s.Workspace.map WorkspaceClientCapabilities.marshal).toList) ∧
      (∀ s, (ClientCapabilities.marshal Q s).membersAt "textDocument" =
        (s.TextDocument.map (TextDocumentClientCapabilities.marshal Q)).toList) ∧
      (∀ s, (InitializeParams.marshal Q s).membersAt "capabilities" =
        [ClientCapabilities.marshal Q s.Capabilities])) ∧
    ((∀ s g, s.General = some g → (ClientCapabilities.marshal Q s).membersAt "general" =
        [GeneralClientCapabilities.marshal Q g]) ∧
      (∀ s w, s.Workspace = some w → (ClientCapabilities.marshal Q s).membersAt "workspace" =
        [WorkspaceClientCapabilities.marshal w]) ∧
      (∀ s t, s.TextDocument = some t →
        (ClientCapabilities.marshal Q s).membersAt "textDocument" =
          [TextDocumentClientCapabilities.marshal Q t]) ∧
      (∀ s, s.General = none → (ClientCapabilities.marshal Q s).membersAt "general" = []) ∧
      (∀ s, s.Workspace = none → (ClientCapabilities.marshal Q s).membersAt "workspace" = []) ∧
      (∀ s, s.TextDocument = none →
        (ClientCapabilities.marshal Q s).membersAt "textDocument" = [])) := by
  have hg : (ClientCapabilities.own Q).get ⟨0, by simp [ClientCapabilities.own]⟩ ∈
      ClientCapabilities.own Q := List.get_mem _ _ _
  have hw : (ClientCapabilities.own Q).get ⟨1, by simp [ClientCapabilities.own]⟩ ∈
      ClientCapabilities.own Q := List.get_mem _ _ _
  have ht : (ClientCapabilities.own Q).get ⟨2, by simp [ClientCapabilities.own]⟩ ∈
      ClientCapabilities.own Q := List.get_mem _ _ _
  have hc : (InitializeParams.own Q).get ⟨0, by simp [InitializeParams.own]⟩ ∈
      InitializeParams.own Q := List.get_mem _ _ _
  have dG : ∀ v s, ClientCapabilities.unmarshal Q (.obj [("general", v)]) s =
      (json.unmarshalPtr {} (GeneralClientCapabilities.unmarshal Q) v s.General).map
        fun p => { s with General := p } :=
    fun v s => ClientCapabilities.unmarshal_outer Q _ hg v s
  have dW : ∀ v s, ClientCapabilities.unmarshal Q (.obj [("workspace", v)]) s =
      (json.unmarshalPtr {} WorkspaceClientCapabilities.unmarshal v s.Workspace).map
        fun p => { s with Workspace := p } :=
    fun v s => ClientCapabilities.unmarshal_outer Q _ hw v s
  have dT : ∀ v s, ClientCapabilities.unmarshal Q (.obj [("textDocument", v)]) s =
      (json.unmarshalPtr {} (TextDocumentClientCapabilities.unmarshal Q) v s.TextDocument).map
        fun p => { s with TextDocument := p } :=
    fun v s => ClientCapabilities.unmarshal_outer Q _ ht v s
  have dC : ∀ v s, InitializeParams.unmarshal Q (.obj [("capabilities", v)]) s =
      (ClientCapabilities.unmarshal Q v s.Capabilities).map
        fun p => { s with Capabilities := p } :=
    fun v s => InitializeParams.unmarshal_capabilities Q _ hc v s
  have mG : ∀ s, (ClientCapabilities.marshal Q s).membersAt "general" =
      (s.General.map (GeneralClientCapabilities.marshal Q)).toList :=
    fun s => ClientCapabilities.marshal_outer Q _ hg s
  have mW : ∀ s, (ClientCapabilities.marshal Q s).membersAt "workspace" =
      (s.Workspace.map WorkspaceClientCapabilities.marshal).toList :=
    fun s => ClientCapabilities.marshal_outer Q _ hw s
  have mT : ∀ s, (ClientCapabilities.marshal Q s).membersAt "textDocument" =
      (s.TextDocument.map (TextDocumentClientCapabilities.marshal Q)).toList :=
    fun s => ClientCapabilities.marshal_outer Q _ ht s
  refine ⟨⟨rfl, rfl⟩, ⟨ClientCapabilities.findField_outer Q,
    InitializeParams.findField_capabilities Q⟩, ⟨dG, dW, dT, dC⟩, ⟨?_, ?_, ?_, ?_⟩,
    ⟨?_, ?_, ?_⟩, ⟨?_, ?_, ?_, ?_⟩, ⟨?_, ?_⟩,
    ⟨mG, mW, mT, fun s => InitializeParams.marshal_capabilities Q _ hc s⟩,
    ⟨?_, ?_, ?_, ?_, ?_, ?_⟩⟩
  · intro v s s1 hv h
    rw [dG, json.Decoded.val?_map, Option.map_eq_some'] at h
    obtain ⟨r, hr, rfl⟩ := h
    exact json.unmarshalPtr_populates _ _ v _ r hv hr
  · intro v s s1 hv h
    rw [dW, json.Decoded.val?_map, Option.map_eq_some'] at h
    obtain ⟨r, hr, rfl⟩ := h
    exact json.unmarshalPtr_populates _ _ v _ r hv hr
  · intro v s s1 hv h
    rw [dT, json.Decoded.val?_map, Option.map_eq_some'] at h
    obtain ⟨r, hr, rfl⟩ := h
    exact json.unmarshalPtr_populates _ _ v _ r hv hr
  · intro v s s1 h
    rw [dC, json.Decoded.val?_map, Option.map_eq_some'] at h
    obtain ⟨r, hr, rfl⟩ := h
    exact hr
  · intro s; rw [dG]; rfl
  · intro s; rw [dW]; rfl
  · intro s; rw [dT]; rfl
  · rw [dG]; rfl
  · rw [dW]; rfl
  · rw [dT]; rfl
  · rw [dC, dW]; rfl
  · intro key hkey v s s1 h
    simp only [List.mem_cons, List.mem_singleton, List.not_mem_nil, or_false] at hkey
    rcases hkey with rfl | rfl | rfl
    · exact ClientCapabilities.store_own_base Q _ hg v s s1
        ((congrArg json.Decoded.val? (ClientCapabilities.unmarshal_outer Q _ hg v s)).symm.trans h)
    · exact ClientCapabilities.store_own_base Q _ hw v s s1
        ((congrArg json.Decoded.val? (ClientCapabilities.unmarshal_outer Q _ hw v s)).symm.trans h)
    · exact ClientCapabilities.store_own_base Q _ ht v s s1
        ((congrArg json.Decoded.val? (ClientCapabilities.unmarshal_outer Q _ ht v s)).symm.trans h)
  · intro v s s1 h
    rw [dC, json.Decoded.val?_map, Option.map_eq_some'] at h
    obtain ⟨r, _, rfl⟩ := h
    rfl
  · intro s g h; rw [mG, h]; rfl
  · intro s w h; rw [mW, h]; rfl
  · intro s t h; rw [mT, h]; rfl
  · intro s h; rw [mG, h]; rfl
  · intro s h; rw [mW, h]; rfl
  · intro s h; rw [mT, h]; rfl

/-- C14 as amended, on the sample declarations, whose embedded 3.16 struct declares
the key `workspace` as well: decoding the key populates the 3.17 field and leaves the
embedded struct zero, and the encoding of a value that holds both carries the key once,
with the 3.17 value. -/
theorem outer_field_takes_key_witness :
    (∃ s1 : ClientCapabilities sampleClient,
      (ClientCapabilities.unmarshal sampleClient
        (.obj [("workspace", .obj [("inlayHint", .obj [])])]) {}).val? = some s1 ∧
      s1.Workspace = some { InlayHint := some {} } ∧
      s1.toClientCapabilities = ({} : SampleFlag)) ∧
    (ClientCapabilities.marshal sampleClient
      { toClientCapabilities := { Flag := some true },
        Workspace := some { InlayHint := some {} } }).membersAt "workspace" =
      [.obj [("inlayHint", .obj [])]] :=
  ⟨⟨_, rfl, rfl,
    (outer_field_takes_key sampleClient).2.2.2.2.2.2.1.1 "workspace" (by decide)
      (.obj [("inlayHint", .obj [])]) {} _ rfl⟩,
   ((outer_field_takes_key sampleClient).2.2.2.2.2.2.2.2.2.1
      { toClientCapabilities := { Flag := some true },
        Workspace := some { InlayHint := some {} } }
      { InlayHint := some {} } rfl).trans rfl⟩

end protocol
